import Mathlib

/-!
# scut: column selection parser and per-line extractor

A shallow embedding of `scut.c` (a small `cut`-like filter) and theorems about
its selection parser (`validateSelection`, `addRange`, `getCols`), the per-line
extraction loop of `main`, and `main` itself with the libc `fgets` that feeds
it.

Conventions of the embedding

* A C string is the list of its characters before the terminating NUL; reading
  `s[i]` at `i = strlen s` yields NUL (`charAt`).
* Fixed-size arrays (`int cols[128]`, `char curr[3]`, `char buffer[129]`) are
  lists of that many cells.  An access outside the array is undefined behaviour
  in C and is `none` here.
* `int` values are `Int`; counters that only count up from 0 or 1 and are
  bounded by an array length (`i`, `j`, `col`, `col_ind`, `curr_ind`) are `Nat`.
  No value in the program comes near the 32-bit limit: numbers are read from a
  three-cell digit buffer and counters are bounded by 129.
-/

namespace Scut

/-! ## Characters and C strings -/

/-- The string terminator. -/
def NUL : Char := Char.ofNat 0

/-- The test `c > 47 && c < 58` used throughout the source. -/
def isDigit (c : Char) : Bool := decide (47 < c.toNat) && decide (c.toNat < 58)

/-- Reading `s[i]` in a C string whose characters are `s`: the characters are
followed by the terminating NUL. -/
def charAt (s : List Char) (i : Nat) : Char := s.getD i NUL

/-! ## validateSelection -/

/-- The test of the loop body of `validateSelection`:
`(sel[i] > 47 && sel[i] < 58) || sel[i] == ',' || sel[i] == '-'`. -/
def selChar (c : Char) : Bool := isDigit c || c == ',' || c == '-'

/-- The loop `for (i = 1; i < strlen(sel)-1; i++)` of `validateSelection`, with
`n` iterations left: `true` when no iteration returns 2. -/
def validateLoop (sel : List Char) : Nat → Nat → Bool
  | 0, _ => true
  | n + 1, i => if !(selChar (charAt sel i)) then false else validateLoop sel n (i + 1)

/-- `int validateSelection(char *sel)`.  When `sel[0]` is a digit the string is
not empty, so `strlen(sel)-1` does not wrap around and the loop runs for
`i = 1, ..., strlen(sel)-2`. -/
def validateSelection (sel : List Char) : Int :=
  if !(isDigit (charAt sel 0)) then 2
  else if !(validateLoop sel (sel.length - 1 - 1) 1) then 2
  else if !(isDigit (charAt sel (sel.length - 1))) then 2
  else 0

/-! ## atoi, addRange, getCols -/

/-- The `isspace` of the C locale. -/
def isSpace (c : Char) : Bool := c == ' ' || (decide (9 ≤ c.toNat) && decide (c.toNat ≤ 13))

/-- The digit loop of `atoi` over the remaining cells of the array: it stops at
the first character that is not a digit, and runs off the array (`none`) when
there is none. -/
def atoiDigits : List Char → Int → Option Int
  | [], _ => none
  | c :: cs, acc => if isDigit c then atoiDigits cs (10 * acc + ((c.toNat : Int) - 48)) else some acc

/-- The white-space skip of `atoi`, followed by the optional sign and the
digits. -/
def atoiSkip : List Char → Option Int
  | [] => none
  | c :: cs =>
    if isSpace c then atoiSkip cs
    else if c = '-' then (atoiDigits cs 0).map (fun v => -v)
    else if c = '+' then atoiDigits cs 0
    else atoiDigits (c :: cs) 0

/-- The libc `atoi` applied to a character array given by its cells. -/
def atoi (buf : List Char) : Option Int := atoiSkip buf

/-- The loop `for (int i = a; i <= b; i++) { cols[j] = i; j++; }` of `addRange`.
The fuel is the number of iterations left. -/
def addRangeLoop (b : Int) : Nat → List Int → Nat → Int → Option (List Int × Nat)
  | 0, cols, j, i => if i ≤ b then none else some (cols, j)
  | fuel + 1, cols, j, i =>
    if i ≤ b then
      if j < cols.length then addRangeLoop b fuel (cols.set j i) (j + 1) (i + 1) else none
    else some (cols, j)

/-- `void addRange(int *cols, int *col_ind, int a, int b)`: returns the array
and the new value of `*col_ind`.  The loop runs `b + 1 - a` times when `a ≤ b`
and not at all otherwise. -/
def addRange (cols : List Int) (col_ind : Nat) (a b : Int) : Option (List Int × Nat) :=
  addRangeLoop b (b + 1 - a).toNat cols col_ind a

/-- The local state of `getCols`. -/
structure ParseState where
  cols : List Int
  col_ind : Nat
  curr : List Char
  curr_ind : Nat
  prev : Int
  deriving DecidableEq, Repr

/-- A write `a[i] = v` into an array given by its cells. -/
def store {α : Type} (a : List α) (i : Nat) (v : α) : Option (List α) :=
  if i < a.length then some (a.set i v) else none

/-- One iteration of the `for` loop of `getCols`, at index `i`. -/
def getColsStep (sel : List Char) (i : Nat) (st : ParseState) : Option ParseState :=
  if isDigit (charAt sel i) then do
    let curr ← store st.curr st.curr_ind (charAt sel i)
    let curr_ind := st.curr_ind + 1
    if charAt sel (i + 1) = ',' then do
      let n ← atoi curr
      let curr1 ← store curr 1 ' '
      if st.prev ≠ -1 then do
        let (cols, col_ind) ← addRange st.cols st.col_ind st.prev n
        pure { cols := cols, col_ind := col_ind, curr := curr1, curr_ind := 0, prev := -1 }
      else do
        let cols ← store st.cols st.col_ind n
        pure { cols := cols, col_ind := st.col_ind + 1, curr := curr1, curr_ind := 0, prev := st.prev }
    else if charAt sel (i + 1) = '-' then do
      let prev ← if st.prev = -1 then atoi curr else pure st.prev
      let curr1 ← store curr 1 ' '
      pure { cols := st.cols, col_ind := st.col_ind, curr := curr1, curr_ind := 0, prev := prev }
    else
      pure { cols := st.cols, col_ind := st.col_ind, curr := curr, curr_ind := curr_ind, prev := st.prev }
  else pure st

/-- The loop `for (int i = 0; i < strlen(sel); i++)` of `getCols`, with `n`
iterations left. -/
def getColsLoop (sel : List Char) : Nat → Nat → ParseState → Option ParseState
  | 0, _, st => some st
  | n + 1, i, st => (getColsStep sel i st).bind (getColsLoop sel n (i + 1))

/-- `void getCols(int *cols, char *sel)`: the contents of `cols` on return. -/
def getCols (cols : List Int) (sel : List Char) : Option (List Int) := do
  let st ← getColsLoop sel sel.length 0
    { cols := cols, col_ind := 0, curr := [' ', ' ', NUL], curr_ind := 0, prev := -1 }
  let n ← atoi st.curr
  if st.prev ≠ -1 then do
    let (cols, _) ← addRange st.cols st.col_ind st.prev n
    pure cols
  else store st.cols st.col_ind n

/-- The array `int cols[128] = {0}` of `main`. -/
def zeroCols : List Int := List.replicate 128 0

/-- The columns an extraction loop can see in a `cols` array: the entries
before the first 0. -/
def columnSet (cols : List Int) : List Int := cols.takeWhile (fun c => c ≠ 0)

/-! ## The per-line extraction loop of `main` -/

/-- A read `a[i]` of an array given by its cells. -/
def load {α : Type} (a : List α) (i : Nat) : Option α := a.get? i

/-- The body of the delimiter test of the field modes (`flag == 1` with `' '`,
`flag == 2` with `','`), entered when `buffer[i]` is the delimiter: it may
print a space and advance `j`, then advances `col` and `i`.  Returns the new
`(i, j, col, out)`. -/
def crossDelim (cols : List Int) (i j col : Nat) (out : List Char) :
    Option (Nat × Nat × Nat × List Char) := do
  let cj ← load cols j
  if (col : Int) = cj then do
    let cj1 ← load cols (j + 1)
    if cj1 ≠ 0 then pure (i + 1, j + 1, col + 1, out ++ [' '])
    else pure (i + 1, j, col + 1, out)
  else pure (i + 1, j, col + 1, out)

/-- The statement `if (col == cols[j]) printf("%c", buffer[i]);` of the field
modes. -/
def printIfSelected (cols : List Int) (buffer : List Char) (i j col : Nat) (out : List Char) :
    Option (List Char) := do
  let cj ← load cols j
  if (col : Int) = cj then do
    let c ← load buffer i
    pure (out ++ [c])
  else pure out

/-- The loop `while (buffer[i] != '\n' && buffer[i] != '\0')` of `main` for
one buffer; `out` collects what `printf` writes.  Every iteration advances `i`,
and a read outside `buffer` ends the run, so a fuel above the buffer's length
is never used up. -/
def extractLoop (flag : Int) (cols : List Int) (buffer : List Char) :
    Nat → Nat → Nat → Nat → List Char → Option (List Char)
  | 0, _, _, _, _ => none
  | fuel + 1, i, j, col, out => do
    let c ← load buffer i
    if c = '\n' ∨ c = NUL then pure out
    else if flag = 0 then do
      let cj ← load cols j
      if ((i + 1 : Nat) : Int) = cj then do
        let cj1 ← load cols (j + 1)
        extractLoop flag cols buffer fuel (i + 1) (j + 1) col
          (if cj1 ≠ 0 then out ++ [c] ++ [' '] else out ++ [c])
      else extractLoop flag cols buffer fuel (i + 1) j col out
    else if flag = 1 then do
      let (i1, j1, col1, out1) ←
        if c = ' ' then crossDelim cols i j col out else pure (i, j, col, out)
      let out2 ← printIfSelected cols buffer i1 j1 col1 out1
      extractLoop flag cols buffer fuel (i1 + 1) j1 col1 out2
    else if flag = 2 then do
      let (i1, j1, col1, out1) ←
        if c = ',' then crossDelim cols i j col out else pure (i, j, col, out)
      let out2 ← printIfSelected cols buffer i1 j1 col1 out1
      extractLoop flag cols buffer fuel (i1 + 1) j1 col1 out2
    else extractLoop flag cols buffer fuel (i + 1) j col out

/-- One iteration of the outer `while (fgets(...))` loop of `main` once `fgets`
has filled `buffer`: everything written to standard output for this buffer,
the final `printf("\n")` included. -/
def extractLine (flag : Int) (cols : List Int) (buffer : List Char) : Option (List Char) :=
  (extractLoop flag cols buffer (buffer.length + 1) 0 0 1 []).map (fun out => out ++ ['\n'])

/-! ## The selection grammar

Well-formed selections are written down as data, from which the selection
string (`render`) and the columns it denotes (`expandAll`) are computed. -/

/-- The character of a decimal digit. -/
def digitChar (d : Fin 10) : Char := Char.ofNat (48 + d.val)

/-- A numeral of one or two decimal digits. -/
inductive Numeral
  | one (d : Fin 10)
  | two (d e : Fin 10)
  deriving DecidableEq, Repr

/-- The characters of a numeral. -/
def Numeral.chars : Numeral → List Char
  | .one d => [digitChar d]
  | .two d e => [digitChar d, digitChar e]

/-- The number a numeral denotes. -/
def Numeral.val : Numeral → Nat
  | .one d => d.val
  | .two d e => 10 * d.val + e.val

/-- A term of a selection: a numeral `a` or a range `a-b`. -/
inductive Term
  | single (a : Numeral)
  | range (a b : Numeral)
  deriving DecidableEq, Repr

/-- The characters of a term. -/
def Term.chars : Term → List Char
  | .single a => a.chars
  | .range a b => a.chars ++ '-' :: b.chars

/-- The first column of a term. -/
def Term.first : Term → Nat
  | .single a => a.val
  | .range a _ => a.val

/-- The last column of a term. -/
def Term.last : Term → Nat
  | .single a => a.val
  | .range _ b => b.val

/-- A range term `a-b` is ordered when `a ≤ b`. -/
def Term.ordered (t : Term) : Prop := t.first ≤ t.last

instance (t : Term) : Decidable t.ordered := by unfold Term.ordered; infer_instance

/-- The integers `a, a+1, ..., b`, as column numbers. -/
def runOf (a b : Nat) : List Int := (List.range' a (b + 1 - a)).map (fun (k : Nat) => (k : Int))

/-- The columns a term denotes: `[a]` for `a`, `[a, a+1, ..., b]` for `a-b`. -/
def Term.expand : Term → List Int
  | .single a => [(a.val : Int)]
  | .range a b => runOf a.val b.val

/-- The selection string of a list of terms: the terms separated by single
commas. -/
def render : List Term → List Char
  | [] => []
  | [t] => t.chars
  | t :: u :: ts => t.chars ++ ',' :: render (u :: ts)

/-- The columns of a list of terms, in term order. -/
def expandAll : List Term → List Int
  | [] => []
  | t :: ts => t.expand ++ expandAll ts

/-- The decimal representation of a natural number, as a selection string. -/
def decimal (n : Nat) : List Char := (Nat.repr n).toList

/-- The numeral of one or two digits that denotes `n`, for `n ≤ 99`. -/
def numeralOf (n : Nat) : Numeral :=
  if n < 10 then .one (Fin.ofNat n) else .two (Fin.ofNat (n / 10)) (Fin.ofNat (n % 10))

/-- The terms of a selection are in ascending order without overlap: every
term ends below the start of the next one. -/
def AscendingTerms : List Term → Prop
  | [] => True
  | [_] => True
  | t :: u :: ts => t.last < u.first ∧ AscendingTerms (u :: ts)

/-- Deciding `AscendingTerms` by the recursion that defines it. -/
def decAscendingTerms : (ts : List Term) → Decidable (AscendingTerms ts)
  | [] => isTrue trivial
  | [_] => isTrue trivial
  | t :: u :: ts =>
    match Nat.decLt t.last u.first, decAscendingTerms (u :: ts) with
    | isTrue h1, isTrue h2 => isTrue ⟨h1, h2⟩
    | isFalse h1, _ => isFalse (fun h => h1 h.1)
    | _, isFalse h2 => isFalse (fun h => h2 h.2)

instance (ts : List Term) : Decidable (AscendingTerms ts) := decAscendingTerms ts

/-! ## What the extraction loop writes, by recursion on the line -/

/-- What FixedWidth mode writes for the characters `l` found at the positions
`i+1, i+2, ...` of the line while the columns `pend` are pending. -/
def fixedOut : List Char → Nat → List Nat → List Char
  | [], _, _ => []
  | _ :: _, _, [] => []
  | c :: l, i, p :: ps =>
    if i + 1 = p then c :: ((if ps = [] then [] else [' ']) ++ fixedOut l (i + 1) ps)
    else fixedOut l (i + 1) (p :: ps)

/-- The cells of `cols` from index `j` on hold the pending columns `pend`
followed by the sentinel 0. -/
def Pending (cols : List Int) (j : Nat) (pend : List Nat) : Prop :=
  (∃ zs, cols.drop j = pend.map (fun (k : Nat) => (k : Int)) ++ 0 :: zs) ∧ ∀ p ∈ pend, 0 < p

/-- The test `col == cols[j] && cols[j+1] != 0` made when a delimiter is
crossed, on the pending columns: the first pending column is the current field
and another column follows it. -/
def advances (col : Nat) : List Nat → Bool
  | p :: _ :: _ => decide (col = p)
  | _ => false

/-- What a field mode writes from the middle of a field on: `r` is what is left
of the current field, number `col`, the fields `fs` follow it, each after one
delimiter, and the columns `pend` are pending. -/
def fieldOut : List Char → List (List Char) → Nat → List Nat → List Char
  | r, [], col, pend => if pend.head? = some col then r else []
  | r, f :: fs, col, pend =>
    (if pend.head? = some col then r else []) ++
      (if advances col pend then ' ' :: fieldOut f fs (col + 1) pend.tail
       else fieldOut f fs (col + 1) pend)

/-- The rest of a line: what is left of the current field, then each further
field after one delimiter. -/
def lineRest (d : Char) (r : List Char) (fs : List (List Char)) : List Char :=
  r ++ (fs.map (fun f => d :: f)).flatten

/-- A field of a well-formed line: not empty, without delimiter and without a
character that ends the line. -/
def GoodField (d : Char) (f : List Char) : Prop :=
  f ≠ [] ∧ ∀ c ∈ f, c ≠ d ∧ c ≠ '\n' ∧ c ≠ NUL

/-- The `cols` array of `main` after `getCols` has stored the columns `cs`:
the columns followed by the zeros of the initialisation. -/
def colsOf (cs : List Nat) : List Int :=
  cs.map (fun (k : Nat) => (k : Int)) ++ List.replicate (128 - cs.length) 0

/-- A ColumnSet as the extractor expects it: positive column numbers in
strictly ascending order, few enough to leave the sentinel in the array. -/
def AscendingCols (cs : List Nat) : Prop :=
  cs.Pairwise (fun a b => a < b) ∧ (∀ k ∈ cs, 0 < k) ∧ cs.length ≤ 127

instance (cs : List Nat) : Decidable (AscendingCols cs) := by
  unfold AscendingCols; infer_instance

/-- The separator written after column `k`: one space when `k` is below `last`
and another column of `cs` follows `k`, nothing otherwise. -/
def sepAfter (cs : List Nat) (last k : Nat) : List Char :=
  if k < last ∧ ∃ k' ∈ cs, k < k' then [' '] else []

/-- The separator left at the end of the output when the ColumnSet `cs` asks
for columns beyond the last one, `n`, that the line has: a column within the
line is selected, a column beyond it is requested, and the last piece written
is below `last`, the bound under which separators are written. -/
def trailingSep (cs : List Nat) (n last : Nat) : List Char :=
  if (∃ k ∈ cs, k ≤ n) ∧ (∃ k ∈ cs, n < k) ∧ (last ∈ cs → n < last) then [' '] else []

instance (d : Char) (f : List Char) : Decidable (GoodField d f) := by
  unfold GoodField; infer_instance

/-- The columns of a line in each mode: its characters in FixedWidth mode
(`flag = 0`), its fields, separated by single delimiters, in Whitespace mode
(`flag = 1`) and CommaSeparated mode (`flag = 2`). -/
def LineColumns (flag : Int) (line : List Char) (columns : List (List Char)) : Prop :=
  (flag = 0 ∧ columns = line.map (fun c => [c]) ∧ ∀ c ∈ line, c ≠ '\n' ∧ c ≠ NUL) ∨
  (flag = 1 ∧ line = List.intercalate [' '] columns ∧ ∀ f ∈ columns, GoodField ' ' f) ∨
  (flag = 2 ∧ line = List.intercalate [','] columns ∧ ∀ f ∈ columns, GoodField ',' f)

/-! ## Definitions used by the proofs -/

/-- The whole loop of `getCols` on the string `sel`, from a given state. -/
def parse (sel : List Char) (st : ParseState) : Option ParseState :=
  getColsLoop sel sel.length 0 st

/-- The statements of `getCols` after its loop. -/
def flush (st : ParseState) : Option (List Int) := do
  let n ← atoi st.curr
  if st.prev ≠ -1 then do
    let (cols, _) ← addRange st.cols st.col_ind st.prev n
    pure cols
  else store st.cols st.col_ind n

/-- The digit buffer `curr` once the numeral `a` has been copied into a buffer
whose second cell held a space. -/
def Numeral.buf : Numeral → List Char
  | .one d => [digitChar d, ' ', NUL]
  | .two d e => [digitChar d, digitChar e, NUL]

/-- The digit buffer after the reset `curr[1] = ' '`. -/
def Numeral.reset : Numeral → List Char
  | .one d => [digitChar d, ' ', NUL]
  | .two d _ => [digitChar d, ' ', NUL]

/-- A state of `getCols` between two terms: the digit index is 0 and the second
cell of the digit buffer holds a space. -/
def Fresh (st : ParseState) : Prop :=
  st.curr_ind = 0 ∧ ∃ x, st.curr = [x, ' ', NUL]

/-- The state of `getCols` between two terms, when the columns `done` have been
written in front of the untouched cells `tail`. -/
def Between (st : ParseState) (done tail : List Int) : Prop :=
  Fresh st ∧ st.prev = -1 ∧ st.cols = done ++ tail ∧ st.col_ind = done.length

/-- A string that starts and ends with a digit and holds only selection
characters. -/
def DigitEnds (l : List Char) : Prop :=
  (∃ d rest, l = digitChar d :: rest) ∧ (∃ e init, l = init ++ [digitChar e]) ∧
    ∀ c ∈ l, selChar c = true

/-- A character that ends the `while` loop of `main`. -/
def isEnd (c : Char) : Prop := c = '\n' ∨ c = NUL

instance (c : Char) : Decidable (isEnd c) := by unfold isEnd; infer_instance

/-- The flag of a field mode and its delimiter: `-w` splits on spaces, `-c` on
commas. -/
def FieldMode (flag : Int) (d : Char) : Prop := (flag = 1 ∧ d = ' ') ∨ (flag = 2 ∧ d = ',')

/-! ## Column arrays in any order -/

/-- The longest prefix of the columns `cs` that is strictly increasing, starts
above `prev` and has all its entries at most `n`. -/
def goodPrefixFrom (n : Nat) : Nat → List Nat → List Nat
  | _, [] => []
  | prev, p :: ps => if prev < p ∧ p ≤ n then p :: goodPrefixFrom n p ps else []

/-- The longest prefix of the column array `cs` that is strictly increasing and
whose entries are all at most `n`, the length of the line. -/
def goodPrefix (n : Nat) (cs : List Nat) : List Nat := goodPrefixFrom n 0 cs

/-- What FixedWidth mode writes on the line `line` of length `n` once the
position `prev` has been passed and the columns of the list are pending, as a
recursion over the pending columns. -/
def prefixOut (line : List Char) (n : Nat) : Nat → List Nat → List Char
  | _, [] => []
  | prev, p :: ps =>
    if prev < p ∧ p ≤ n then
      line.getD (p - 1) NUL :: ((if ps = [] then [] else [' ']) ++ prefixOut line n p ps)
    else []

/-! ## The extraction loop with its output annotated

The same loop as `extractLoop`, except that every `printf` records where the
character it writes comes from: the loop's control flow and the characters
written are those of `extractLoop` (`extractTrace_erase`). -/

/-- A character of the buffer written by `printf("%c", buffer[i])`: the column
`cols[j]` that selected it, its position `i` in the buffer, and the character. -/
structure Emitted where
  col : Int
  pos : Nat
  char : Char
  deriving DecidableEq, Repr

/-- What one `printf` of the loop writes: a selected character of the buffer, or
the separator of `printf(" ")`. -/
inductive Event
  | emit (e : Emitted)
  | separator
  deriving DecidableEq, Repr

/-- The character an event puts on standard output. -/
def Event.char : Event → Char
  | .emit e => e.char
  | .separator => ' '

/-- The selected characters among the events, in the order written. -/
def Event.columns : List Event → List Emitted
  | [] => []
  | .emit e :: tr => e :: Event.columns tr
  | .separator :: tr => Event.columns tr

/-- The annotated `crossDelim`. -/
def crossDelimT (cols : List Int) (i j col : Nat) (out : List Event) :
    Option (Nat × Nat × Nat × List Event) := do
  let cj ← load cols j
  if (col : Int) = cj then do
    let cj1 ← load cols (j + 1)
    if cj1 ≠ 0 then pure (i + 1, j + 1, col + 1, out ++ [Event.separator])
    else pure (i + 1, j, col + 1, out)
  else pure (i + 1, j, col + 1, out)

/-- The annotated `printIfSelected`. -/
def printIfSelectedT (cols : List Int) (buffer : List Char) (i j col : Nat) (out : List Event) :
    Option (List Event) := do
  let cj ← load cols j
  if (col : Int) = cj then do
    let c ← load buffer i
    pure (out ++ [Event.emit { col := cj, pos := i, char := c }])
  else pure out

/-- The annotated `extractLoop`: the loop
`while (buffer[i] != '\n' && buffer[i] != '\0')` of `main`, where `out` collects
the events instead of the characters. -/
def extractTrace (flag : Int) (cols : List Int) (buffer : List Char) :
    Nat → Nat → Nat → Nat → List Event → Option (List Event)
  | 0, _, _, _, _ => none
  | fuel + 1, i, j, col, out => do
    let c ← load buffer i
    if c = '\n' ∨ c = NUL then pure out
    else if flag = 0 then do
      let cj ← load cols j
      if ((i + 1 : Nat) : Int) = cj then do
        let cj1 ← load cols (j + 1)
        extractTrace flag cols buffer fuel (i + 1) (j + 1) col
          (if cj1 ≠ 0 then out ++ [Event.emit { col := cj, pos := i, char := c }] ++ [Event.separator]
           else out ++ [Event.emit { col := cj, pos := i, char := c }])
      else extractTrace flag cols buffer fuel (i + 1) j col out
    else if flag = 1 then do
      let (i1, j1, col1, out1) ←
        if c = ' ' then crossDelimT cols i j col out else pure (i, j, col, out)
      let out2 ← printIfSelectedT cols buffer i1 j1 col1 out1
      extractTrace flag cols buffer fuel (i1 + 1) j1 col1 out2
    else if flag = 2 then do
      let (i1, j1, col1, out1) ←
        if c = ',' then crossDelimT cols i j col out else pure (i, j, col, out)
      let out2 ← printIfSelectedT cols buffer i1 j1 col1 out1
      extractTrace flag cols buffer fuel (i1 + 1) j1 col1 out2
    else extractTrace flag cols buffer fuel (i + 1) j col out

/-- The events of the loop of `main` for one buffer. -/
def traceLine (flag : Int) (cols : List Int) (buffer : List Char) : Option (List Event) :=
  extractTrace flag cols buffer (buffer.length + 1) 0 0 1 []

/-- The order in which the loop writes two selected characters: the first one
stands before the second one in the buffer and its column is not above the
second one's; in FixedWidth mode (`flag = 0`) it is below it. -/
def Emitted.before (flag : Int) (a b : Emitted) : Prop :=
  a.pos < b.pos ∧ a.col ≤ b.col ∧ (flag = 0 → a.col < b.col)

instance (flag : Int) (a b : Emitted) : Decidable (a.before flag b) := by
  unfold Emitted.before; infer_instance

/-- A selected character written when the loop is at position `i` in field
`col` or later: it is the character of the buffer at its position, not before
`i`, and its column is an entry of `cols`; in FixedWidth mode that column is its
position counted from 1, in the field modes it is at least `col`. -/
def Emitted.From (flag : Int) (cols : List Int) (buffer : List Char) (i col : Nat)
    (e : Emitted) : Prop :=
  i ≤ e.pos ∧ load buffer e.pos = some e.char ∧ e.col ∈ cols ∧
    (flag = 0 → e.col = ((e.pos + 1 : Nat) : Int)) ∧ (flag ≠ 0 → (col : Int) ≤ e.col)

/-- The events written from position `i` in field `col` on: their selected
characters are in order and each of them is written from there. -/
def InOrder (flag : Int) (cols : List Int) (buffer : List Char) (i col : Nat)
    (suf : List Event) : Prop :=
  (Event.columns suf).Pairwise (Emitted.before flag) ∧
    ∀ e ∈ Event.columns suf, e.From flag cols buffer i col

/-! ## Standard input and the outer loop of `main` -/

/-- The characters `fgets` takes from the input when it may store `k` of them:
it stops after a newline, at the end of the input, or when `k` characters have
been taken.  Returns the characters taken and the rest of the input. -/
def fgetsTake : Nat → List Char → List Char × List Char
  | 0, input => ([], input)
  | _ + 1, [] => ([], [])
  | k + 1, c :: input =>
    if c = '\n' then ([c], input)
    else (c :: (fgetsTake k input).1, (fgetsTake k input).2)

/-- The libc `fgets(buffer, n, stdin)`.  At the end of the input it returns
NULL (`none`) and leaves the buffer alone.  Otherwise it stores at most `n - 1`
characters and a NUL at the start of the buffer, the cells behind the NUL keep
what they held, and it returns the buffer and the rest of the input.  `main`
calls it with `n = 128` on its 129 cells, so the write stays inside the
array. -/
def fgets (buffer : List Char) (n : Nat) (stdin : List Char) :
    Option (List Char × List Char) :=
  if stdin = [] then none
  else
    some ((fgetsTake (n - 1) stdin).1 ++
        NUL :: buffer.drop ((fgetsTake (n - 1) stdin).1.length + 1),
      (fgetsTake (n - 1) stdin).2)

/-- The loop `while (fgets(buffer, 128, stdin) != NULL)` of `main`; `out` is
what has been written to standard output.  Every call of `fgets` that does not
return NULL takes at least one character, so a fuel above the length of the
input is never used up. -/
def mainLoop (flag : Int) (cols : List Int) :
    Nat → List Char → List Char → List Char → Option (List Char)
  | 0, _, _, _ => none
  | fuel + 1, buffer, stdin, out =>
    match fgets buffer 128 stdin with
    | none => some out
    | some (buffer1, rest) =>
      (extractLine flag cols buffer1).bind (fun line =>
        mainLoop flag cols fuel buffer1 rest (out ++ line))

/-- The function `int main(int argc, char *argv[])`: the exit status and what is
written to standard output, for the arguments `argv` (the program's name
first), the initial contents of the array `buffer` and the standard input.
What goes to standard error is left out. -/
def main (argv : List (List Char)) (buffer stdin : List Char) : Option (Int × List Char) :=
  if argv.length ≠ 3 then some (2, [])
  else
    let flag : Option Int :=
      if argv.getD 1 [] = "-l".toList then some 0
      else if argv.getD 1 [] = "-w".toList then some 1
      else if argv.getD 1 [] = "-c".toList then some 2
      else none
    match flag with
    | none => some (2, [])
    | some flag =>
      if validateSelection (argv.getD 2 []) ≠ 0 then some (2, [])
      else
        (getCols zeroCols (argv.getD 2 [])).bind (fun cols =>
          (mainLoop flag cols (stdin.length + 1) buffer stdin []).map (fun out => (0, out)))

/-! # Theorems -/

theorem isDigit_eq_core (c : Char) : isDigit c = c.isDigit := by
  unfold isDigit Char.isDigit
  have h1 : (decide (47 < c.toNat)) = decide (c.val ≥ 48) := by
    apply decide_eq_decide.mpr
    show 47 < c.val.toNat ↔ (48 : UInt32) ≤ c.val
    rw [UInt32.le_def]; exact Iff.rfl
  have h2 : (decide (c.toNat < 58)) = decide (c.val ≤ 57) := by
    apply decide_eq_decide.mpr
    show c.val.toNat < 58 ↔ c.val ≤ (57 : UInt32)
    rw [UInt32.le_def]
    show c.val.toNat < 58 ↔ c.val.toNat ≤ 57
    omega
  rw [h1, h2]

theorem validateLoop_iff (sel : List Char) (n i : Nat) :
    validateLoop sel n i = true ↔ ∀ k, k < n → selChar (charAt sel (i + k)) = true := by
  induction n generalizing i with
  | zero => simp [validateLoop]
  | succ n ih =>
    simp only [validateLoop]
    constructor
    · intro h k hk
      by_cases hc : selChar (charAt sel i) = true
      · simp [hc] at h
        cases k with
        | zero => simpa using hc
        | succ k =>
          have := (ih (i + 1)).mp h k (by omega)
          rwa [show i + (k + 1) = i + 1 + k by omega]
      · simp [hc] at h
    · intro h
      have h0 := h 0 (by omega)
      simp at h0
      simp [h0]
      apply (ih (i + 1)).mpr
      intro k hk
      have := h (k + 1) (by omega)
      rwa [show i + (k + 1) = i + 1 + k by omega] at this

@[simp] theorem charAt_cons_zero (c : Char) (t : List Char) : charAt (c :: t) 0 = c := rfl

@[simp] theorem charAt_cons_succ (c : Char) (t : List Char) (k : Nat) :
    charAt (c :: t) (k + 1) = charAt t k := rfl

@[simp] theorem charAt_nil (k : Nat) : charAt [] k = NUL := rfl

theorem charAt_length_getLast (c : Char) (t : List Char) :
    (c :: t).getLast? = some (charAt (c :: t) t.length) := by
  induction t generalizing c with
  | nil => rfl
  | cons d t ih =>
    rw [List.getLast?_cons_cons, ih d]
    rfl

theorem forall_dropLast_iff (P : Char → Prop) (t : List Char) :
    (∀ x ∈ t.dropLast, P x) ↔ ∀ k, k < t.length - 1 → P (charAt t k) := by
  induction t with
  | nil => simp
  | cons d t ih =>
    cases t with
    | nil => simp
    | cons e t =>
      simp only [List.dropLast_cons₂, List.mem_cons, forall_eq_or_imp, List.length_cons,
        Nat.add_sub_cancel] at ih ⊢
      rw [ih]
      constructor
      · rintro ⟨h0, h⟩ k hk
        cases k with
        | zero => simpa using h0
        | succ k => simpa using h k (by omega)
      · intro h
        refine ⟨by simpa using h 0 (by omega), fun k hk => ?_⟩
        simpa using h (k + 1) (by omega)

theorem selChar_iff (c : Char) : selChar c = true ↔ (c.isDigit = true ∨ c = ',' ∨ c = '-') := by
  simp [selChar, isDigit_eq_core, or_assoc]

theorem validateSelection_eq_zero_iff (s : List Char) :
    validateSelection s = 0 ↔
      s ≠ [] ∧ (∀ c, s.head? = some c → c.isDigit = true) ∧
        (∀ c, s.getLast? = some c → c.isDigit = true) ∧
        ∀ c ∈ s.tail.dropLast, c.isDigit = true ∨ c = ',' ∨ c = '-' := by
  cases s with
  | nil => simp [validateSelection, isDigit, NUL]
  | cons c t =>
    have hloop := validateLoop_iff (c :: t) (t.length - 1) 1
    have hdl := forall_dropLast_iff (fun x => x.isDigit = true ∨ x = ',' ∨ x = '-') t
    simp only [validateSelection, List.length_cons, Nat.add_sub_cancel, charAt_cons_zero,
      List.head?_cons, List.tail_cons, charAt_length_getLast, Option.some.injEq, forall_eq',
      ne_eq, reduceCtorEq, not_false_eq_true, true_and, isDigit_eq_core]
    rw [hdl]
    have hloop' : validateLoop (c :: t) (t.length - 1) 1 = true ↔
        ∀ k, k < t.length - 1 → ((charAt t k).isDigit = true ∨ charAt t k = ',' ∨ charAt t k = '-') := by
      rw [hloop]
      constructor
      · intro h k hk
        have := h k hk
        rw [show 1 + k = k + 1 by omega, charAt_cons_succ] at this
        exact (selChar_iff _).mp this
      · intro h k hk
        rw [show 1 + k = k + 1 by omega, charAt_cons_succ]
        exact (selChar_iff _).mpr (h k hk)
    rw [← hloop']
    cases h1 : c.isDigit <;> cases h2 : validateLoop (c :: t) (t.length - 1) 1 <;>
      cases h3 : (charAt (c :: t) t.length).isDigit <;> simp

theorem validateSelection_zero_or_two (s : List Char) :
    validateSelection s = 0 ∨ validateSelection s = 2 := by
  unfold validateSelection
  split_ifs <;> simp

/-! ## getCols: the loop as a scan of the remaining characters -/

theorem charAt_drop (sel : List Char) (i k : Nat) : charAt (sel.drop i) k = charAt sel (i + k) := by
  unfold charAt
  induction sel generalizing i with
  | nil => simp
  | cons c t ih =>
    cases i with
    | zero => simp
    | succ i =>
      simp only [List.drop_succ_cons]
      rw [ih i, show i + 1 + k = (i + k) + 1 by omega]
      rfl

theorem getColsStep_drop (sel : List Char) (i : Nat) (st : ParseState) :
    getColsStep sel i st = getColsStep (sel.drop i) 0 st := by
  unfold getColsStep
  simp only [charAt_drop, Nat.add_zero]

theorem getColsLoop_drop (sel : List Char) (n i : Nat) (st : ParseState) :
    getColsLoop sel n i st = getColsLoop (sel.drop i) n 0 st := by
  induction n generalizing sel i st with
  | zero => rfl
  | succ n ih =>
    simp only [getColsLoop]
    rw [getColsStep_drop sel i]
    congr 1
    funext st1
    rw [ih sel (i + 1), ih (sel.drop i) (0 + 1), List.drop_drop]

theorem parse_nil (st : ParseState) : parse [] st = some st := rfl

theorem parse_cons (c : Char) (rest : List Char) (st : ParseState) :
    parse (c :: rest) st = (getColsStep (c :: rest) 0 st).bind (parse rest) := by
  unfold parse
  simp only [List.length_cons, getColsLoop]
  congr 1
  funext st1
  rw [getColsLoop_drop]
  rfl

theorem getCols_eq (cols : List Int) (sel : List Char) :
    getCols cols sel =
      (parse sel { cols := cols, col_ind := 0, curr := [' ', ' ', NUL], curr_ind := 0,
                   prev := -1 }).bind flush := rfl

/-! ## Facts about digit characters -/

theorem digitChar_toNat : ∀ d : Fin 10, (digitChar d).toNat = 48 + d.val := by decide
theorem isDigit_digitChar : ∀ d : Fin 10, isDigit (digitChar d) = true := by decide
theorem isSpace_digitChar : ∀ d : Fin 10, isSpace (digitChar d) = false := by decide
theorem digitChar_ne_comma : ∀ d : Fin 10, digitChar d ≠ ',' := by decide
theorem digitChar_ne_minus : ∀ d : Fin 10, digitChar d ≠ '-' := by decide
theorem digitChar_ne_plus : ∀ d : Fin 10, digitChar d ≠ '+' := by decide

theorem isDigit_space : isDigit ' ' = false := by decide
theorem isDigit_NUL : isDigit NUL = false := by decide
theorem isDigit_comma : isDigit ',' = false := by decide
theorem isDigit_minus : isDigit '-' = false := by decide

theorem digitChar_val (d : Fin 10) : ((digitChar d).toNat : Int) - 48 = (d.val : Int) := by
  rw [digitChar_toNat]; push_cast; ring

theorem atoi_buf (a : Numeral) : atoi a.buf = some (a.val : Int) := by
  cases a with
  | one d =>
    simp [Numeral.buf, Numeral.val, atoi, atoiSkip, atoiDigits, isSpace_digitChar,
      digitChar_ne_minus, digitChar_ne_plus, isDigit_digitChar, digitChar_val, isDigit_space,
      isDigit_NUL]
  | two d e =>
    simp [Numeral.buf, Numeral.val, atoi, atoiSkip, atoiDigits, isSpace_digitChar,
      digitChar_ne_minus, digitChar_ne_plus, isDigit_digitChar, digitChar_val, isDigit_space,
      isDigit_NUL]

theorem step_nondigit (c : Char) (rest : List Char) (st : ParseState) (h : isDigit c = false) :
    getColsStep (c :: rest) 0 st = some st := by
  simp [getColsStep, h]

/-- Scanning a numeral that is followed by a character that is not a digit:
the loop reaches the last digit with the numeral in the buffer. -/
theorem parse_numeral_comma_single (a : Numeral) (rest : List Char) (st : ParseState)
    (hf : Fresh st) (hp : st.prev = -1) (hc : st.col_ind < st.cols.length) :
    parse (a.chars ++ ',' :: rest) st =
      parse rest { cols := st.cols.set st.col_ind (a.val : Int), col_ind := st.col_ind + 1,
                   curr := a.reset, curr_ind := 0, prev := -1 } := by
  obtain ⟨cols, ci, curr, cind, prev⟩ := st
  obtain ⟨h1, x, h2⟩ := hf
  simp only at h1 h2 hp hc
  subst h1 h2 hp
  have hcomma : isDigit ',' = false := by decide
  cases a with
  | one d =>
    have hat := atoi_buf (.one d)
    simp only [Numeral.buf] at hat
    simp [Numeral.chars, parse_cons, getColsStep, isDigit_digitChar, store, hat, hc, hcomma,
      Numeral.val, Numeral.reset]
  | two d e =>
    have hat := atoi_buf (.two d e)
    simp only [Numeral.buf] at hat
    simp [Numeral.chars, parse_cons, getColsStep, isDigit_digitChar, store, hat, hc, hcomma,
      Numeral.val, Numeral.reset, digitChar_ne_comma, digitChar_ne_minus]

theorem parse_numeral_comma_range (a : Numeral) (rest : List Char) (st : ParseState)
    (hf : Fresh st) (hp : st.prev ≠ -1) :
    parse (a.chars ++ ',' :: rest) st =
      (addRange st.cols st.col_ind st.prev (a.val : Int)).bind (fun r =>
        parse rest { cols := r.1, col_ind := r.2, curr := a.reset, curr_ind := 0, prev := -1 }) := by
  obtain ⟨cols, ci, curr, cind, prev⟩ := st
  obtain ⟨h1, x, h2⟩ := hf
  simp only at h1 h2 hp
  subst h1 h2
  cases a with
  | one d =>
    have hat := atoi_buf (.one d)
    simp only [Numeral.buf] at hat
    simp [Numeral.chars, parse_cons, getColsStep, isDigit_digitChar, store, hat, hp, isDigit_comma,
      Numeral.val, Numeral.reset, Option.bind_assoc]
  | two d e =>
    have hat := atoi_buf (.two d e)
    simp only [Numeral.buf] at hat
    simp [Numeral.chars, parse_cons, getColsStep, isDigit_digitChar, store, hat, hp, isDigit_comma,
      Numeral.val, Numeral.reset, digitChar_ne_comma, digitChar_ne_minus, Option.bind_assoc]

theorem parse_numeral_minus (a : Numeral) (rest : List Char) (st : ParseState) (hf : Fresh st) :
    parse (a.chars ++ '-' :: rest) st =
      parse rest { cols := st.cols, col_ind := st.col_ind, curr := a.reset, curr_ind := 0,
                   prev := if st.prev = -1 then (a.val : Int) else st.prev } := by
  obtain ⟨cols, ci, curr, cind, prev⟩ := st
  obtain ⟨h1, x, h2⟩ := hf
  simp only at h1 h2
  subst h1 h2
  have hmc : ('-' : Char) ≠ ',' := by decide
  by_cases hp : prev = -1
  · cases a with
    | one d =>
      have hat := atoi_buf (.one d)
      simp only [Numeral.buf] at hat
      simp [Numeral.chars, parse_cons, getColsStep, isDigit_digitChar, store, hat, hp,
        isDigit_minus, Numeral.val, Numeral.reset, hmc]
    | two d e =>
      have hat := atoi_buf (.two d e)
      simp only [Numeral.buf] at hat
      simp [Numeral.chars, parse_cons, getColsStep, isDigit_digitChar, store, hat, hp,
        isDigit_minus, Numeral.val, Numeral.reset, digitChar_ne_comma, digitChar_ne_minus, hmc]
  · cases a with
    | one d =>
      simp [Numeral.chars, parse_cons, getColsStep, isDigit_digitChar, store, hp,
        isDigit_minus, Numeral.val, Numeral.reset, hmc]
    | two d e =>
      simp [Numeral.chars, parse_cons, getColsStep, isDigit_digitChar, store, hp,
        isDigit_minus, Numeral.val, Numeral.reset, digitChar_ne_comma, digitChar_ne_minus, hmc]

theorem parse_numeral_end (a : Numeral) (st : ParseState) (hf : Fresh st) :
    ∃ k, parse a.chars st =
      some { cols := st.cols, col_ind := st.col_ind, curr := a.buf, curr_ind := k,
             prev := st.prev } := by
  obtain ⟨cols, ci, curr, cind, prev⟩ := st
  obtain ⟨h1, x, h2⟩ := hf
  simp only at h1 h2
  subst h1 h2
  have h1 : NUL ≠ ',' := by decide
  have h2 : NUL ≠ '-' := by decide
  cases a with
  | one d =>
    exact ⟨1, by simp [Numeral.chars, parse_cons, parse_nil, getColsStep, isDigit_digitChar, store,
      Numeral.buf, h1, h2]⟩
  | two d e =>
    exact ⟨2, by simp [Numeral.chars, parse_cons, parse_nil, getColsStep, isDigit_digitChar, store,
      Numeral.buf, h1, h2, digitChar_ne_comma, digitChar_ne_minus]⟩

/-! ## addRange -/

theorem set_length_append (done tail : List Int) (t v : Int) :
    (done ++ t :: tail).set done.length v = done ++ v :: tail := by
  induction done with
  | nil => rfl
  | cons d done ih => simp [ih]

theorem addRangeLoop_run (b : Nat) (fuel : Nat) :
    ∀ (done tail : List Int) (a : Nat), b + 1 - a = fuel → a ≤ b + 1 → fuel ≤ tail.length →
      addRangeLoop (b : Int) fuel (done ++ tail) done.length (a : Int) =
        some (done ++ ((List.range' a fuel).map (fun (k : Nat) => (k : Int)) ++ tail.drop fuel),
              done.length + fuel) := by
  induction fuel with
  | zero =>
    intro done tail a h1 h2 _
    have : ¬ ((a : Int) ≤ (b : Int)) := by omega
    simp [addRangeLoop, this]
  | succ fuel ih =>
    intro done tail a h1 h2 h3
    have hle : (a : Int) ≤ (b : Int) := by omega
    cases tail with
    | nil => simp at h3
    | cons t tail =>
      have hlt : done.length < (done ++ t :: tail).length := by simp
      simp only [addRangeLoop, hle, hlt, if_true, set_length_append]
      have := ih (done ++ [(a : Int)]) tail (a + 1) (by omega) (by omega) (by simpa using h3)
      simp only [List.append_assoc, List.singleton_append, List.length_append, List.length_singleton,
        Nat.cast_add, Nat.cast_one] at this
      rw [this]
      simp [List.range'_succ, Nat.add_assoc]
      omega

theorem addRange_ordered (done tail : List Int) (a b : Nat) (hab : a ≤ b)
    (hcap : b + 1 - a ≤ tail.length) :
    addRange (done ++ tail) done.length (a : Int) (b : Int) =
      some (done ++ runOf a b ++ tail.drop (b + 1 - a), done.length + (b + 1 - a)) := by
  unfold addRange runOf
  have h : ((b : Int) + 1 - (a : Int)).toNat = b + 1 - a := by omega
  rw [h, List.append_assoc]
  exact addRangeLoop_run b (b + 1 - a) done tail a rfl (by omega) hcap

theorem runOf_length (a b : Nat) : (runOf a b).length = b + 1 - a := by
  simp [runOf]

/-! ## getCols on well-formed selections -/

theorem term_expand_length_pos (t : Term) (h : t.ordered) : 0 < t.expand.length := by
  cases t with
  | single a => simp [Term.expand]
  | range a b =>
    simp only [Term.expand, runOf_length]
    simp only [Term.ordered, Term.first, Term.last] at h
    omega

theorem parse_term_comma (t : Term) (h : t.ordered) (rest : List Char) (st : ParseState)
    (done tail : List Int) (hb : Between st done tail) (hcap : t.expand.length ≤ tail.length) :
    ∃ st', parse (t.chars ++ ',' :: rest) st = parse rest st' ∧
      Between st' (done ++ t.expand) (tail.drop t.expand.length) := by
  obtain ⟨hf, hp, hc, hi⟩ := hb
  cases t with
  | single a =>
    simp only [Term.expand, List.length_singleton] at hcap ⊢
    cases tail with
    | nil => simp at hcap
    | cons x tail =>
      refine ⟨_, parse_numeral_comma_single a rest st hf hp (by rw [hc, hi]; simp), ?_⟩
      refine ⟨⟨rfl, ?_⟩, rfl, ?_, ?_⟩
      · cases a <;> exact ⟨_, rfl⟩
      · simp only [hc, hi, set_length_append]; simp
      · simp [hi]
  | range a b =>
    simp only [Term.ordered, Term.first, Term.last] at h
    simp only [Term.expand, runOf_length] at hcap ⊢
    simp only [Term.chars, List.append_assoc, List.cons_append]
    rw [parse_numeral_minus a _ st hf, parse_numeral_comma_range b rest _ ⟨rfl, by cases a <;> exact ⟨_, rfl⟩⟩
      (by simp only [hp, if_true]; omega)]
    simp only [hp, if_true, hc, hi, addRange_ordered done tail a.val b.val h hcap, Option.some_bind]
    refine ⟨_, rfl, ⟨rfl, ?_⟩, rfl, ?_, ?_⟩
    · cases b <;> exact ⟨_, rfl⟩
    · simp
    · simp [runOf_length]

theorem parse_term_end (t : Term) (h : t.ordered) (st : ParseState)
    (done tail : List Int) (hb : Between st done tail) (hcap : t.expand.length ≤ tail.length) :
    (parse t.chars st).bind flush = some (done ++ t.expand ++ tail.drop t.expand.length) := by
  obtain ⟨hf, hp, hc, hi⟩ := hb
  cases t with
  | single a =>
    simp only [Term.expand, List.length_singleton] at hcap ⊢
    cases tail with
    | nil => simp at hcap
    | cons x tail =>
      obtain ⟨k, hk⟩ := parse_numeral_end a st hf
      simp only [Term.chars, hk, Option.some_bind, flush, atoi_buf, hp, hc, hi]
      simp [store, set_length_append]
  | range a b =>
    simp only [Term.ordered, Term.first, Term.last] at h
    simp only [Term.expand, runOf_length] at hcap ⊢
    simp only [Term.chars]
    rw [parse_numeral_minus a _ st hf]
    obtain ⟨k, hk⟩ := parse_numeral_end b
      { cols := st.cols, col_ind := st.col_ind, curr := a.reset, curr_ind := 0,
        prev := if st.prev = -1 then (a.val : Int) else st.prev }
      ⟨rfl, by cases a <;> exact ⟨_, rfl⟩⟩
    have hne : (a.val : Int) ≠ -1 := by omega
    simp only [hp, if_true, hc, hi] at hk ⊢
    simp only [hk, Option.some_bind, flush, atoi_buf, hne, ne_eq,
      not_false_eq_true, if_true]
    show (addRange (done ++ tail) done.length (a.val : Int) (b.val : Int)).bind _ = _
    rw [addRange_ordered done tail a.val b.val h hcap]
    rfl

theorem parse_render (ts : List Term) :
    ∀ (st : ParseState) (done tail : List Int), ts ≠ [] → (∀ t ∈ ts, t.ordered) →
      Between st done tail → (expandAll ts).length ≤ tail.length →
      (parse (render ts) st).bind flush =
        some (done ++ expandAll ts ++ tail.drop (expandAll ts).length) := by
  induction ts with
  | nil => intro _ _ _ h; exact absurd rfl h
  | cons t ts ih =>
    intro st done tail _ hord hb hcap
    have ht : t.ordered := hord t (List.mem_cons_self _ _)
    cases ts with
    | nil =>
      simp only [expandAll, List.append_nil, render] at hcap ⊢
      exact parse_term_end t ht st done tail hb hcap
    | cons u ts =>
      simp only [expandAll, render, List.length_append] at hcap ⊢
      obtain ⟨st', hst', hb'⟩ := parse_term_comma t ht (render (u :: ts)) st done tail hb (by omega)
      rw [hst']
      have := ih st' (done ++ t.expand) (tail.drop t.expand.length) (by simp)
        (fun v hv => hord v (List.mem_cons_of_mem _ hv)) hb'
        (by simp only [expandAll, List.length_append, List.length_drop]; omega)
      rw [this]
      simp only [expandAll, List.length_append, List.append_assoc, List.drop_drop]

theorem between_init (cols : List Int) :
    Between { cols := cols, col_ind := 0, curr := [' ', ' ', NUL], curr_ind := 0, prev := -1 }
      [] cols :=
  ⟨⟨rfl, ' ', rfl⟩, rfl, rfl, rfl⟩

theorem getCols_render (ts : List Term) (hne : ts ≠ []) (hord : ∀ t ∈ ts, t.ordered)
    (n : Nat) (hlen : (expandAll ts).length ≤ n) :
    getCols (List.replicate n 0) (render ts) =
      some (expandAll ts ++ List.replicate (n - (expandAll ts).length) 0) := by
  rw [getCols_eq, parse_render ts _ [] (List.replicate n 0) hne hord (between_init _)
    (by simpa using hlen)]
  simp

set_option maxRecDepth 100000 in
theorem decimal_eq_chars : ∀ n : Fin 100, decimal n.val = (numeralOf n.val).chars := by
  decide

set_option maxRecDepth 100000 in
theorem numeralOf_val : ∀ n : Fin 100, (numeralOf n.val).val = n.val := by
  decide

/-! ## Numbers of one or two digits, and ascending selections -/

theorem Numeral.val_le (a : Numeral) : a.val ≤ 99 := by
  cases a with
  | one d => have := d.isLt; simp only [Numeral.val]; omega
  | two d e => have := d.isLt; have := e.isLt; simp only [Numeral.val]; omega

theorem mem_runOf (a b : Nat) (x : Int) (h : x ∈ runOf a b) : (a : Int) ≤ x ∧ x ≤ (b : Int) := by
  simp only [runOf, List.mem_map, List.mem_range'_1] at h
  obtain ⟨k, ⟨h1, h2⟩, rfl⟩ := h
  omega

theorem mem_expand (t : Term) (x : Int) (h : x ∈ t.expand) :
    (t.first : Int) ≤ x ∧ x ≤ (t.last : Int) := by
  cases t with
  | single a =>
    simp only [Term.expand, List.mem_singleton] at h
    subst h
    simp [Term.first, Term.last]
  | range a b => exact mem_runOf a.val b.val x h

theorem pairwise_range_cast (n a : Nat) :
    ((List.range' a n).map (fun (k : Nat) => (k : Int))).Pairwise (fun x y => x < y) := by
  induction n generalizing a with
  | zero => simp
  | succ n ih =>
    rw [List.range'_succ, List.map_cons, List.pairwise_cons]
    refine ⟨?_, ih (a + 1)⟩
    intro y hy
    simp only [List.mem_map, List.mem_range'_1] at hy
    obtain ⟨k, ⟨h1, _⟩, rfl⟩ := hy
    omega

theorem pairwise_expand (t : Term) : t.expand.Pairwise (fun x y => x < y) := by
  cases t with
  | single a => simp [Term.expand]
  | range a b => exact pairwise_range_cast _ _

theorem expandAll_lower (ts : List Term) :
    ∀ (u : Term), (∀ t ∈ u :: ts, t.ordered) → AscendingTerms (u :: ts) →
      ∀ y ∈ expandAll (u :: ts), (u.first : Int) ≤ y := by
  induction ts with
  | nil =>
    intro u _ _ y hy
    simp only [expandAll, List.append_nil] at hy
    exact (mem_expand u y hy).1
  | cons v ts ih =>
    intro u hord hasc y hy
    simp only [expandAll, List.mem_append] at hy
    rcases hy with hy | hy
    · exact (mem_expand u y hy).1
    · have hchain : u.last < v.first ∧ AscendingTerms (v :: ts) := hasc
      have hu : u.first ≤ u.last := hord u (List.mem_cons_self _ _)
      have := ih v (fun t ht => hord t (List.mem_cons_of_mem _ ht)) hchain.2 y
        (by simpa [expandAll] using hy)
      have h1 := hchain.1
      omega

theorem pairwise_expandAll (ts : List Term) :
    (∀ t ∈ ts, t.ordered) → AscendingTerms ts →
      (expandAll ts).Pairwise (fun x y => x < y) := by
  induction ts with
  | nil => intro _ _; simp [expandAll]
  | cons u ts ih =>
    intro hord hasc
    cases ts with
    | nil => simpa [expandAll] using pairwise_expand u
    | cons v ts =>
      have hchain : u.last < v.first ∧ AscendingTerms (v :: ts) := hasc
      rw [expandAll, List.pairwise_append]
      refine ⟨pairwise_expand u, ih (fun t ht => hord t (List.mem_cons_of_mem _ ht)) hchain.2, ?_⟩
      intro x hx y hy
      have h1 := (mem_expand u x hx).2
      have h2 := expandAll_lower ts v (fun t ht => hord t (List.mem_cons_of_mem _ ht)) hchain.2 y hy
      have h3 := hchain.1
      omega

theorem mem_expandAll_bounds (ts : List Term) (x : Int) (h : x ∈ expandAll ts) :
    0 ≤ x ∧ x ≤ 99 := by
  induction ts with
  | nil => simp [expandAll] at h
  | cons t ts ih =>
    simp only [expandAll, List.mem_append] at h
    rcases h with h | h
    · have := mem_expand t x h
      have h1 : t.last ≤ 99 := by cases t <;> exact Numeral.val_le _
      omega
    · exact ih h

theorem length_le_of_pairwise_lt (l : List Int) :
    ∀ lo : Int, l.Pairwise (fun x y => x < y) → (∀ x ∈ l, lo ≤ x ∧ x ≤ 99) →
      (l.length : Int) ≤ max (100 - lo) 0 := by
  induction l with
  | nil => intro lo _ _; simp
  | cons p ps ih =>
    intro lo hp hb
    have hps := List.pairwise_cons.mp hp
    have hpb := hb p (List.mem_cons_self _ _)
    have := ih (p + 1) hps.2 (fun x hx => ⟨by have := hps.1 x hx; omega,
      (hb x (List.mem_cons_of_mem _ hx)).2⟩)
    simp only [List.length_cons, Nat.cast_add, Nat.cast_one]
    omega

theorem length_expandAll_le (ts : List Term) (hord : ∀ t ∈ ts, t.ordered)
    (hasc : AscendingTerms ts) : (expandAll ts).length ≤ 100 := by
  have := length_le_of_pairwise_lt (expandAll ts) 0 (pairwise_expandAll ts hord hasc)
    (fun x hx => mem_expandAll_bounds ts x hx)
  omega

/-! ## Well-formed selections pass validateSelection -/

theorem selChar_digitChar (d : Fin 10) : selChar (digitChar d) = true := by
  simp [selChar, isDigit_digitChar]

theorem digitEnds_numeral (a : Numeral) : DigitEnds a.chars := by
  cases a with
  | one d =>
    exact ⟨⟨d, [], rfl⟩, ⟨d, [], rfl⟩, by simp [Numeral.chars, selChar_digitChar]⟩
  | two d e =>
    exact ⟨⟨d, [digitChar e], rfl⟩, ⟨e, [digitChar d], rfl⟩,
      by simp [Numeral.chars, selChar_digitChar]⟩

theorem digitEnds_join (l1 l2 : List Char) (c : Char) (hc : selChar c = true)
    (h1 : DigitEnds l1) (h2 : DigitEnds l2) : DigitEnds (l1 ++ c :: l2) := by
  obtain ⟨⟨d, rest, rfl⟩, _, hall1⟩ := h1
  obtain ⟨_, ⟨e, init, rfl⟩, hall2⟩ := h2
  refine ⟨⟨d, rest ++ c :: (init ++ [digitChar e]), by simp⟩,
    ⟨e, (digitChar d :: rest) ++ c :: init, by simp⟩, ?_⟩
  intro x hx
  rcases List.mem_append.mp hx with hx | hx
  · exact hall1 x hx
  · rcases List.mem_cons.mp hx with rfl | hx
    · exact hc
    · exact hall2 x hx

theorem digitEnds_term (t : Term) : DigitEnds t.chars := by
  cases t with
  | single a => exact digitEnds_numeral a
  | range a b =>
    exact digitEnds_join a.chars b.chars '-' (by decide) (digitEnds_numeral a)
      (digitEnds_numeral b)

theorem digitEnds_render (ts : List Term) (hne : ts ≠ []) : DigitEnds (render ts) := by
  induction ts with
  | nil => exact absurd rfl hne
  | cons t ts ih =>
    cases ts with
    | nil => exact digitEnds_term t
    | cons u ts =>
      exact digitEnds_join t.chars (render (u :: ts)) ',' (by decide) (digitEnds_term t)
        (ih (by simp))

theorem validateSelection_of_digitEnds (s : List Char) (h : DigitEnds s) :
    validateSelection s = 0 := by
  obtain ⟨⟨d, rest, hd⟩, ⟨e, init, he⟩, hall⟩ := h
  rw [validateSelection_eq_zero_iff]
  refine ⟨by rw [hd]; simp, ?_, ?_, ?_⟩
  · intro c hc
    rw [hd] at hc
    simp only [List.head?_cons, Option.some.injEq] at hc
    rw [← hc, ← isDigit_eq_core, isDigit_digitChar]
  · intro c hc
    rw [he] at hc
    simp only [List.getLast?_append, List.getLast?_singleton] at hc
    have hc' : digitChar e = c := by simpa [Option.or] using hc
    rw [← hc', ← isDigit_eq_core, isDigit_digitChar]
  · intro c hc
    have hmem : c ∈ s := List.mem_of_mem_tail (List.mem_of_mem_dropLast hc)
    exact (selChar_iff c).mp (hall c hmem)

theorem validateSelection_render (ts : List Term) (hne : ts ≠ []) :
    validateSelection (render ts) = 0 :=
  validateSelection_of_digitEnds _ (digitEnds_render ts hne)

/-! ## The extraction loop, one iteration at a time -/

theorem load_of_drop {α : Type} (a : List α) (i : Nat) (c : α) (rest : List α)
    (h : a.drop i = c :: rest) : load a i = some c ∧ a.drop (i + 1) = rest := by
  induction a generalizing i with
  | nil => simp at h
  | cons x a ih =>
    cases i with
    | zero =>
      simp only [List.drop_zero, List.cons.injEq] at h
      obtain ⟨rfl, rfl⟩ := h
      exact ⟨rfl, rfl⟩
    | succ i =>
      simp only [List.drop_succ_cons] at h
      exact ih i h

theorem extractLoop_end (flag : Int) (cols : List Int) (buffer : List Char) (fuel i j col : Nat)
    (out : List Char) (c : Char) (hc : load buffer i = some c) (he : isEnd c) :
    extractLoop flag cols buffer (fuel + 1) i j col out = some out := by
  have he' : c = '\n' ∨ c = NUL := he
  simp [extractLoop, hc, he']

theorem extractLoop_fixed (cols : List Int) (buffer : List Char) (fuel i j col : Nat)
    (out : List Char) (c : Char) (hc : load buffer i = some c) (he : ¬ isEnd c) :
    extractLoop 0 cols buffer (fuel + 1) i j col out =
      (load cols j).bind (fun cj =>
        if ((i + 1 : Nat) : Int) = cj then
          (load cols (j + 1)).bind (fun cj1 =>
            extractLoop 0 cols buffer fuel (i + 1) (j + 1) col
              (if cj1 ≠ 0 then out ++ [c] ++ [' '] else out ++ [c]))
        else extractLoop 0 cols buffer fuel (i + 1) j col out) := by
  have he' : ¬ (c = '\n' ∨ c = NUL) := he
  simp only [extractLoop, hc, he', Option.bind_eq_bind, Option.some_bind, if_false, if_true]

theorem extractLoop_field_plain (flag : Int) (d : Char) (hm : FieldMode flag d) (cols : List Int)
    (buffer : List Char) (fuel i j col : Nat) (out : List Char) (c : Char)
    (hc : load buffer i = some c) (he : ¬ isEnd c) (hd : c ≠ d) :
    extractLoop flag cols buffer (fuel + 1) i j col out =
      (printIfSelected cols buffer i j col out).bind (fun out2 =>
        extractLoop flag cols buffer fuel (i + 1) j col out2) := by
  have he' : ¬ (c = '\n' ∨ c = NUL) := he
  rcases hm with ⟨rfl, rfl⟩ | ⟨rfl, rfl⟩
  · simp only [extractLoop, hc, he', hd, Option.bind_eq_bind, Option.some_bind, if_false]
    rfl
  · simp only [extractLoop, hc, he', hd, Option.bind_eq_bind, Option.some_bind, if_false]
    rfl

theorem extractLoop_field_delim (flag : Int) (d : Char) (hm : FieldMode flag d) (cols : List Int)
    (buffer : List Char) (fuel i j col : Nat) (out : List Char)
    (hc : load buffer i = some d) :
    extractLoop flag cols buffer (fuel + 1) i j col out =
      (crossDelim cols i j col out).bind (fun r =>
        (printIfSelected cols buffer r.1 r.2.1 r.2.2.1 r.2.2.2).bind (fun out2 =>
          extractLoop flag cols buffer fuel (r.1 + 1) r.2.1 r.2.2.1 out2)) := by
  rcases hm with ⟨rfl, rfl⟩ | ⟨rfl, rfl⟩
  · have he' : ¬ ((' ' : Char) = '\n' ∨ ' ' = NUL) := by decide
    simp only [extractLoop, hc, he', Option.bind_eq_bind, Option.some_bind, if_false]
    rfl
  · have he' : ¬ ((',' : Char) = '\n' ∨ ',' = NUL) := by decide
    simp only [extractLoop, hc, he', Option.bind_eq_bind, Option.some_bind, if_false]
    rfl

theorem pending_nil_load (cols : List Int) (j : Nat) (h : Pending cols j []) :
    load cols j = some 0 := by
  obtain ⟨⟨zs, hz⟩, _⟩ := h
  exact (load_of_drop cols j 0 zs (by simpa using hz)).1

theorem pending_cons_load (cols : List Int) (j : Nat) (p : Nat) (ps : List Nat)
    (h : Pending cols j (p :: ps)) :
    load cols j = some (p : Int) ∧ 0 < p ∧ Pending cols (j + 1) ps := by
  obtain ⟨⟨zs, hz⟩, hpos⟩ := h
  have := load_of_drop cols j (p : Int) (ps.map (fun (k : Nat) => (k : Int)) ++ 0 :: zs)
    (by simpa using hz)
  exact ⟨this.1, hpos p (List.mem_cons_self _ _), ⟨zs, this.2⟩,
    fun q hq => hpos q (List.mem_cons_of_mem _ hq)⟩

theorem pending_next_ne_zero (cols : List Int) (j : Nat) (ps : List Nat)
    (h : Pending cols j ps) : ∃ v, load cols j = some v ∧ (v ≠ 0 ↔ ps ≠ []) := by
  cases ps with
  | nil => exact ⟨0, pending_nil_load cols j h, by simp⟩
  | cons q qs =>
    obtain ⟨h1, h2, _⟩ := pending_cons_load cols j q qs h
    refine ⟨_, h1, ?_⟩
    simp only [ne_eq, reduceCtorEq, not_false_eq_true, iff_true]
    omega

theorem fixed_loop (cols : List Int) (buffer : List Char) (t : Char) (junk : List Char)
    (ht : isEnd t) (col : Nat) :
    ∀ (l : List Char) (i j fuel : Nat) (out : List Char) (pend : List Nat),
      buffer.drop i = l ++ t :: junk → (∀ c ∈ l, ¬ isEnd c) → Pending cols j pend →
      l.length < fuel →
      extractLoop 0 cols buffer fuel i j col out = some (out ++ fixedOut l i pend) := by
  intro l
  induction l with
  | nil =>
    intro i j fuel out pend hb _ _ hf
    obtain ⟨fuel, rfl⟩ : ∃ k, fuel = k + 1 := ⟨fuel - 1, by simp at hf; omega⟩
    have := (load_of_drop buffer i t junk (by simpa using hb)).1
    rw [extractLoop_end 0 cols buffer fuel i j col out t this ht]
    simp [fixedOut]
  | cons c l ih =>
    intro i j fuel out pend hb hl hp hf
    obtain ⟨fuel, rfl⟩ : ∃ k, fuel = k + 1 := ⟨fuel - 1, by simp at hf; omega⟩
    obtain ⟨hc, hb'⟩ := load_of_drop buffer i c (l ++ t :: junk) (by simpa using hb)
    have hl' : ∀ x ∈ l, ¬ isEnd x := fun x hx => hl x (List.mem_cons_of_mem _ hx)
    have hf' : l.length < fuel := by simp at hf; omega
    rw [extractLoop_fixed cols buffer fuel i j col out c hc (hl c (List.mem_cons_self _ _))]
    cases pend with
    | nil =>
      rw [pending_nil_load cols j hp]
      have hne : ¬ (((i + 1 : Nat) : Int) = 0) := by omega
      simp only [Option.some_bind, hne, if_false]
      rw [ih (i + 1) j fuel out [] hb' hl' hp hf']
      cases l <;> simp [fixedOut]
    | cons p ps =>
      obtain ⟨h1, h2, h3⟩ := pending_cons_load cols j p ps hp
      rw [h1]
      simp only [Option.some_bind]
      by_cases hip : i + 1 = p
      · obtain ⟨v, hv, hvz⟩ := pending_next_ne_zero cols (j + 1) ps h3
        have hcast : ((i + 1 : Nat) : Int) = (p : Int) := by omega
        rw [if_pos hcast, hv]
        simp only [Option.some_bind]
        rw [ih (i + 1) (j + 1) fuel _ ps hb' hl' h3 hf']
        by_cases hps : ps = []
        · have : ¬ (v ≠ 0) := by rw [hvz]; simp [hps]
          simp [fixedOut, hip, hps, this]
        · have : v ≠ 0 := hvz.mpr hps
          simp [fixedOut, hip, hps, this]
      · have hcast : ¬ (((i + 1 : Nat) : Int) = (p : Int)) := by omega
        rw [if_neg hcast, ih (i + 1) j fuel out (p :: ps) hb' hl' hp hf']
        simp [fixedOut, hip]

/-! ## The field modes on a well-formed line -/

theorem pending_load (cols : List Int) (j : Nat) (pend : List Nat) (h : Pending cols j pend) :
    ∃ cj, load cols j = some cj ∧ ∀ col : Nat, 1 ≤ col → ((col : Int) = cj ↔ pend.head? = some col) := by
  cases pend with
  | nil =>
    refine ⟨0, pending_nil_load cols j h, fun col hcol => ?_⟩
    simp only [List.head?_nil, reduceCtorEq, iff_false]
    omega
  | cons p ps =>
    obtain ⟨h1, _, _⟩ := pending_cons_load cols j p ps h
    refine ⟨_, h1, fun col _ => ?_⟩
    simp only [List.head?_cons, Option.some.injEq]
    omega

theorem in_field (flag : Int) (d : Char) (hm : FieldMode flag d) (cols : List Int)
    (buffer : List Char) (j col : Nat) (cj : Int) (hcj : load cols j = some cj)
    (rest : List Char) :
    ∀ (r : List Char) (i fuel : Nat) (out : List Char),
      buffer.drop i = r ++ rest → (∀ c ∈ r, c ≠ d ∧ c ≠ '\n' ∧ c ≠ NUL) →
      extractLoop flag cols buffer (fuel + r.length) i j col out =
        extractLoop flag cols buffer fuel (i + r.length) j col
          (out ++ if (col : Int) = cj then r else []) := by
  intro r
  induction r with
  | nil => intro i fuel out _ _; simp
  | cons c r ih =>
    intro i fuel out hb hr
    obtain ⟨hc, hb'⟩ := load_of_drop buffer i c (r ++ rest) (by simpa using hb)
    obtain ⟨h1, h2, h3⟩ := hr c (List.mem_cons_self _ _)
    have he : ¬ isEnd c := by unfold isEnd; simp [h2, h3]
    rw [show fuel + (c :: r).length = (fuel + r.length) + 1 by simp; omega,
      extractLoop_field_plain flag d hm cols buffer _ i j col out c hc he h1]
    simp only [printIfSelected, hcj, Option.bind_eq_bind, Option.some_bind]
    have ih' := fun o => ih (i + 1) fuel o hb' (fun x hx => hr x (List.mem_cons_of_mem _ hx))
    by_cases hsel : (col : Int) = cj
    · simp only [hsel, if_true, hc, Option.some_bind, Option.pure_def] at ih' ⊢
      rw [ih']
      simp [Nat.add_assoc, Nat.add_comm 1]
    · simp only [hsel, if_false, Option.some_bind, Option.pure_def] at ih' ⊢
      rw [ih']
      simp [Nat.add_assoc, Nat.add_comm 1]

theorem fieldOut_cons (b : Char) (r : List Char) (fs : List (List Char)) (col : Nat)
    (pend : List Nat) :
    fieldOut (b :: r) fs col pend =
      (if pend.head? = some col then [b] else []) ++ fieldOut r fs col pend := by
  cases fs with
  | nil => by_cases h : pend.head? = some col <;> simp [fieldOut, h]
  | cons f fs => by_cases h : pend.head? = some col <;> simp [fieldOut, h]

theorem cross_step (flag : Int) (d : Char) (hm : FieldMode flag d) (cols : List Int)
    (buffer : List Char) (i j col fuel : Nat) (out : List Char) (b : Char) (rest : List Char)
    (pend : List Nat) (hb : buffer.drop i = d :: b :: rest) (hp : Pending cols j pend)
    (hcol : 1 ≤ col) :
    ∃ j', Pending cols j' (if advances col pend then pend.tail else pend) ∧
      extractLoop flag cols buffer (fuel + 1) i j col out =
        extractLoop flag cols buffer fuel (i + 2) j' (col + 1)
          (out ++ (if advances col pend then [' '] else []) ++
            if (if advances col pend then pend.tail else pend).head? = some (col + 1)
            then [b] else []) := by
  obtain ⟨hd, hb1⟩ := load_of_drop buffer i d (b :: rest) hb
  obtain ⟨hbb, _⟩ := load_of_drop buffer (i + 1) b rest hb1
  rw [extractLoop_field_delim flag d hm cols buffer fuel i j col out hd]
  -- the statement after the delimiter test, for a given state after the crossing
  have hprint : ∀ (j' : Nat) (pend' : List Nat) (o : List Char), Pending cols j' pend' →
      (printIfSelected cols buffer (i + 1) j' (col + 1) o).bind (fun out2 =>
          extractLoop flag cols buffer fuel (i + 1 + 1) j' (col + 1) out2) =
        extractLoop flag cols buffer fuel (i + 2) j' (col + 1)
          (o ++ if pend'.head? = some (col + 1) then [b] else []) := by
    intro j' pend' o hp'
    obtain ⟨cj', hcj', hsel'⟩ := pending_load cols j' pend' hp'
    simp only [printIfSelected, hcj', Option.bind_eq_bind, Option.some_bind, hbb]
    by_cases h : ((col + 1 : Nat) : Int) = cj'
    · have := (hsel' (col + 1) (by omega)).mp h
      rw [if_pos h, if_pos this]
      rfl
    · have : ¬ pend'.head? = some (col + 1) := fun hh => h ((hsel' (col + 1) (by omega)).mpr hh)
      rw [if_neg h, if_neg this]
      simp
  match pend, hp with
  | [], hp =>
    refine ⟨j, by simpa [advances] using hp, ?_⟩
    have hne : ¬ ((col : Int) = 0) := by omega
    simp only [crossDelim, pending_nil_load cols j hp, Option.bind_eq_bind, Option.some_bind,
      hne, if_false, Option.pure_def]
    rw [hprint j [] out hp]
    simp [advances]
  | [p], hp =>
    obtain ⟨h1, _, h3⟩ := pending_cons_load cols j p [] hp
    refine ⟨j, by simpa [advances] using hp, ?_⟩
    simp only [crossDelim, h1, pending_nil_load cols (j + 1) h3, Option.bind_eq_bind,
      Option.some_bind, ne_eq, not_true_eq_false, if_false, ite_self, Option.pure_def]
    rw [hprint j [p] out hp]
    simp [advances]
  | p :: q :: ps, hp =>
    obtain ⟨h1, _, h3⟩ := pending_cons_load cols j p (q :: ps) hp
    obtain ⟨h4, hq, _⟩ := pending_cons_load cols (j + 1) q ps h3
    have hqz : ¬ ((q : Int) = 0) := by omega
    by_cases hcp : col = p
    · refine ⟨j + 1, by simpa [advances, hcp] using h3, ?_⟩
      have hcast : (col : Int) = (p : Int) := by omega
      simp only [crossDelim, h1, h4, Option.bind_eq_bind, Option.some_bind, hcast, if_true, ne_eq,
        hqz, not_false_eq_true, Option.pure_def]
      rw [hprint (j + 1) (q :: ps) _ h3]
      simp [advances, hcp]
    · refine ⟨j, by simpa [advances, hcp] using hp, ?_⟩
      have hcast : ¬ ((col : Int) = (p : Int)) := by omega
      simp only [crossDelim, h1, Option.bind_eq_bind, Option.some_bind, hcast, if_false,
        Option.pure_def]
      rw [hprint j (p :: q :: ps) out hp]
      simp [advances, hcp]

theorem lineRest_length_cons (d : Char) (r f : List Char) (fs : List (List Char)) :
    (lineRest d r (f :: fs)).length = r.length + 1 + (lineRest d f fs).length := by
  simp [lineRest]
  omega

theorem field_loop (flag : Int) (d : Char) (hm : FieldMode flag d) (cols : List Int)
    (buffer : List Char) (t : Char) (junk : List Char) (ht : isEnd t) :
    ∀ (fs : List (List Char)) (r : List Char) (i j col fuel : Nat) (out : List Char)
      (pend : List Nat),
      buffer.drop i = lineRest d r fs ++ t :: junk →
      (∀ c ∈ r, c ≠ d ∧ c ≠ '\n' ∧ c ≠ NUL) → (∀ f ∈ fs, GoodField d f) →
      Pending cols j pend → 1 ≤ col → (lineRest d r fs).length < fuel →
      extractLoop flag cols buffer fuel i j col out = some (out ++ fieldOut r fs col pend) := by
  intro fs
  induction fs with
  | nil =>
    intro r i j col fuel out pend hb hr _ hp hcol hf
    obtain ⟨cj, hcj, hsel⟩ := pending_load cols j pend hp
    simp only [lineRest, List.map_nil, List.flatten_nil, List.append_nil] at hb hf
    obtain ⟨fuel', rfl⟩ : ∃ k, fuel = (k + 1) + r.length := ⟨fuel - r.length - 1, by omega⟩
    rw [in_field flag d hm cols buffer j col cj hcj (t :: junk) r i (fuel' + 1) out hb hr]
    have hb' : buffer.drop (i + r.length) = t :: junk := by
      have := congrArg (List.drop r.length) hb
      simpa [List.drop_drop, Nat.add_comm] using this
    rw [extractLoop_end flag cols buffer fuel' _ j col _ t (load_of_drop _ _ _ _ hb').1 ht]
    by_cases h : (col : Int) = cj
    · simp [fieldOut, h, (hsel col hcol).mp h]
    · have : ¬ pend.head? = some col := fun hh => h ((hsel col hcol).mpr hh)
      simp [fieldOut, h, this]
  | cons f fs ih =>
    intro r i j col fuel out pend hb hr hfs hp hcol hf
    obtain ⟨cj, hcj, hsel⟩ := pending_load cols j pend hp
    obtain ⟨hfne, hfc⟩ := hfs f (List.mem_cons_self _ _)
    obtain ⟨b, f', rfl⟩ : ∃ b f', f = b :: f' := by
      cases f with
      | nil => exact absurd rfl hfne
      | cons b f' => exact ⟨b, f', rfl⟩
    rw [lineRest_length_cons] at hf
    have hf2 : (lineRest d (b :: f') fs).length = f'.length + 1 + ((fs.map (fun f => d :: f)).flatten).length := by
      simp [lineRest]; omega
    have hf3 : (lineRest d f' fs).length = f'.length + ((fs.map (fun f => d :: f)).flatten).length := by
      simp [lineRest]
    obtain ⟨fuel', rfl⟩ : ∃ k, fuel = (k + 1) + r.length := ⟨fuel - r.length - 1, by omega⟩
    have hb0 : buffer.drop i = r ++ (d :: b :: (lineRest d f' fs ++ t :: junk)) := by
      rw [hb]; simp [lineRest]
    rw [in_field flag d hm cols buffer j col cj hcj _ r i (fuel' + 1) out hb0 hr]
    have hb' : buffer.drop (i + r.length) = d :: b :: (lineRest d f' fs ++ t :: junk) := by
      have := congrArg (List.drop r.length) hb0
      simpa [List.drop_drop, Nat.add_comm] using this
    obtain ⟨j', hp', hstep⟩ :=
      cross_step flag d hm cols buffer (i + r.length) j col fuel'
        (out ++ if (col : Int) = cj then r else []) b _ pend hb' hp hcol
    rw [hstep]
    have hb2 : buffer.drop (i + r.length + 2) = lineRest d f' fs ++ t :: junk := by
      have := congrArg (List.drop 2) hb'
      simpa [List.drop_drop, Nat.add_comm] using this
    rw [ih f' (i + r.length + 2) j' (col + 1) fuel' _ _ hb2
      (fun c hc => hfc c (List.mem_cons_of_mem _ hc))
      (fun g hg => hfs g (List.mem_cons_of_mem _ hg)) hp' (by omega) (by omega)]
    have hcur : (if (col : Int) = cj then r else []) = (if pend.head? = some col then r else []) := by
      by_cases h : (col : Int) = cj
      · simp [h, (hsel col hcol).mp h]
      · have : ¬ pend.head? = some col := fun hh => h ((hsel col hcol).mpr hh)
        simp [h, this]
    rw [hcur]
    have hfo : fieldOut r ((b :: f') :: fs) col pend =
        (if pend.head? = some col then r else []) ++
          (if advances col pend then ' ' :: fieldOut (b :: f') fs (col + 1) pend.tail
           else fieldOut (b :: f') fs (col + 1) pend) := rfl
    rw [hfo]
    by_cases hadv : advances col pend = true
    · simp only [hadv, if_true, fieldOut_cons]
      simp [List.append_assoc]
    · simp only [hadv, if_false, fieldOut_cons]
      simp [List.append_assoc]

/-! ## Closed forms for strictly ascending column sets -/

theorem flatMap_congr_mem {α β : Type} (l : List α) (f g : α → List β)
    (h : ∀ x ∈ l, f x = g x) : l.flatMap f = l.flatMap g := by
  induction l with
  | nil => rfl
  | cons a l ih =>
    simp only [List.flatMap_cons]
    rw [h a (List.mem_cons_self _ _), ih (fun x hx => h x (List.mem_cons_of_mem _ hx))]

theorem filter_eq_nil_of_lt (l : List Nat) (N : Nat) (h : ∀ k ∈ l, N < k) :
    l.filter (fun k => decide (k ≤ N)) = [] := by
  rw [List.filter_eq_nil_iff]
  intro k hk
  have := h k hk
  simp; omega

theorem fieldOut_dead (fs : List (List Char)) :
    ∀ (r : List Char) (col : Nat) (pend : List Nat), (∀ p ∈ pend, p < col) →
      fieldOut r fs col pend = [] := by
  induction fs with
  | nil =>
    intro r col pend h
    cases pend with
    | nil => simp [fieldOut]
    | cons p ps =>
      have := h p (List.mem_cons_self _ _)
      have hne : ¬ p = col := by omega
      simp [fieldOut, hne]
  | cons f fs ih =>
    intro r col pend h
    have hnext : ∀ p ∈ pend, p < col + 1 := fun p hp => Nat.lt_succ_of_lt (h p hp)
    cases pend with
    | nil => simp [fieldOut, advances, ih f (col + 1) [] (by simp)]
    | cons p ps =>
      have := h p (List.mem_cons_self _ _)
      have hne : ¬ p = col := by omega
      have hne' : ¬ col = p := by omega
      have hadv : advances col (p :: ps) = false := by
        cases ps <;> simp [advances, hne']
      simp [fieldOut, hne, hadv, ih f (col + 1) (p :: ps) hnext]

theorem filter_cons_le (p : Nat) (ps : List Nat) (N : Nat) (h : p ≤ N) :
    (p :: ps).filter (fun k => decide (k ≤ N)) = p :: ps.filter (fun k => decide (k ≤ N)) := by
  simp [List.filter_cons, h]

theorem sepAfter_cons_of_lt (p : Nat) (ps : List Nat) (N k : Nat) (h : p < k) :
    sepAfter (p :: ps) N k = sepAfter ps N k := by
  have : ¬ k < p := by omega
  simp [sepAfter, this]

theorem fieldOut_closed (fs : List (List Char)) :
    ∀ (r : List Char) (c : Nat) (pend : List Nat) (N : Nat), N = c + fs.length →
      pend.Pairwise (fun a b => a < b) → (∀ k ∈ pend, c ≤ k) →
      fieldOut r fs c pend =
        (pend.filter (fun k => decide (k ≤ N))).flatMap (fun k =>
          (r :: fs).getD (k - c) [] ++ sepAfter pend N k) := by
  induction fs with
  | nil =>
    intro r c pend N hN hasc hge
    simp only [List.length_nil, Nat.add_zero] at hN
    subst hN
    cases pend with
    | nil => simp [fieldOut]
    | cons p ps =>
      have hp := hge p (List.mem_cons_self _ _)
      have hps : ∀ k ∈ ps, p < k := (List.pairwise_cons.mp hasc).1
      by_cases hpc : p = N
      · subst hpc
        have : ps.filter (fun k => decide (k ≤ p)) = [] :=
          filter_eq_nil_of_lt ps p hps
        rw [filter_cons_le p ps p (Nat.le_refl _), this]
        simp [fieldOut, sepAfter]
      · have : (p :: ps).filter (fun k => decide (k ≤ N)) = [] :=
          filter_eq_nil_of_lt (p :: ps) N (fun k hk => by
            rcases List.mem_cons.mp hk with rfl | hk
            · omega
            · have := hps k hk; omega)
        rw [this]
        simp [fieldOut, hpc]
  | cons f fs ih =>
    intro r c pend N hN hasc hge
    simp only [List.length_cons] at hN
    cases pend with
    | nil => simp [fieldOut, advances, ih f (c + 1) [] N (by omega) List.Pairwise.nil (by simp)]
    | cons p ps =>
      have hp := hge p (List.mem_cons_self _ _)
      have hps : ∀ k ∈ ps, p < k := (List.pairwise_cons.mp hasc).1
      have hasc' : ps.Pairwise (fun a b => a < b) := (List.pairwise_cons.mp hasc).2
      by_cases hpc : p = c
      · subst hpc
        rw [filter_cons_le p ps N (by omega), List.flatMap_cons]
        have hshift : (ps.filter (fun k => decide (k ≤ N))).flatMap (fun k =>
              (r :: f :: fs).getD (k - p) [] ++ sepAfter (p :: ps) N k) =
            (ps.filter (fun k => decide (k ≤ N))).flatMap (fun k =>
              (f :: fs).getD (k - (p + 1)) [] ++ sepAfter ps N k) := by
          apply flatMap_congr_mem
          intro k hk
          have hk' : p < k := hps k (List.mem_of_mem_filter hk)
          have hidx : k - p = (k - (p + 1)) + 1 := by omega
          rw [hidx, List.getD_cons_succ, sepAfter_cons_of_lt p ps N k hk']
        rw [hshift]
        cases ps with
        | nil =>
          have hdead := fieldOut_dead fs f (p + 1) [p] (by simp)
          simp [fieldOut, advances, hdead, sepAfter]
        | cons q qs =>
          have hq : p < q := hps q (List.mem_cons_self _ _)
          have := ih f (p + 1) (q :: qs) N (by omega) hasc'
            (fun k hk => by have := hps k hk; omega)
          have hsep : sepAfter (p :: q :: qs) N p = [' '] := by
            simp only [sepAfter]
            rw [if_pos]
            exact ⟨by omega, q, by simp, hq⟩
          simp only [fieldOut, List.head?_cons, advances, decide_True, if_true, List.tail_cons,
            this, hsep, List.getD_cons_zero, Nat.sub_self]
          simp
      · have hlt : c < p := by omega
        have hne' : ¬ c = p := by omega
        have hadv : advances c (p :: ps) = false := by
          cases ps <;> simp [advances, hne']
        have := ih f (c + 1) (p :: ps) N (by omega) hasc (fun k hk => by
          rcases List.mem_cons.mp hk with rfl | hk
          · omega
          · have := hps k hk; omega)
        simp only [fieldOut, List.head?_cons, Option.some.injEq, hpc, if_false, hadv,
          List.nil_append, this, Bool.false_eq_true]
        apply flatMap_congr_mem
        intro k hk
        have hk' : c < k := by
          rcases List.mem_cons.mp (List.mem_of_mem_filter hk) with rfl | hk
          · omega
          · have := hps k hk; omega
        have hidx : k - c = (k - (c + 1)) + 1 := by omega
        rw [hidx, List.getD_cons_succ]

theorem fixedOut_nil_pend (l : List Char) (i : Nat) : fixedOut l i [] = [] := by
  cases l <;> rfl

theorem fixedOut_closed (l : List Char) :
    ∀ (i : Nat) (pend : List Nat) (N : Nat), N = i + l.length →
      pend.Pairwise (fun a b => a < b) → (∀ k ∈ pend, i < k) →
      fixedOut l i pend =
        (pend.filter (fun k => decide (k ≤ N))).flatMap (fun k =>
          [l.getD (k - (i + 1)) NUL] ++ sepAfter pend (N + 1) k) := by
  induction l with
  | nil =>
    intro i pend N hN _ hgt
    simp only [List.length_nil, Nat.add_zero] at hN
    subst hN
    rw [filter_eq_nil_of_lt pend N hgt]
    cases pend <;> rfl
  | cons c l ih =>
    intro i pend N hN hasc hgt
    simp only [List.length_cons] at hN
    cases pend with
    | nil => rfl
    | cons p ps =>
      have hp := hgt p (List.mem_cons_self _ _)
      have hps : ∀ k ∈ ps, p < k := (List.pairwise_cons.mp hasc).1
      have hasc' : ps.Pairwise (fun a b => a < b) := (List.pairwise_cons.mp hasc).2
      by_cases hip : i + 1 = p
      · subst hip
        rw [filter_cons_le (i + 1) ps N (by omega), List.flatMap_cons]
        have hshift : (ps.filter (fun k => decide (k ≤ N))).flatMap (fun k =>
              [(c :: l).getD (k - (i + 1)) NUL] ++ sepAfter ((i + 1) :: ps) (N + 1) k) =
            (ps.filter (fun k => decide (k ≤ N))).flatMap (fun k =>
              [l.getD (k - (i + 1 + 1)) NUL] ++ sepAfter ps (N + 1) k) := by
          apply flatMap_congr_mem
          intro k hk
          have hk' : i + 1 < k := hps k (List.mem_of_mem_filter hk)
          have hidx : k - (i + 1) = (k - (i + 1 + 1)) + 1 := by omega
          rw [hidx, List.getD_cons_succ, sepAfter_cons_of_lt (i + 1) ps (N + 1) k hk']
        rw [hshift, ← ih (i + 1) ps N (by omega) hasc' hps]
        cases ps with
        | nil => simp [fixedOut, sepAfter]
        | cons q qs =>
          have hq : i + 1 < q := hps q (List.mem_cons_self _ _)
          have hsep : sepAfter ((i + 1) :: q :: qs) (N + 1) (i + 1) = [' '] := by
            simp only [sepAfter]
            rw [if_pos]
            exact ⟨by omega, q, by simp, hq⟩
          simp [fixedOut, hsep]
      · have hlt : i + 1 < p := by omega
        have := ih (i + 1) (p :: ps) N (by omega) hasc (fun k hk => by
          rcases List.mem_cons.mp hk with rfl | hk
          · omega
          · have := hps k hk; omega)
        simp only [fixedOut, hip, if_false, this]
        apply flatMap_congr_mem
        intro k hk
        have hk' : i + 1 < k := by
          rcases List.mem_cons.mp (List.mem_of_mem_filter hk) with rfl | hk
          · omega
          · have := hps k hk; omega
        have hidx : k - (i + 1) = (k - (i + 1 + 1)) + 1 := by omega
        rw [hidx, List.getD_cons_succ]

/-! ## Separators: from "a space after each column that has a successor" to
"joined by single spaces" -/

theorem sepAfter_of_exists (cs : List Nat) (M k : Nat) (hk : k < M) (h : ∃ k' ∈ cs, k < k') :
    sepAfter cs M k = [' '] := by
  simp only [sepAfter]
  rw [if_pos ⟨hk, h⟩]

theorem sepAfter_of_not_exists (cs : List Nat) (M k : Nat) (h : ¬ ∃ k' ∈ cs, k < k') :
    sepAfter cs M k = [] := by
  simp only [sepAfter]
  rw [if_neg (fun hh => h hh.2)]

/-- Columns within the line: a space follows every column but the last, that
is, the pieces are joined by single spaces. -/
theorem flatMap_sep_eq_intercalate (g : Nat → List Char) (M : Nat) :
    ∀ cs : List Nat, cs.Pairwise (fun a b => a < b) → (∀ k ∈ cs, k ≤ M) →
      cs.flatMap (fun k => g k ++ sepAfter cs M k) = List.intercalate [' '] (cs.map g) := by
  intro cs
  induction cs with
  | nil => intro _ _; rfl
  | cons p ps ih =>
    intro hasc hle
    have hps : ∀ k ∈ ps, p < k := (List.pairwise_cons.mp hasc).1
    have hasc' : ps.Pairwise (fun a b => a < b) := (List.pairwise_cons.mp hasc).2
    have hle' : ∀ k ∈ ps, k ≤ M := fun k hk => hle k (List.mem_cons_of_mem _ hk)
    rw [List.flatMap_cons]
    have hshift : ps.flatMap (fun k => g k ++ sepAfter (p :: ps) M k) =
        ps.flatMap (fun k => g k ++ sepAfter ps M k) := by
      apply flatMap_congr_mem
      intro k hk
      rw [sepAfter_cons_of_lt p ps M k (hps k hk)]
    rw [hshift, ih hasc' hle']
    cases ps with
    | nil =>
      rw [sepAfter_of_not_exists [p] M p (by simp)]
      simp [List.intercalate]
    | cons q qs =>
      have hq : p < q := hps q (List.mem_cons_self _ _)
      have hqM : q ≤ M := hle' q (List.mem_cons_self _ _)
      rw [sepAfter_of_exists (p :: q :: qs) M p (by omega) ⟨q, by simp, hq⟩]
      simp [List.intercalate]

theorem intersperse_eq_intercalate (l : List Char) :
    l.intersperse ' ' = List.intercalate [' '] (l.map (fun c => [c])) := by
  induction l with
  | nil => rfl
  | cons a l ih =>
    cases l with
    | nil => simp [List.intercalate]
    | cons b l =>
      simp only [List.intersperse_cons₂, List.map_cons, List.intercalate] at ih ⊢
      rw [ih]
      simp

theorem intercalate_cons_cons (sep a b : List Char) (l : List (List Char)) :
    List.intercalate sep (a :: b :: l) = a ++ sep ++ List.intercalate sep (b :: l) := by
  simp [List.intercalate]

theorem trailingSep_pos (cs : List Nat) (n last : Nat)
    (h : (∃ k ∈ cs, k ≤ n) ∧ (∃ k ∈ cs, n < k) ∧ (last ∈ cs → n < last)) :
    trailingSep cs n last = [' '] := by
  unfold trailingSep
  rw [if_pos h]

theorem trailingSep_neg (cs : List Nat) (n last : Nat)
    (h : ¬ ((∃ k ∈ cs, k ≤ n) ∧ (∃ k ∈ cs, n < k) ∧ (last ∈ cs → n < last))) :
    trailingSep cs n last = [] := by
  unfold trailingSep
  rw [if_neg h]

/-- Columns that may lie beyond the line: the pieces of the columns within the
line are joined by single spaces, and one more space may follow the last. -/
theorem flatMap_sep_filter (g : Nat → List Char) (N M : Nat) (hNM : N ≤ M) :
    ∀ cs : List Nat, cs.Pairwise (fun a b => a < b) →
      (cs.filter (fun k => decide (k ≤ N))).flatMap (fun k => g k ++ sepAfter cs M k) =
        List.intercalate [' '] ((cs.filter (fun k => decide (k ≤ N))).map g) ++
          trailingSep cs N M := by
  intro cs
  induction cs with
  | nil => intro _; simp [trailingSep, List.intercalate]
  | cons p ps ih =>
    intro hasc
    have hps : ∀ k ∈ ps, p < k := (List.pairwise_cons.mp hasc).1
    have hasc' : ps.Pairwise (fun a b => a < b) := (List.pairwise_cons.mp hasc).2
    by_cases hpN : p ≤ N
    · rw [filter_cons_le p ps N hpN, List.flatMap_cons]
      have hshift : (ps.filter (fun k => decide (k ≤ N))).flatMap
            (fun k => g k ++ sepAfter (p :: ps) M k) =
          (ps.filter (fun k => decide (k ≤ N))).flatMap (fun k => g k ++ sepAfter ps M k) := by
        apply flatMap_congr_mem
        intro k hk
        rw [sepAfter_cons_of_lt p ps M k (hps k (List.mem_of_mem_filter hk))]
      rw [hshift, ih hasc']
      by_cases hE : ps.filter (fun k => decide (k ≤ N)) = []
      · have hall : ∀ k ∈ ps, N < k := by
          intro k hk
          by_contra hc
          have : k ∈ ps.filter (fun k => decide (k ≤ N)) :=
            List.mem_filter.mpr ⟨hk, by simp; omega⟩
          rw [hE] at this
          simp at this
        have htp : trailingSep ps N M = [] := by
          apply trailingSep_neg
          rintro ⟨⟨k, hk, hkN⟩, _⟩
          have := hall k hk
          omega
        rw [htp, hE]
        have hint : List.intercalate [' '] (List.map g [p]) = g p := by simp [List.intercalate]
        have hint0 : List.intercalate [' '] (List.map g []) = [] := by simp [List.intercalate]
        rw [hint, hint0]
        simp only [List.append_nil]
        congr 1
        cases ps with
        | nil =>
          rw [sepAfter_of_not_exists [p] M p (by simp), trailingSep_neg]
          rintro ⟨_, ⟨k, hk, hkN⟩, _⟩
          simp at hk
          omega
        | cons q qs =>
          have hq : p < q := hps q (List.mem_cons_self _ _)
          have hqN : N < q := hall q (List.mem_cons_self _ _)
          by_cases hpM : p < M
          · rw [sepAfter_of_exists _ M p hpM ⟨q, by simp, hq⟩, trailingSep_pos]
            refine ⟨⟨p, by simp, hpN⟩, ⟨q, by simp, hqN⟩, ?_⟩
            intro hM
            rcases List.mem_cons.mp hM with h | h
            · omega
            · exact hall M h
          · have hMp : M = p := by omega
            have hsep : sepAfter (p :: q :: qs) M p = [] := by
              simp only [sepAfter]
              rw [if_neg]
              intro hh; exact hpM hh.1
            rw [hsep, trailingSep_neg]
            rintro ⟨_, _, h3⟩
            have := h3 (by rw [hMp]; simp)
            omega
      · obtain ⟨e, he⟩ := List.exists_mem_of_ne_nil _ hE
        have heps : e ∈ ps := List.mem_of_mem_filter he
        have heN : e ≤ N := by simpa using (List.mem_filter.mp he).2
        have hpe : p < e := hps e heps
        rw [sepAfter_of_exists _ M p (by omega) ⟨e, List.mem_cons_of_mem _ heps, hpe⟩]
        have htr : trailingSep (p :: ps) N M = trailingSep ps N M := by
          have h1 : (∃ k ∈ p :: ps, k ≤ N) ↔ (∃ k ∈ ps, k ≤ N) :=
            ⟨fun _ => ⟨e, heps, heN⟩, fun _ => ⟨p, by simp, hpN⟩⟩
          have h2 : (∃ k ∈ p :: ps, N < k) ↔ (∃ k ∈ ps, N < k) := by
            constructor
            · rintro ⟨k, hk, hkN⟩
              rcases List.mem_cons.mp hk with rfl | hk
              · omega
              · exact ⟨k, hk, hkN⟩
            · rintro ⟨k, hk, hkN⟩
              exact ⟨k, List.mem_cons_of_mem _ hk, hkN⟩
          have h3 : (M ∈ p :: ps → N < M) ↔ (M ∈ ps → N < M) := by
            constructor
            · intro h hM; exact h (List.mem_cons_of_mem _ hM)
            · intro h hM
              rcases List.mem_cons.mp hM with rfl | hM
              · omega
              · exact h hM
          unfold trailingSep
          exact if_congr (and_congr h1 (and_congr h2 h3)) rfl rfl
        rw [htr]
        obtain ⟨x, xs, hx⟩ : ∃ x xs, (ps.filter (fun k => decide (k ≤ N))).map g = x :: xs := by
          cases hf : ps.filter (fun k => decide (k ≤ N)) with
          | nil => exact absurd hf hE
          | cons a as => exact ⟨g a, as.map g, rfl⟩
        rw [List.map_cons, hx, intercalate_cons_cons]
        simp [List.append_assoc]
    · have hall : ∀ k ∈ p :: ps, N < k := by
        intro k hk
        rcases List.mem_cons.mp hk with rfl | hk
        · omega
        · have := hps k hk; omega
      rw [filter_eq_nil_of_lt (p :: ps) N hall, trailingSep_neg]
      · simp [List.intercalate]
      · rintro ⟨⟨k, hk, hkN⟩, _⟩
        have := hall k hk
        omega

/-! ## The output of `extractLine` for a ColumnSet stored by `colsOf` -/

theorem pending_colsOf (cs : List Nat) (h : AscendingCols cs) : Pending (colsOf cs) 0 cs := by
  obtain ⟨_, hpos, hlen⟩ := h
  refine ⟨⟨List.replicate (127 - cs.length) 0, ?_⟩, hpos⟩
  have : 128 - cs.length = (127 - cs.length) + 1 := by omega
  simp only [colsOf, List.drop_zero, this, List.replicate_succ]

theorem ascendingCols_filter (cs : List Nat) (h : AscendingCols cs) (n : Nat) :
    AscendingCols (cs.filter (fun k => decide (k ≤ n))) := by
  obtain ⟨hasc, hpos, hlen⟩ := h
  refine ⟨hasc.sublist (List.filter_sublist _), fun k hk => hpos k (List.mem_of_mem_filter hk), ?_⟩
  exact Nat.le_trans (List.length_filter_le _ _) hlen

theorem filter_le_self (cs : List Nat) (n : Nat) (h : ∀ k ∈ cs, k ≤ n) :
    cs.filter (fun k => decide (k ≤ n)) = cs := by
  rw [List.filter_eq_self]
  intro k hk
  simpa using h k hk

theorem extractLine_fixed (line : List Char) (t : Char) (junk : List Char) (cs : List Nat)
    (hline : ∀ c ∈ line, c ≠ '\n' ∧ c ≠ NUL) (ht : isEnd t) (hcs : AscendingCols cs) :
    extractLine 0 (colsOf cs) (line ++ t :: junk) =
      some ((cs.filter (fun k => decide (k ≤ line.length))).flatMap (fun k =>
        [line.getD (k - 1) NUL] ++ sepAfter cs (line.length + 1) k) ++ ['\n']) := by
  unfold extractLine
  rw [fixed_loop (colsOf cs) (line ++ t :: junk) t junk ht 1 line 0 0 _ [] cs (by simp)
    (fun c hc h => by
      have := hline c hc
      rcases h with h | h
      · exact this.1 h
      · exact this.2 h)
    (pending_colsOf cs hcs) (by simp; omega)]
  rw [fixedOut_closed line 0 cs line.length (by simp) hcs.1 (fun k hk => hcs.2.1 k hk)]
  simp

theorem intercalate_eq_lineRest (d : Char) (r : List Char) (fs : List (List Char)) :
    List.intercalate [d] (r :: fs) = lineRest d r fs := by
  induction fs generalizing r with
  | nil => simp [List.intercalate, lineRest]
  | cons f fs ih =>
    rw [intercalate_cons_cons, ih f]
    simp [lineRest]

theorem extractLine_fields (flag : Int) (d : Char) (hm : FieldMode flag d)
    (fields : List (List Char)) (t : Char) (junk : List Char) (cs : List Nat)
    (hfields : ∀ f ∈ fields, GoodField d f) (ht : isEnd t) (hcs : AscendingCols cs) :
    extractLine flag (colsOf cs) (List.intercalate [d] fields ++ t :: junk) =
      some ((cs.filter (fun k => decide (k ≤ fields.length))).flatMap (fun k =>
        fields.getD (k - 1) [] ++ sepAfter cs fields.length k) ++ ['\n']) := by
  unfold extractLine
  cases fields with
  | nil =>
    have hfil : cs.filter (fun k => decide (k ≤ ([] : List (List Char)).length)) = [] :=
      filter_eq_nil_of_lt cs 0 (fun k hk => hcs.2.1 k hk)
    rw [hfil]
    have hl : load (List.intercalate [d] ([] : List (List Char)) ++ t :: junk) 0 = some t := by
      simp [List.intercalate, load]
    simp only [List.length_append, List.length_cons]
    rw [extractLoop_end flag (colsOf cs) _ _ 0 0 1 [] t hl ht]
    simp
  | cons r fs =>
    have hr := (hfields r (List.mem_cons_self _ _)).2
    rw [intercalate_eq_lineRest]
    rw [field_loop flag d hm (colsOf cs) (lineRest d r fs ++ t :: junk) t junk ht fs r 0 0 1 _ []
      cs (by simp) hr (fun f hf => hfields f (List.mem_cons_of_mem _ hf))
      (pending_colsOf cs hcs) (Nat.le_refl _) (by simp; omega)]
    rw [fieldOut_closed fs r 1 cs (r :: fs).length (by simp; omega) hcs.1
      (fun k hk => hcs.2.1 k hk)]
    simp

/-! ## Claims about the selection parser -/

/-- C1: for every well-formed selection (one or more terms separated by single
commas, each a numeral `a` of one or two digits or a range `a-b` with `a ≤ b`)
whose expansion has at most 127 entries, `getCols` fills the zero-initialised
128-cell array of `main` with the expansions of the terms in term order, `[a]`
for `a` and `[a, a+1, ..., b]` for `a-b`, followed by at least one 0. -/
theorem getCols_wellFormed (ts : List Term) (hne : ts ≠ []) (hord : ∀ t ∈ ts, t.ordered)
    (hlen : (expandAll ts).length ≤ 127) :
    getCols zeroCols (render ts) =
      some (expandAll ts ++ List.replicate (128 - (expandAll ts).length) 0) ∧
    0 < 128 - (expandAll ts).length :=
  ⟨getCols_render ts hne hord 128 (by omega), by omega⟩

set_option maxRecDepth 100000 in
theorem getCols_wellFormed_witness :
    (render [.single (.one 3)] = "3".toList ∧
      getCols zeroCols "3".toList = some ([3] ++ List.replicate 127 0)) ∧
    (render [.range (.one 1) (.one 3)] = "1-3".toList ∧
      getCols zeroCols "1-3".toList = some ([1, 2, 3] ++ List.replicate 125 0)) ∧
    (render [.single (.one 1), .range (.one 3) (.one 5), .single (.one 8)] = "1,3-5,8".toList ∧
      getCols zeroCols "1,3-5,8".toList = some ([1, 3, 4, 5, 8] ++ List.replicate 123 0)) :=
  ⟨⟨by decide, (getCols_wellFormed [.single (.one 3)] (by decide) (by decide) (by decide)).1⟩,
   ⟨by decide,
    (getCols_wellFormed [.range (.one 1) (.one 3)] (by decide) (by decide) (by decide)).1⟩,
   ⟨by decide,
    (getCols_wellFormed [.single (.one 1), .range (.one 3) (.one 5), .single (.one 8)]
      (by decide) (by decide) (by decide)).1⟩⟩

/-- C2: for every string `s`, `validateSelection s` returns 0 if and only if
`s` is not empty, its first and last characters are decimal digits and every
character strictly between them is a digit, `,` or `-`; otherwise it returns
2. -/
theorem validateSelection_spec (s : List Char) :
    (validateSelection s = 0 ↔
      s ≠ [] ∧ (∀ c, s.head? = some c → c.isDigit = true) ∧
        (∀ c, s.getLast? = some c → c.isDigit = true) ∧
        ∀ c ∈ s.tail.dropLast, c.isDigit = true ∨ c = ',' ∨ c = '-') ∧
    (validateSelection s = 0 ∨ validateSelection s = 2) :=
  ⟨validateSelection_eq_zero_iff s, validateSelection_zero_or_two s⟩

theorem validateSelection_spec_witness :
    validateSelection "".toList = 2 ∧ validateSelection ",5".toList = 2 ∧
    validateSelection "5,".toList = 2 ∧ validateSelection "5a".toList = 2 ∧
    validateSelection "5".toList = 0 ∧ validateSelection "1-2,3".toList = 0 :=
  ⟨(validateSelection_spec "".toList).2.resolve_left (by decide),
   (validateSelection_spec ",5".toList).2.resolve_left (by decide),
   (validateSelection_spec "5,".toList).2.resolve_left (by decide),
   (validateSelection_spec "5a".toList).2.resolve_left (by decide),
   (validateSelection_spec "5".toList).2.resolve_right (by decide),
   (validateSelection_spec "1-2,3".toList).2.resolve_right (by decide)⟩

set_option maxRecDepth 100000 in
/-- C8 (code defect): the digit buffer `char curr[3]` has room for two digits
and the terminator.  The selections `"100"` and `"1000"` are accepted by
`validateSelection`.  On `"100"` the loop of `getCols` ends with the three
digits in the three cells of `curr` and no terminator left, so that the call
`atoi(curr)` after the loop runs off the array.  On `"1000"` the loop reaches
the fourth digit in that state, with `curr_ind = 3`, and the assignment
`curr[curr_ind] = sel[i]` is a write outside the array.  In both cases `getCols`
has no defined result, where the claim asks for the columns `[100]` and
`[1000]`. -/
theorem getCols_digit_buffer_overrun :
    decimal 100 = "100".toList ∧ validateSelection (decimal 100) = 0 ∧
    getColsLoop (decimal 100) (decimal 100).length 0
        { cols := zeroCols, col_ind := 0, curr := [' ', ' ', NUL], curr_ind := 0, prev := -1 } =
      some { cols := zeroCols, col_ind := 0, curr := ['1', '0', '0'], curr_ind := 3, prev := -1 } ∧
    atoi ['1', '0', '0'] = none ∧
    getCols zeroCols (decimal 100) = none ∧
    decimal 1000 = "1000".toList ∧ validateSelection (decimal 1000) = 0 ∧
    getColsLoop (decimal 1000) 3 0
        { cols := zeroCols, col_ind := 0, curr := [' ', ' ', NUL], curr_ind := 0, prev := -1 } =
      some { cols := zeroCols, col_ind := 0, curr := ['1', '0', '0'], curr_ind := 3, prev := -1 } ∧
    store ['1', '0', '0'] 3 '0' = none ∧
    getColsStep (decimal 1000) 3
        { cols := zeroCols, col_ind := 0, curr := ['1', '0', '0'], curr_ind := 3, prev := -1 } =
      none ∧
    getCols zeroCols (decimal 1000) = none := by
  decide

/-- Numbers of one or two decimal digits, which fit the digit buffer, are parsed
correctly: for every `n ≤ 99`, `getCols` on the decimal representation of `n`
yields the array `[n, 0, ...]`, and for every `m ≤ n`, `getCols` on `"m-n"`
yields `[m, ..., n, 0, ...]`. -/
theorem getCols_decimal (n : Nat) (hn : n ≤ 99) :
    getCols zeroCols (decimal n) = some ((n : Int) :: List.replicate 127 0) ∧
    ∀ m, m ≤ n →
      getCols zeroCols (decimal m ++ '-' :: decimal n) =
        some (runOf m n ++ List.replicate (128 - (n + 1 - m)) 0) := by
  have hdn := decimal_eq_chars ⟨n, by omega⟩
  have hvn := numeralOf_val ⟨n, by omega⟩
  simp only at hdn hvn
  constructor
  · have := getCols_render [.single (numeralOf n)] (by simp) (by simp [Term.ordered, Term.first, Term.last])
      128 (by simp [expandAll, Term.expand])
    simpa [render, Term.chars, expandAll, Term.expand, hdn, hvn, zeroCols] using this
  · intro m hm
    have hdm := decimal_eq_chars ⟨m, by omega⟩
    have hvm := numeralOf_val ⟨m, by omega⟩
    simp only at hdm hvm
    have := getCols_render [.range (numeralOf m) (numeralOf n)] (by simp)
      (by simp [Term.ordered, Term.first, Term.last, hvm, hvn, hm])
      128 (by simp [expandAll, Term.expand, runOf_length, hvm, hvn]; omega)
    simpa [render, Term.chars, expandAll, Term.expand, hdn, hvn, hdm, hvm, zeroCols,
      runOf_length] using this

set_option maxRecDepth 100000 in
theorem getCols_decimal_witness :
    decimal 10 ++ '-' :: decimal 12 = "10-12".toList ∧
    getCols zeroCols "10-12".toList = some ([10, 11, 12] ++ List.replicate 125 0) :=
  ⟨by decide, ((getCols_decimal 12 (by decide)).2 10 (by decide)).trans (by decide)⟩

set_option maxRecDepth 100000 in
/-- C9, as stated, fails: the selection `"3,1"` is accepted by
`validateSelection` and `getCols` stores the columns 3, 1 in this order. -/
theorem getCols_unsorted_counterexample :
    validateSelection "3,1".toList = 0 ∧
    getCols zeroCols "3,1".toList = some (3 :: 1 :: List.replicate 126 0) ∧
    ¬ (columnSet (3 :: 1 :: List.replicate 126 0)).Pairwise (fun x y => x < y) := by
  decide

/-- C9 (amended): for every well-formed selection whose terms are in ascending
order without overlap (every range `a-b` has `a ≤ b` and every term ends below
the start of the next), the selection is accepted by `validateSelection` and
the sequence of columns stored by `getCols` is the expansion of the terms, is
strictly ascending and has no duplicate. -/
theorem getCols_ascending (ts : List Term) (hne : ts ≠ []) (hord : ∀ t ∈ ts, t.ordered)
    (hasc : AscendingTerms ts) :
    validateSelection (render ts) = 0 ∧
    getCols zeroCols (render ts) =
      some (expandAll ts ++ List.replicate (128 - (expandAll ts).length) 0) ∧
    (expandAll ts).Pairwise (fun x y => x < y) ∧ (expandAll ts).Nodup := by
  have hlen := length_expandAll_le ts hord hasc
  have hp := pairwise_expandAll ts hord hasc
  exact ⟨validateSelection_render ts hne, getCols_render ts hne hord 128 (by omega), hp,
    hp.imp (fun h => ne_of_lt h)⟩

set_option maxRecDepth 100000 in
theorem getCols_ascending_witness :
    render [.single (.one 1), .range (.one 3) (.one 5), .single (.one 8)] = "1,3-5,8".toList ∧
    getCols zeroCols "1,3-5,8".toList = some ([1, 3, 4, 5, 8] ++ List.replicate 123 0) ∧
    ([1, 3, 4, 5, 8] : List Int).Pairwise (fun x y => x < y) :=
  ⟨by decide,
   (getCols_ascending [.single (.one 1), .range (.one 3) (.one 5), .single (.one 8)]
      (by decide) (by decide) (by decide)).2.1,
   (getCols_ascending [.single (.one 1), .range (.one 3) (.one 5), .single (.one 8)]
      (by decide) (by decide) (by decide)).2.2.1⟩

/-! ## Claims about the extraction loop -/

/-- C3: in FixedWidth mode, for every line and every strictly ascending
ColumnSet of positive columns that are all at most the line's length, the
output for the line is the characters at the selected 1-based positions, in
order, joined by single spaces, followed by one line terminator. -/
theorem fixedWidth_output (line : List Char) (t : Char) (junk : List Char) (cs : List Nat)
    (hline : ∀ c ∈ line, c ≠ '\n' ∧ c ≠ NUL) (ht : t = '\n' ∨ t = NUL)
    (hcs : AscendingCols cs) (hin : ∀ k ∈ cs, k ≤ line.length) :
    extractLine 0 (colsOf cs) (line ++ t :: junk) =
      some ((cs.map (fun k => line.getD (k - 1) NUL)).intersperse ' ' ++ ['\n']) := by
  rw [extractLine_fixed line t junk cs hline ht hcs, filter_le_self cs line.length hin,
    flatMap_sep_eq_intercalate (fun k => [line.getD (k - 1) NUL]) (line.length + 1) cs hcs.1
      (fun k hk => Nat.le_succ_of_le (hin k hk)),
    intersperse_eq_intercalate, List.map_map]
  rfl

set_option maxRecDepth 100000 in
theorem fixedWidth_output_witness :
    getCols zeroCols "1-2,7-15".toList = some (colsOf [1, 2, 7, 8, 9, 10, 11, 12, 13, 14, 15]) ∧
    extractLine 0 (colsOf [1, 2, 7, 8, 9, 10, 11, 12, 13, 14, 15])
        ("alice,30,532,AZ,S".toList ++ '\n' :: [NUL]) =
      some ("a l 3 0 , 5 3 2 , A Z".toList ++ ['\n']) :=
  ⟨by decide,
   (fixedWidth_output "alice,30,532,AZ,S".toList '\n' [NUL]
      [1, 2, 7, 8, 9, 10, 11, 12, 13, 14, 15] (by decide) (Or.inl rfl) (by decide)
      (by decide)).trans (by decide)⟩

/-- C4: in CommaSeparated mode, for every line made of non-empty comma-free
fields joined by single commas and every strictly ascending ColumnSet of
positive columns that are all at most the number of fields, the output for the
line is the selected fields, in order, joined by exactly one space, followed by
one line terminator. -/
theorem commaSeparated_output (fields : List (List Char)) (t : Char) (junk : List Char)
    (cs : List Nat) (hfields : ∀ f ∈ fields, GoodField ',' f) (ht : t = '\n' ∨ t = NUL)
    (hcs : AscendingCols cs) (hin : ∀ k ∈ cs, k ≤ fields.length) :
    extractLine 2 (colsOf cs) (List.intercalate [','] fields ++ t :: junk) =
      some (List.intercalate [' '] (cs.map (fun k => fields.getD (k - 1) [])) ++ ['\n']) := by
  rw [extractLine_fields 2 ',' (Or.inr ⟨rfl, rfl⟩) fields t junk cs hfields ht hcs,
    filter_le_self cs fields.length hin,
    flatMap_sep_eq_intercalate (fun k => fields.getD (k - 1) []) fields.length cs hcs.1 hin]

set_option maxRecDepth 100000 in
theorem commaSeparated_output_witness :
    getCols zeroCols "1,3-5".toList = some (colsOf [1, 3, 4, 5]) ∧
    List.intercalate [','] ["alice".toList, "30".toList, "532".toList, "AZ".toList, "S".toList] =
      "alice,30,532,AZ,S".toList ∧
    extractLine 2 (colsOf [1, 3, 4, 5])
        (List.intercalate [',']
          ["alice".toList, "30".toList, "532".toList, "AZ".toList, "S".toList] ++ '\n' :: [NUL]) =
      some ("alice 532 AZ S".toList ++ ['\n']) :=
  ⟨by decide, by decide,
   (commaSeparated_output ["alice".toList, "30".toList, "532".toList, "AZ".toList, "S".toList]
      '\n' [NUL] [1, 3, 4, 5] (by decide) (Or.inl rfl) (by decide) (by decide)).trans
      (by decide)⟩

/-- C5: in Whitespace mode, for every line made of non-empty space-free fields
joined by single spaces and every strictly ascending ColumnSet of positive
columns (some of which may exceed the number of fields), the output for the line
is each selected field that exists in the line, in order, each followed by one
space exactly when that field is not the last field of the line and another
column remains in the ColumnSet after it, then one line terminator. -/
theorem whitespace_output (fields : List (List Char)) (t : Char) (junk : List Char)
    (cs : List Nat) (hfields : ∀ f ∈ fields, GoodField ' ' f) (ht : t = '\n' ∨ t = NUL)
    (hcs : AscendingCols cs) :
    extractLine 1 (colsOf cs) (List.intercalate [' '] fields ++ t :: junk) =
      some ((cs.filter (fun k => decide (k ≤ fields.length))).flatMap (fun k =>
        fields.getD (k - 1) [] ++
          (if k < fields.length ∧ ∃ k' ∈ cs, k < k' then [' '] else [])) ++ ['\n']) :=
  extractLine_fields 1 ' ' (Or.inl ⟨rfl, rfl⟩) fields t junk cs hfields ht hcs

set_option maxRecDepth 100000 in
theorem whitespace_output_witness :
    getCols zeroCols "1,3-5".toList = some (colsOf [1, 3, 4, 5]) ∧
    List.intercalate [' '] ["this".toList, "is".toList, "some".toList] = "this is some".toList ∧
    extractLine 1 (colsOf [1, 3, 4, 5])
        (List.intercalate [' '] ["this".toList, "is".toList, "some".toList] ++ '\n' :: [NUL]) =
      some ("this some".toList ++ ['\n']) :=
  ⟨by decide, by decide,
   (whitespace_output ["this".toList, "is".toList, "some".toList] '\n' [NUL] [1, 3, 4, 5]
      (by decide) (Or.inl rfl) (by decide)).trans (by decide)⟩

set_option maxRecDepth 100000 in
/-- C6 (code defect): in Whitespace mode with the selection `"2"`, the buffer
`"a \n"` (whatever follows its NUL) makes the loop step over the space onto
the line terminator, print the terminator as if it were the first character of
field 2, and step over it; the output for this one line is two line
terminators. -/
theorem extractLine_trailing_delimiter (junk : List Char) :
    getCols zeroCols "2".toList = some (colsOf [2]) ∧
    extractLine 1 (colsOf [2]) ('a' :: ' ' :: '\n' :: NUL :: junk) = some ['\n', '\n'] := by
  refine ⟨by decide, ?_⟩
  have hm : FieldMode 1 ' ' := Or.inl ⟨rfl, rfl⟩
  have h0 : load (colsOf [2]) 0 = some 2 := rfl
  have ha : ¬ isEnd 'a' := by decide
  have hna : ('a' : Char) ≠ ' ' := by decide
  have hb0 : load ('a' :: ' ' :: '\n' :: NUL :: junk) 0 = some 'a' := rfl
  have hb1 : load ('a' :: ' ' :: '\n' :: NUL :: junk) 1 = some ' ' := rfl
  have hb2 : load ('a' :: ' ' :: '\n' :: NUL :: junk) (1 + 1) = some '\n' := rfl
  have hb3 : load ('a' :: ' ' :: '\n' :: NUL :: junk) (1 + 1 + 1) = some NUL := rfl
  have hfuel : ('a' :: ' ' :: '\n' :: NUL :: junk).length + 1 = (junk.length + 2) + 1 + 1 + 1 := by
    simp
  have hc1 : ¬ (((1 : Nat) : Int) = 2) := by decide
  have hc2 : (((1 + 1 : Nat)) : Int) = 2 := by decide
  unfold extractLine
  rw [hfuel,
    extractLoop_field_plain 1 ' ' hm (colsOf [2]) _ _ 0 0 1 [] 'a' hb0 ha hna]
  simp only [printIfSelected, h0, Option.bind_eq_bind, Option.some_bind, hc1, if_false,
    Option.pure_def]
  rw [extractLoop_field_delim 1 ' ' hm (colsOf [2]) _ _ (0 + 1) 0 1 [] hb1]
  simp only [crossDelim, printIfSelected, h0, Option.bind_eq_bind, Option.some_bind, hc1,
    if_false, Option.pure_def, hc2, if_true, hb2]
  rw [extractLoop_end 1 (colsOf [2]) _ _ (0 + 1 + 1 + 1) 0 (1 + 1) _ NUL hb3 (Or.inr rfl)]
  rfl

theorem getD_map_singleton (line : List Char) (i : Nat) (h : i < line.length) :
    (line.map (fun c => [c])).getD i [] = [line.getD i NUL] := by
  induction line generalizing i with
  | nil => simp at h
  | cons a l ih =>
    cases i with
    | zero => rfl
    | succ i =>
      simp only [List.map_cons, List.getD_cons_succ]
      exact ih i (by simpa using h)

theorem beyond_fields (flag : Int) (d : Char) (hm : FieldMode flag d) (hflag : flag ≠ 0)
    (columns : List (List Char)) (t : Char) (junk : List Char) (cs : List Nat)
    (hf : ∀ f ∈ columns, GoodField d f) (ht : isEnd t) (hcs : AscendingCols cs) :
    extractLine flag (colsOf (cs.filter (fun k => decide (k ≤ columns.length))))
        (List.intercalate [d] columns ++ t :: junk) =
      some (List.intercalate [' ']
        ((cs.filter (fun k => decide (k ≤ columns.length))).map
          (fun k => columns.getD (k - 1) [])) ++ ['\n']) ∧
    extractLine flag (colsOf cs) (List.intercalate [d] columns ++ t :: junk) =
      some (List.intercalate [' ']
        ((cs.filter (fun k => decide (k ≤ columns.length))).map
          (fun k => columns.getD (k - 1) [])) ++
        (if (∃ k ∈ cs, k ≤ columns.length) ∧ (∃ k ∈ cs, columns.length < k) ∧
            (flag = 0 ∨ columns.length ∉ cs) then [' '] else []) ++ ['\n']) := by
  have hE := ascendingCols_filter cs hcs columns.length
  have hEle : ∀ k ∈ cs.filter (fun k => decide (k ≤ columns.length)), k ≤ columns.length :=
    fun k hk => by simpa using (List.mem_filter.mp hk).2
  have hEE : (cs.filter (fun k => decide (k ≤ columns.length))).filter
      (fun k => decide (k ≤ columns.length)) = cs.filter (fun k => decide (k ≤ columns.length)) :=
    filter_le_self _ _ hEle
  constructor
  · rw [extractLine_fields flag d hm columns t junk _ hf ht hE, hEE,
      flatMap_sep_eq_intercalate (fun k => columns.getD (k - 1) []) columns.length _ hE.1 hEle]
  · rw [extractLine_fields flag d hm columns t junk cs hf ht hcs,
      flatMap_sep_filter (fun k => columns.getD (k - 1) []) columns.length columns.length
        (Nat.le_refl _) cs hcs.1]
    congr 3
    unfold trailingSep
    refine if_congr (and_congr Iff.rfl (and_congr Iff.rfl ⟨fun h => Or.inr ?_, fun h hin => ?_⟩))
      rfl rfl
    · intro hin
      exact absurd (h hin) (Nat.lt_irrefl _)
    · rcases h with h | h
      · exact absurd h hflag
      · exact absurd hin h

set_option maxRecDepth 100000 in
/-- C7, as stated, fails: in Whitespace mode on the line `"a b"` the ColumnSet
`[1, 3]` gives `"a "` and its restriction to the existing columns, `[1]`, gives
`"a"`. -/
theorem beyond_columns_counterexample :
    AscendingCols [1, 3] ∧
    extractLine 1 (colsOf [1, 3]) ("a b".toList ++ '\n' :: [NUL]) = some "a \n".toList ∧
    extractLine 1 (colsOf ([1, 3].filter (fun k => decide (k ≤ 2))))
        ("a b".toList ++ '\n' :: [NUL]) = some "a\n".toList := by
  decide

/-- C7 (amended): for every mode, every well-formed line and every strictly
ascending ColumnSet, the output equals the output obtained with the ColumnSet
restricted to the columns that exist in the line, followed by at most one more
separator space before the line terminator.  That space is written exactly when
a column within the line is selected, a column beyond the line is requested and,
in the field modes, the last field of the line is not selected. -/
theorem beyond_columns (flag : Int) (line : List Char) (columns : List (List Char))
    (t : Char) (junk : List Char) (cs : List Nat) (hlc : LineColumns flag line columns)
    (ht : t = '\n' ∨ t = NUL) (hcs : AscendingCols cs) :
    extractLine flag (colsOf (cs.filter (fun k => decide (k ≤ columns.length))))
        (line ++ t :: junk) =
      some (List.intercalate [' ']
        ((cs.filter (fun k => decide (k ≤ columns.length))).map
          (fun k => columns.getD (k - 1) [])) ++ ['\n']) ∧
    extractLine flag (colsOf cs) (line ++ t :: junk) =
      some (List.intercalate [' ']
        ((cs.filter (fun k => decide (k ≤ columns.length))).map
          (fun k => columns.getD (k - 1) [])) ++
        (if (∃ k ∈ cs, k ≤ columns.length) ∧ (∃ k ∈ cs, columns.length < k) ∧
            (flag = 0 ∨ columns.length ∉ cs) then [' '] else []) ++ ['\n']) := by
  have hE := ascendingCols_filter cs hcs columns.length
  have hEle : ∀ k ∈ cs.filter (fun k => decide (k ≤ columns.length)), k ≤ columns.length :=
    fun k hk => by simpa using (List.mem_filter.mp hk).2
  have hEE : (cs.filter (fun k => decide (k ≤ columns.length))).filter
      (fun k => decide (k ≤ columns.length)) = cs.filter (fun k => decide (k ≤ columns.length)) :=
    filter_le_self _ _ hEle
  rcases hlc with ⟨rfl, rfl, hline⟩ | ⟨rfl, rfl, hf⟩ | ⟨rfl, rfl, hf⟩
  · simp only [List.length_map] at hE hEle hEE ⊢
    have hmap : (cs.filter (fun k => decide (k ≤ line.length))).map
          (fun k => [line.getD (k - 1) NUL]) =
        (cs.filter (fun k => decide (k ≤ line.length))).map
          (fun k => (line.map (fun c => [c])).getD (k - 1) []) := by
      apply List.map_congr_left
      intro k hk
      have h1 := hEle k hk
      have h2 := hcs.2.1 k (List.mem_of_mem_filter hk)
      rw [getD_map_singleton line (k - 1) (by omega)]
    constructor
    · rw [extractLine_fixed line t junk _ hline ht hE, hEE,
        flatMap_sep_eq_intercalate (fun k => [line.getD (k - 1) NUL]) (line.length + 1) _ hE.1
          (fun k hk => Nat.le_succ_of_le (hEle k hk)), hmap]
    · rw [extractLine_fixed line t junk cs hline ht hcs,
        flatMap_sep_filter (fun k => [line.getD (k - 1) NUL]) line.length (line.length + 1)
          (Nat.le_succ _) cs hcs.1, hmap]
      congr 3
      unfold trailingSep
      exact if_congr (and_congr Iff.rfl (and_congr Iff.rfl
        ⟨fun _ => by simp, fun _ _ => Nat.lt_succ_self _⟩)) rfl rfl
  · exact beyond_fields 1 ' ' (Or.inl ⟨rfl, rfl⟩) (by decide) columns t junk cs hf ht hcs
  · exact beyond_fields 2 ',' (Or.inr ⟨rfl, rfl⟩) (by decide) columns t junk cs hf ht hcs

set_option maxRecDepth 100000 in
/-- C10, as stated, fails: in FixedWidth mode on the line `"abc"` the strictly
ascending ColumnSet `[1, 50]` gives `"a "`: a separator follows the last
emitted character. -/
theorem fixedWidth_separator_counterexample :
    AscendingCols [1, 50] ∧
    extractLine 0 (colsOf [1, 50]) ("abc".toList ++ '\n' :: [NUL]) = some "a \n".toList := by
  decide

/-- C10 (amended): in FixedWidth mode, for every line and every strictly
ascending ColumnSet, the output is the selected characters that exist in the
line joined by single spaces, followed by one more separator space exactly when
a character is emitted and the ColumnSet requests a column beyond the line's
length; so no separator follows the last emitted character when every column of
the ColumnSet is within the line. -/
theorem fixedWidth_separator (line : List Char) (t : Char) (junk : List Char) (cs : List Nat)
    (hline : ∀ c ∈ line, c ≠ '\n' ∧ c ≠ NUL) (ht : t = '\n' ∨ t = NUL)
    (hcs : AscendingCols cs) :
    extractLine 0 (colsOf cs) (line ++ t :: junk) =
      some (((cs.filter (fun k => decide (k ≤ line.length))).map
          (fun k => line.getD (k - 1) NUL)).intersperse ' ' ++
        (if (∃ k ∈ cs, k ≤ line.length) ∧ (∃ k ∈ cs, line.length < k) then [' '] else []) ++
        ['\n']) := by
  rw [extractLine_fixed line t junk cs hline ht hcs,
    flatMap_sep_filter (fun k => [line.getD (k - 1) NUL]) line.length (line.length + 1)
      (Nat.le_succ _) cs hcs.1, intersperse_eq_intercalate, List.map_map]
  congr 3
  unfold trailingSep
  exact if_congr ⟨fun h => ⟨h.1, h.2.1⟩, fun h => ⟨h.1, h.2, fun _ => Nat.lt_succ_self _⟩⟩
    rfl rfl

set_option maxRecDepth 100000 in
theorem fixedWidth_separator_witness :
    AscendingCols [1, 3] ∧
    extractLine 0 (colsOf [1, 3]) ("abc".toList ++ '\n' :: [NUL]) = some "a c\n".toList :=
  ⟨by decide,
   (fixedWidth_separator "abc".toList '\n' [NUL] [1, 3] (by decide) (Or.inl rfl)
      (by decide)).trans (by decide)⟩

set_option maxRecDepth 100000 in
theorem beyond_columns_witness :
    getCols zeroCols "50".toList = some (colsOf [50]) ∧
    LineColumns 0 "0123456789".toList ("0123456789".toList.map (fun c => [c])) ∧
    extractLine 0 (colsOf [50]) ("0123456789".toList ++ '\n' :: [NUL]) = some ['\n'] :=
  ⟨by decide, Or.inl ⟨rfl, rfl, by decide⟩,
   (beyond_columns 0 "0123456789".toList ("0123456789".toList.map (fun c => [c])) '\n' [NUL]
      [50] (Or.inl ⟨rfl, rfl, by decide⟩) (Or.inl rfl) (by decide)).2.trans (by decide)⟩

/-! ## getCols on selections with reversed ranges and repeated dashes -/

theorem runOf_reversed (a b : Nat) (h : b < a) : runOf a b = [] := by
  have : b + 1 - a = 0 := by omega
  simp [runOf, this]

theorem addRange_any (done tail : List Int) (a b : Nat) (hcap : b + 1 - a ≤ tail.length) :
    addRange (done ++ tail) done.length (a : Int) (b : Int) =
      some (done ++ runOf a b ++ tail.drop (b + 1 - a), done.length + (b + 1 - a)) := by
  by_cases hab : a ≤ b
  · exact addRange_ordered done tail a b hab hcap
  · have h0 : b + 1 - a = 0 := by omega
    have h1 : ((b : Int) + 1 - (a : Int)).toNat = 0 := by omega
    have h2 : ¬ ((a : Int) ≤ (b : Int)) := by omega
    simp [addRange, h1, addRangeLoop, h2, h0, runOf_reversed a b (by omega)]

theorem parse_anyTerm_comma (t : Term) (rest : List Char) (st : ParseState)
    (done tail : List Int) (hb : Between st done tail) (hcap : t.expand.length ≤ tail.length) :
    ∃ st', parse (t.chars ++ ',' :: rest) st = parse rest st' ∧
      Between st' (done ++ t.expand) (tail.drop t.expand.length) := by
  obtain ⟨hf, hp, hc, hi⟩ := hb
  cases t with
  | single a =>
    simp only [Term.expand, List.length_singleton] at hcap ⊢
    cases tail with
    | nil => simp at hcap
    | cons x tail =>
      refine ⟨_, parse_numeral_comma_single a rest st hf hp (by rw [hc, hi]; simp), ?_⟩
      refine ⟨⟨rfl, ?_⟩, rfl, ?_, ?_⟩
      · cases a <;> exact ⟨_, rfl⟩
      · simp only [hc, hi, set_length_append]; simp
      · simp [hi]
  | range a b =>
    simp only [Term.expand, runOf_length] at hcap ⊢
    simp only [Term.chars, List.append_assoc, List.cons_append]
    rw [parse_numeral_minus a _ st hf, parse_numeral_comma_range b rest _ ⟨rfl, by cases a <;> exact ⟨_, rfl⟩⟩
      (by simp only [hp, if_true]; omega)]
    simp only [hp, if_true, hc, hi, addRange_any done tail a.val b.val hcap, Option.some_bind]
    refine ⟨_, rfl, ⟨rfl, ?_⟩, rfl, ?_, ?_⟩
    · cases b <;> exact ⟨_, rfl⟩
    · simp
    · simp [runOf_length]

theorem parse_anyTerm_end (t : Term) (st : ParseState)
    (done tail : List Int) (hb : Between st done tail) (hcap : t.expand.length ≤ tail.length) :
    (parse t.chars st).bind flush = some (done ++ t.expand ++ tail.drop t.expand.length) := by
  obtain ⟨hf, hp, hc, hi⟩ := hb
  cases t with
  | single a =>
    simp only [Term.expand, List.length_singleton] at hcap ⊢
    cases tail with
    | nil => simp at hcap
    | cons x tail =>
      obtain ⟨k, hk⟩ := parse_numeral_end a st hf
      simp only [Term.chars, hk, Option.some_bind, flush, atoi_buf, hp, hc, hi]
      simp [store, set_length_append]
  | range a b =>
    simp only [Term.expand, runOf_length] at hcap ⊢
    simp only [Term.chars]
    rw [parse_numeral_minus a _ st hf]
    obtain ⟨k, hk⟩ := parse_numeral_end b
      { cols := st.cols, col_ind := st.col_ind, curr := a.reset, curr_ind := 0,
        prev := if st.prev = -1 then (a.val : Int) else st.prev }
      ⟨rfl, by cases a <;> exact ⟨_, rfl⟩⟩
    have hne : (a.val : Int) ≠ -1 := by omega
    simp only [hp, if_true, hc, hi] at hk ⊢
    simp only [hk, Option.some_bind, flush, atoi_buf, hne, ne_eq,
      not_false_eq_true, if_true]
    show (addRange (done ++ tail) done.length (a.val : Int) (b.val : Int)).bind _ = _
    rw [addRange_any done tail a.val b.val hcap]
    rfl

theorem parse_anyRender (ts : List Term) :
    ∀ (st : ParseState) (done tail : List Int), ts ≠ [] →
      Between st done tail → (expandAll ts).length ≤ tail.length →
      (parse (render ts) st).bind flush =
        some (done ++ expandAll ts ++ tail.drop (expandAll ts).length) := by
  induction ts with
  | nil => intro _ _ _ h; exact absurd rfl h
  | cons t ts ih =>
    intro st done tail _ hb hcap
    cases ts with
    | nil =>
      simp only [expandAll, List.append_nil, render] at hcap ⊢
      exact parse_anyTerm_end t st done tail hb hcap
    | cons u ts =>
      simp only [expandAll, render, List.length_append] at hcap ⊢
      obtain ⟨st', hst', hb'⟩ := parse_anyTerm_comma t (render (u :: ts)) st done tail hb (by omega)
      rw [hst']
      have := ih st' (done ++ t.expand) (tail.drop t.expand.length) (by simp) hb'
        (by simp only [expandAll, List.length_append, List.length_drop]; omega)
      rw [this]
      simp only [expandAll, List.length_append, List.append_assoc, List.drop_drop]

theorem getCols_anyRender (ts : List Term) (hne : ts ≠ [])
    (n : Nat) (hlen : (expandAll ts).length ≤ n) :
    getCols (List.replicate n 0) (render ts) =
      some (expandAll ts ++ List.replicate (n - (expandAll ts).length) 0) := by
  rw [getCols_eq, parse_anyRender ts _ [] (List.replicate n 0) hne (between_init _)
    (by simpa using hlen)]
  simp

theorem expandAll_append (ps qs : List Term) : expandAll (ps ++ qs) = expandAll ps ++ expandAll qs := by
  induction ps with
  | nil => rfl
  | cons p ps ih => simp [expandAll, ih]

theorem expandAll_reversed (pre post : List Term) (a b : Numeral) (h : b.val < a.val) :
    expandAll (pre ++ Term.range a b :: post) = expandAll (pre ++ post) := by
  simp [expandAll_append, expandAll, Term.expand, runOf_reversed a.val b.val h]

/-! ## Claims about reversed ranges and repeated dashes -/

/-- C17: a reversed range expands to nothing.  For numerals `a > b` of one or
two digits, `getCols` on `"a-b"` returns the array as `main` initialised it, all
zeros, so that the ColumnSet is empty; and inside a longer selection the term
`a-b` contributes no column: the array holds the columns of the other terms, in
term order, followed by zeros, which is what `getCols` stores for the selection
without that term. -/
theorem getCols_reversed_range (a b : Numeral) (hab : b.val < a.val) (pre post : List Term)
    (hlen : (expandAll (pre ++ post)).length ≤ 128) :
    getCols zeroCols (a.chars ++ '-' :: b.chars) = some zeroCols ∧
    columnSet zeroCols = [] ∧
    getCols zeroCols (render (pre ++ Term.range a b :: post)) =
      some (expandAll (pre ++ post) ++
        List.replicate (128 - (expandAll (pre ++ post)).length) 0) ∧
    (pre ++ post ≠ [] →
      getCols zeroCols (render (pre ++ Term.range a b :: post)) =
        getCols zeroCols (render (pre ++ post))) := by
  have hr : runOf a.val b.val = [] := runOf_reversed a.val b.val hab
  have h1 := getCols_anyRender [Term.range a b] (by simp) 128
    (by simp [expandAll, Term.expand, hr])
  have h2 := getCols_anyRender (pre ++ Term.range a b :: post) (by simp) 128
    (by rw [expandAll_reversed pre post a b hab]; exact hlen)
  rw [expandAll_reversed pre post a b hab] at h2
  refine ⟨?_, by decide, h2, fun hne => ?_⟩
  · simpa [render, Term.chars, expandAll, Term.expand, hr, zeroCols] using h1
  · exact h2.trans (getCols_anyRender (pre ++ post) hne 128 hlen).symm

set_option maxRecDepth 100000 in
theorem getCols_reversed_range_witness :
    render ([Term.single (.one 1)] ++ Term.range (.one 5) (.one 2) :: [Term.single (.one 7)]) =
      "1,5-2,7".toList ∧
    (Numeral.one 5).chars ++ '-' :: (Numeral.one 2).chars = "5-2".toList ∧
    validateSelection "1,5-2,7".toList = 0 ∧
    getCols zeroCols "5-2".toList = some zeroCols ∧
    getCols zeroCols "1,5-2,7".toList = some (colsOf [1, 7]) :=
  ⟨by decide, by decide, by decide,
   (getCols_reversed_range (.one 5) (.one 2) (by decide) [Term.single (.one 1)]
      [Term.single (.one 7)] (by decide)).1,
   (getCols_reversed_range (.one 5) (.one 2) (by decide) [Term.single (.one 1)]
      [Term.single (.one 7)] (by decide)).2.2.1.trans (by decide)⟩

/-- C18: the first `-` of a term wins.  For numerals `a`, `b`, `c` of one or
two digits with `a ≤ c`, the string `"a-b-c"` passes `validateSelection`; the
loop of `getCols` reaches the characters after `"a-b-"` with `prev` still `a`
and nothing stored, so `b` is discarded; and `getCols` stores the columns
`a, a+1, ..., c`. -/
theorem getCols_first_dash_wins (a b c : Numeral) (hac : a.val ≤ c.val) :
    validateSelection (a.chars ++ '-' :: (b.chars ++ '-' :: c.chars)) = 0 ∧
    (∀ (cols : List Int) (rest : List Char),
      parse (a.chars ++ '-' :: (b.chars ++ '-' :: rest))
          { cols := cols, col_ind := 0, curr := [' ', ' ', NUL], curr_ind := 0, prev := -1 } =
        parse rest
          { cols := cols, col_ind := 0, curr := b.reset, curr_ind := 0, prev := (a.val : Int) }) ∧
    getCols zeroCols (a.chars ++ '-' :: (b.chars ++ '-' :: c.chars)) =
      some (runOf a.val c.val ++ List.replicate (128 - (c.val + 1 - a.val)) 0) := by
  have hne : (a.val : Int) ≠ -1 := by omega
  have hstep : ∀ (cols : List Int) (rest : List Char),
      parse (a.chars ++ '-' :: (b.chars ++ '-' :: rest))
          { cols := cols, col_ind := 0, curr := [' ', ' ', NUL], curr_ind := 0, prev := -1 } =
        parse rest
          { cols := cols, col_ind := 0, curr := b.reset, curr_ind := 0,
            prev := (a.val : Int) } := by
    intro cols rest
    rw [parse_numeral_minus a _ _ ⟨rfl, ' ', rfl⟩,
      parse_numeral_minus b _ _ ⟨rfl, by cases a <;> exact ⟨_, rfl⟩⟩]
    simp [hne]
  refine ⟨?_, hstep, ?_⟩
  · exact validateSelection_of_digitEnds _
      (digitEnds_join a.chars _ '-' (by decide) (digitEnds_numeral a)
        (digitEnds_join b.chars c.chars '-' (by decide) (digitEnds_numeral b)
          (digitEnds_numeral c)))
  · rw [getCols_eq, hstep]
    obtain ⟨k, hk⟩ := parse_numeral_end c
      { cols := zeroCols, col_ind := 0, curr := b.reset, curr_ind := 0, prev := (a.val : Int) }
      ⟨rfl, by cases b <;> exact ⟨_, rfl⟩⟩
    have hc := c.val_le
    have hadd := addRange_ordered [] zeroCols a.val c.val hac (by simp [zeroCols]; omega)
    simp only [List.nil_append, List.length_nil, Nat.zero_add] at hadd
    simp only [hk, Option.some_bind, flush, atoi_buf, hne, ne_eq, not_false_eq_true, if_true]
    show (addRange zeroCols 0 (a.val : Int) (c.val : Int)).bind _ = _
    rw [hadd]
    show some (runOf a.val c.val ++ List.drop (c.val + 1 - a.val) (List.replicate 128 0)) = _
    rw [List.drop_replicate]

set_option maxRecDepth 100000 in
theorem getCols_first_dash_wins_witness :
    (Numeral.one 1).chars ++ '-' :: ((Numeral.one 2).chars ++ '-' :: (Numeral.one 9).chars) =
      "1-2-9".toList ∧
    validateSelection "1-2-9".toList = 0 ∧
    getCols zeroCols "1-2-9".toList = some (colsOf [1, 2, 3, 4, 5, 6, 7, 8, 9]) :=
  ⟨by decide, (getCols_first_dash_wins (.one 1) (.one 2) (.one 9) (by decide)).1,
   (getCols_first_dash_wins (.one 1) (.one 2) (.one 9) (by decide)).2.2.trans (by decide)⟩

/-! ## FixedWidth mode on a column array in any order -/

theorem pending_colsOf_pos (cs : List Nat) (hpos : ∀ k ∈ cs, 0 < k) (hlen : cs.length ≤ 127) :
    Pending (colsOf cs) 0 cs := by
  refine ⟨⟨List.replicate (127 - cs.length) 0, ?_⟩, hpos⟩
  have : 128 - cs.length = (127 - cs.length) + 1 := by omega
  simp only [colsOf, List.drop_zero, this, List.replicate_succ]

theorem getD_of_drop (line : List Char) (i : Nat) (c : Char) (l : List Char)
    (h : line.drop i = c :: l) : line.getD i NUL = c := by
  have := (load_of_drop line i c l h).1
  simp only [load, List.get?_eq_getElem?] at this
  simp [List.getD, this]

theorem fixedOut_eq_prefixOut (line : List Char) (n : Nat) :
    ∀ (l : List Char) (i : Nat) (pend : List Nat), line.drop i = l → i + l.length = n →
      fixedOut l i pend = prefixOut line n i pend := by
  intro l
  induction l with
  | nil =>
    intro i pend _ hn
    simp only [List.length_nil, Nat.add_zero] at hn
    cases pend with
    | nil => rfl
    | cons p ps =>
      have : ¬ (i < p ∧ p ≤ n) := by omega
      simp [fixedOut, prefixOut, this]
  | cons c l ih =>
    intro i pend hd hn
    simp only [List.length_cons] at hn
    have hd' : line.drop (i + 1) = l := (load_of_drop line i c l hd).2
    cases pend with
    | nil => rfl
    | cons p ps =>
      by_cases hip : i + 1 = p
      · have h1 : i < p ∧ p ≤ n := by omega
        have hc : line.getD (p - 1) NUL = c := by
          rw [← hip]; exact getD_of_drop line i c l hd
        simp only [fixedOut, prefixOut, if_pos hip, if_pos h1, hc]
        rw [ih (i + 1) ps hd' (by omega), hip]
      · simp only [fixedOut, if_neg hip]
        rw [ih (i + 1) (p :: ps) hd' (by omega)]
        simp only [prefixOut]
        exact if_congr (by omega) rfl rfl

theorem goodPrefixFrom_length_le (n : Nat) (cs : List Nat) :
    ∀ prev, (goodPrefixFrom n prev cs).length ≤ cs.length := by
  induction cs with
  | nil => intro _; simp [goodPrefixFrom]
  | cons p ps ih =>
    intro prev
    simp only [goodPrefixFrom]
    split
    · simpa using ih p
    · simp

theorem prefixOut_closed (line : List Char) (n : Nat) (cs : List Nat) :
    ∀ prev, prefixOut line n prev cs =
      ((goodPrefixFrom n prev cs).map (fun k => line.getD (k - 1) NUL)).intersperse ' ' ++
        (if goodPrefixFrom n prev cs ≠ [] ∧ (goodPrefixFrom n prev cs).length < cs.length
          then [' '] else []) := by
  induction cs with
  | nil => intro _; simp [prefixOut, goodPrefixFrom]
  | cons p ps ih =>
    intro prev
    by_cases h : prev < p ∧ p ≤ n
    · simp only [prefixOut, goodPrefixFrom, if_pos h, ih p]
      cases ps with
      | nil => simp [goodPrefixFrom]
      | cons q qs =>
        by_cases h2 : p < q ∧ q ≤ n
        · simp [goodPrefixFrom, if_pos h2]
        · simp [goodPrefixFrom, if_neg h2]
    · simp [prefixOut, goodPrefixFrom, if_neg h]

/-- The list `goodPrefixFrom n prev cs` is a prefix of `cs`, strictly increasing
above `prev` with entries at most `n`, and the entry of `cs` that follows it, if
any, is not above the entry before it or exceeds `n`. -/
theorem goodPrefixFrom_spec (n : Nat) (cs : List Nat) :
    ∀ prev, ∃ rest, cs = goodPrefixFrom n prev cs ++ rest ∧
      (prev :: goodPrefixFrom n prev cs).Chain' (fun a b => a < b) ∧
      (∀ k ∈ goodPrefixFrom n prev cs, k ≤ n) ∧
      ∀ q ∈ rest.head?, ¬ (((prev :: goodPrefixFrom n prev cs).getLast (by simp)) < q ∧ q ≤ n) := by
  induction cs with
  | nil => intro prev; exact ⟨[], by simp [goodPrefixFrom]⟩
  | cons p ps ih =>
    intro prev
    by_cases h : prev < p ∧ p ≤ n
    · obtain ⟨rest, h1, h2, h3, h4⟩ := ih p
      refine ⟨rest, ?_, ?_, ?_, ?_⟩
      · simp only [goodPrefixFrom, if_pos h, List.cons_append]; rw [← h1]
      · simp only [goodPrefixFrom, if_pos h]
        exact List.Chain'.cons h.1 h2
      · simp only [goodPrefixFrom, if_pos h]
        intro k hk
        rcases List.mem_cons.mp hk with rfl | hk
        · exact h.2
        · exact h3 k hk
      · intro q hq
        have := h4 q hq
        simpa only [goodPrefixFrom, if_pos h, List.getLast_cons (List.cons_ne_nil _ _)] using this
    · refine ⟨p :: ps, by simp [goodPrefixFrom, if_neg h], by simp [goodPrefixFrom, if_neg h],
        by simp [goodPrefixFrom, if_neg h], ?_⟩
      intro q hq
      simp only [List.head?_cons, Option.mem_def, Option.some.injEq] at hq
      subst hq
      simpa [goodPrefixFrom, if_neg h] using h

/-- C19: in FixedWidth mode, for every line and every array of positive columns
in any order, the output is the characters at the positions of the longest
prefix of the array that is strictly increasing with entries at most the line's
length, joined by single spaces, then one more space when a character was
emitted and the array goes on after that prefix, then the line terminator.
That prefix is a prefix of the array, strictly increasing with entries at most
the line's length, and the entry that follows it, if any, is not above its
predecessor or exceeds the line's length: every column from that entry onward
is dropped. -/
theorem fixedWidth_any_order (line : List Char) (t : Char) (junk : List Char) (cs : List Nat)
    (hline : ∀ c ∈ line, c ≠ '\n' ∧ c ≠ NUL) (ht : t = '\n' ∨ t = NUL)
    (hpos : ∀ k ∈ cs, 0 < k) (hlen : cs.length ≤ 127) :
    extractLine 0 (colsOf cs) (line ++ t :: junk) =
      some (((goodPrefix line.length cs).map (fun k => line.getD (k - 1) NUL)).intersperse ' ' ++
        (if goodPrefix line.length cs ≠ [] ∧ (goodPrefix line.length cs).length < cs.length
          then [' '] else []) ++ ['\n']) ∧
    ∃ rest, cs = goodPrefix line.length cs ++ rest ∧
      (0 :: goodPrefix line.length cs).Chain' (fun a b => a < b) ∧
      (∀ k ∈ goodPrefix line.length cs, k ≤ line.length) ∧
      ∀ q ∈ rest.head?,
        ¬ ((0 :: goodPrefix line.length cs).getLast (by simp) < q ∧ q ≤ line.length) := by
  refine ⟨?_, goodPrefixFrom_spec line.length cs 0⟩
  unfold extractLine
  rw [fixed_loop (colsOf cs) (line ++ t :: junk) t junk ht 1 line 0 0 _ [] cs (by simp)
    (fun c hc h => by
      have := hline c hc
      rcases h with h | h
      · exact this.1 h
      · exact this.2 h)
    (pending_colsOf_pos cs hpos hlen) (by simp; omega)]
  rw [fixedOut_eq_prefixOut line line.length line 0 cs (by simp) (by simp),
    prefixOut_closed line line.length cs 0]
  simp [goodPrefix]

set_option maxRecDepth 100000 in
theorem fixedWidth_any_order_witness :
    getCols zeroCols "3,1".toList = some (colsOf [3, 1]) ∧
    goodPrefix 3 [3, 1] = [3] ∧
    extractLine 0 (colsOf [3, 1]) ("abc".toList ++ '\n' :: [NUL]) = some "c \n".toList :=
  ⟨by decide, by decide,
   (fixedWidth_any_order "abc".toList '\n' [NUL] [3, 1] (by decide) (Or.inl rfl) (by decide)
      (by decide)).1.trans (by decide)⟩

/-! ## A zero in the column array -/

theorem extractLoop_other (flag : Int) (h0 : flag ≠ 0) (h1 : flag ≠ 1) (h2 : flag ≠ 2)
    (cols : List Int) (buffer : List Char) (fuel i j col : Nat) (out : List Char) (c : Char)
    (hc : load buffer i = some c) (he : ¬ isEnd c) :
    extractLoop flag cols buffer (fuel + 1) i j col out =
      extractLoop flag cols buffer fuel (i + 1) j col out := by
  have he' : ¬ (c = '\n' ∨ c = NUL) := he
  simp only [extractLoop, hc, he', h0, h1, h2, Option.bind_eq_bind, Option.some_bind, if_false]

theorem extractLoop_load_none (flag : Int) (cols : List Int) (buffer : List Char)
    (fuel i j col : Nat) (out : List Char) (hc : load buffer i = none) :
    extractLoop flag cols buffer fuel i j col out = none := by
  cases fuel with
  | zero => rfl
  | succ fuel => simp [extractLoop, hc]

theorem crossDelim_agree (cols cols' : List Int) (z : Nat)
    (hag : ∀ k, k ≤ z → load cols' k = load cols k) (hz : load cols z = some 0)
    (i j col : Nat) (out : List Char) (hj : j ≤ z) (hcol : 1 ≤ col) :
    crossDelim cols' i j col out = crossDelim cols i j col out ∧
      ∀ r, crossDelim cols i j col out = some r → r.2.1 ≤ z ∧ 1 ≤ r.2.2.1 := by
  unfold crossDelim
  rw [hag j hj]
  cases hcj : load cols j with
  | none => simp
  | some cj =>
    simp only [Option.bind_eq_bind, Option.some_bind]
    by_cases heq : (col : Int) = cj
    · have hjz : j < z := by
        rcases Nat.lt_or_ge j z with h | h
        · exact h
        · have : j = z := by omega
          subst this
          rw [hz] at hcj
          simp only [Option.some.injEq] at hcj
          omega
      rw [if_pos heq, if_pos heq, hag (j + 1) hjz]
      cases hcj1 : load cols (j + 1) with
      | none => simp
      | some cj1 =>
        refine ⟨rfl, fun r hr => ?_⟩
        simp only [Option.some_bind] at hr
        by_cases hne : cj1 ≠ 0
        · rw [if_pos hne] at hr
          simp only [Option.pure_def, Option.some.injEq] at hr
          subst hr
          exact ⟨hjz, Nat.le_succ_of_le hcol⟩
        · rw [if_neg hne] at hr
          simp only [Option.pure_def, Option.some.injEq] at hr
          subst hr
          exact ⟨hj, Nat.le_succ_of_le hcol⟩
    · rw [if_neg heq, if_neg heq]
      refine ⟨rfl, fun r hr => ?_⟩
      simp only [Option.pure_def, Option.some.injEq] at hr
      subst hr
      exact ⟨hj, Nat.le_succ_of_le hcol⟩

theorem printIfSelected_agree (cols cols' : List Int) (z : Nat)
    (hag : ∀ k, k ≤ z → load cols' k = load cols k) (buffer : List Char)
    (i j col : Nat) (out : List Char) (hj : j ≤ z) :
    printIfSelected cols' buffer i j col out = printIfSelected cols buffer i j col out := by
  unfold printIfSelected
  rw [hag j hj]

/-- The extraction loop reads the column array only up to its first zero: two
arrays that agree up to a cell that holds zero give the same run. -/
theorem extractLoop_agree (flag : Int) (cols cols' : List Int) (buffer : List Char) (z : Nat)
    (hag : ∀ k, k ≤ z → load cols' k = load cols k) (hz : load cols z = some 0) :
    ∀ (fuel i j col : Nat) (out : List Char), j ≤ z → 1 ≤ col →
      extractLoop flag cols' buffer fuel i j col out =
        extractLoop flag cols buffer fuel i j col out := by
  intro fuel
  induction fuel with
  | zero => intros; rfl
  | succ fuel ih =>
    intro i j col out hj hcol
    cases hb : load buffer i with
    | none => rw [extractLoop_load_none _ _ _ _ _ _ _ _ hb, extractLoop_load_none _ _ _ _ _ _ _ _ hb]
    | some c =>
      by_cases he : isEnd c
      · rw [extractLoop_end flag cols' buffer fuel i j col out c hb he,
          extractLoop_end flag cols buffer fuel i j col out c hb he]
      · have hfield : ∀ d, FieldMode flag d →
            extractLoop flag cols' buffer (fuel + 1) i j col out =
              extractLoop flag cols buffer (fuel + 1) i j col out := by
          intro d hm
          by_cases hd : c = d
          · subst hd
            rw [extractLoop_field_delim flag c hm cols' buffer fuel i j col out hb,
              extractLoop_field_delim flag c hm cols buffer fuel i j col out hb]
            obtain ⟨hx, hr⟩ := crossDelim_agree cols cols' z hag hz i j col out hj hcol
            rw [hx]
            cases hcd : crossDelim cols i j col out with
            | none => rfl
            | some r =>
              obtain ⟨h1, h2⟩ := hr r hcd
              simp only [Option.some_bind]
              rw [printIfSelected_agree cols cols' z hag buffer _ _ _ _ h1]
              cases printIfSelected cols buffer r.1 r.2.1 r.2.2.1 r.2.2.2 with
              | none => rfl
              | some out2 => exact ih _ _ _ _ h1 h2
          · rw [extractLoop_field_plain flag d hm cols' buffer fuel i j col out c hb he hd,
              extractLoop_field_plain flag d hm cols buffer fuel i j col out c hb he hd,
              printIfSelected_agree cols cols' z hag buffer _ _ _ _ hj]
            cases printIfSelected cols buffer i j col out with
            | none => rfl
            | some out2 => exact ih _ _ _ _ hj hcol
        by_cases h0 : flag = 0
        · subst h0
          rw [extractLoop_fixed cols' buffer fuel i j col out c hb he,
            extractLoop_fixed cols buffer fuel i j col out c hb he, hag j hj]
          cases hcj : load cols j with
          | none => rfl
          | some cj =>
            simp only [Option.some_bind]
            by_cases heq : ((i + 1 : Nat) : Int) = cj
            · have hjz : j < z := by
                rcases Nat.lt_or_ge j z with h | h
                · exact h
                · have : j = z := by omega
                  subst this
                  rw [hz] at hcj
                  simp only [Option.some.injEq] at hcj
                  omega
              rw [if_pos heq, if_pos heq, hag (j + 1) hjz]
              cases load cols (j + 1) with
              | none => rfl
              | some cj1 => exact ih _ _ _ _ hjz hcol
            · rw [if_neg heq, if_neg heq]
              exact ih _ _ _ _ hj hcol
        · by_cases h1 : flag = 1
          · exact hfield ' ' (Or.inl ⟨h1, rfl⟩)
          · by_cases h2 : flag = 2
            · exact hfield ',' (Or.inr ⟨h2, rfl⟩)
            · rw [extractLoop_other flag h0 h1 h2 cols' buffer fuel i j col out c hb he,
                extractLoop_other flag h0 h1 h2 cols buffer fuel i j col out c hb he]
              exact ih _ _ _ _ hj hcol

theorem columnSet_split (cols : List Int) (h0 : (0 : Int) ∈ cols) :
    ∃ post, cols = columnSet cols ++ 0 :: post := by
  induction cols with
  | nil => simp at h0
  | cons x cols ih =>
    by_cases hx : x = 0
    · subst hx
      exact ⟨cols, by simp [columnSet]⟩
    · have : (0 : Int) ∈ cols := by
        rcases List.mem_cons.mp h0 with h | h
        · exact absurd h.symm hx
        · exact h
      obtain ⟨post, hp⟩ := ih this
      refine ⟨post, ?_⟩
      simp only [columnSet] at hp ⊢
      rw [List.takeWhile_cons_of_pos (by simpa using hx), List.cons_append, ← hp]

theorem load_append_zero (pre post post' : List Int) :
    ∀ k, k ≤ pre.length → load (pre ++ 0 :: post') k = load (pre ++ 0 :: post) k := by
  induction pre with
  | nil =>
    intro k hk
    have : k = 0 := by simpa using hk
    subst this
    rfl
  | cons x pre ih =>
    intro k hk
    cases k with
    | zero => rfl
    | succ k => exact ih k (by simpa using hk)

theorem load_append_zero_self (pre post : List Int) :
    load (pre ++ 0 :: post) pre.length = some 0 := by
  induction pre with
  | nil => rfl
  | cons x pre ih => exact ih

/-- With a zero in the first cell of the column array the loop writes nothing:
it ends with the output it started from, or runs off the buffer. -/
theorem extractLoop_zero_head (flag : Int) (cols : List Int) (buffer : List Char)
    (hz : load cols 0 = some 0) :
    ∀ (fuel i col : Nat) (out : List Char), 1 ≤ col →
      extractLoop flag cols buffer fuel i 0 col out = some out ∨
        extractLoop flag cols buffer fuel i 0 col out = none := by
  intro fuel
  induction fuel with
  | zero => intros; exact Or.inr rfl
  | succ fuel ih =>
    intro i col out hcol
    have hpr : ∀ i' col', 1 ≤ col' → printIfSelected cols buffer i' 0 col' out = some out := by
      intro i' col' h
      have : ¬ ((col' : Int) = 0) := by omega
      simp [printIfSelected, hz, this]
    have hcr : crossDelim cols i 0 col out = some (i + 1, 0, col + 1, out) := by
      have : ¬ ((col : Int) = 0) := by omega
      simp [crossDelim, hz, this]
    cases hb : load buffer i with
    | none => exact Or.inr (extractLoop_load_none _ _ _ _ _ _ _ _ hb)
    | some c =>
      by_cases he : isEnd c
      · exact Or.inl (extractLoop_end flag cols buffer fuel i 0 col out c hb he)
      · have hfield : ∀ d, FieldMode flag d →
            (extractLoop flag cols buffer (fuel + 1) i 0 col out = some out ∨
              extractLoop flag cols buffer (fuel + 1) i 0 col out = none) := by
          intro d hm
          by_cases hd : c = d
          · subst hd
            rw [extractLoop_field_delim flag c hm cols buffer fuel i 0 col out hb, hcr]
            simp only [Option.some_bind, hpr _ _ (Nat.le_succ_of_le hcol)]
            exact ih _ _ _ (Nat.le_succ_of_le hcol)
          · rw [extractLoop_field_plain flag d hm cols buffer fuel i 0 col out c hb he hd,
              hpr _ _ hcol]
            exact ih _ _ _ hcol
        by_cases h0 : flag = 0
        · subst h0
          rw [extractLoop_fixed cols buffer fuel i 0 col out c hb he, hz]
          have : ¬ (((i + 1 : Nat) : Int) = 0) := by omega
          simp only [Option.some_bind, if_neg this]
          exact ih _ _ _ hcol
        · by_cases h1 : flag = 1
          · exact hfield ' ' (Or.inl ⟨h1, rfl⟩)
          · by_cases h2 : flag = 2
            · exact hfield ',' (Or.inr ⟨h2, rfl⟩)
            · rw [extractLoop_other flag h0 h1 h2 cols buffer fuel i 0 col out c hb he]
              exact ih _ _ _ hcol

/-- With a zero in the first cell of the column array and two line-end markers
next to each other at the positions `m` and `m + 1` of the buffer, the loop
started at or before `m + 1` ends inside the buffer. -/
theorem extractLoop_zero_head_ends (flag : Int) (cols : List Int) (buffer : List Char)
    (hz : load cols 0 = some 0) (m : Nat) (e1 e2 : Char) (h1 : load buffer m = some e1)
    (h2 : load buffer (m + 1) = some e2) (he1 : isEnd e1) (he2 : isEnd e2) :
    ∀ (fuel i col : Nat) (out : List Char), 1 ≤ col → i ≤ m + 1 → m + 1 - i < fuel →
      extractLoop flag cols buffer fuel i 0 col out = some out := by
  intro fuel
  induction fuel with
  | zero => intro i col out _ _ h; omega
  | succ fuel ih =>
    intro i col out hcol hi hfuel
    have hlen : m + 1 < buffer.length := by
      by_contra hcon
      have : load buffer (m + 1) = none := by
        unfold load
        rw [List.get?_eq_none]
        omega
      rw [this] at h2
      exact Option.noConfusion h2
    obtain ⟨c, hb⟩ : ∃ c, load buffer i = some c := by
      unfold load
      exact ⟨buffer.get ⟨i, by omega⟩, List.get?_eq_get (by omega)⟩
    by_cases he : isEnd c
    · exact extractLoop_end flag cols buffer fuel i 0 col out c hb he
    · have him : i < m := by
        rcases Nat.lt_or_ge i m with h | h
        · exact h
        · exfalso
          rcases Nat.eq_or_lt_of_le h with h' | h'
          · subst h'
            rw [h1] at hb
            simp only [Option.some.injEq] at hb
            subst hb
            exact he he1
          · have : i = m + 1 := by omega
            subst this
            rw [h2] at hb
            simp only [Option.some.injEq] at hb
            subst hb
            exact he he2
      have hpr : ∀ i' col', 1 ≤ col' → printIfSelected cols buffer i' 0 col' out = some out := by
        intro i' col' h
        have : ¬ ((col' : Int) = 0) := by omega
        simp [printIfSelected, hz, this]
      have hcr : crossDelim cols i 0 col out = some (i + 1, 0, col + 1, out) := by
        have : ¬ ((col : Int) = 0) := by omega
        simp [crossDelim, hz, this]
      have hfield : ∀ d, FieldMode flag d →
          extractLoop flag cols buffer (fuel + 1) i 0 col out = some out := by
        intro d hm
        by_cases hd : c = d
        · subst hd
          rw [extractLoop_field_delim flag c hm cols buffer fuel i 0 col out hb, hcr]
          simp only [Option.some_bind, hpr _ _ (Nat.le_succ_of_le hcol)]
          exact ih _ _ _ (Nat.le_succ_of_le hcol) (by omega) (by omega)
        · rw [extractLoop_field_plain flag d hm cols buffer fuel i 0 col out c hb he hd,
            hpr _ _ hcol]
          exact ih _ _ _ hcol (by omega) (by omega)
      by_cases h0 : flag = 0
      · subst h0
        rw [extractLoop_fixed cols buffer fuel i 0 col out c hb he, hz]
        have : ¬ (((i + 1 : Nat) : Int) = 0) := by omega
        simp only [Option.some_bind, if_neg this]
        exact ih _ _ _ hcol (by omega) (by omega)
      · by_cases h1' : flag = 1
        · exact hfield ' ' (Or.inl ⟨h1', rfl⟩)
        · by_cases h2' : flag = 2
          · exact hfield ',' (Or.inr ⟨h2', rfl⟩)
          · rw [extractLoop_other flag h0 h1' h2' cols buffer fuel i 0 col out c hb he]
            exact ih _ _ _ hcol (by omega) (by omega)
/-- C20: a column value 0 collides with the end-of-set sentinel.  For every
mode, every buffer and every column array that holds a 0, the output for the
buffer is the output for the array that holds only the columns before the first
0, followed by zeros.  When the first cell holds 0 nothing but the line
terminator is written: whenever the loop ends inside the buffer the output is
the empty line, and it does end inside the buffer for every line that `fgets`
stored with its terminator. -/
theorem zero_column_is_sentinel (flag : Int) (cols : List Int) (buffer : List Char)
    (h0 : (0 : Int) ∈ cols) :
    extractLine flag cols buffer =
      extractLine flag
        (columnSet cols ++ List.replicate (cols.length - (columnSet cols).length) 0) buffer ∧
    (cols.head? = some 0 →
      (extractLine flag cols buffer = some ['\n'] ∨ extractLine flag cols buffer = none) ∧
      ∀ line junk, buffer = line ++ '\n' :: NUL :: junk →
        extractLine flag cols buffer = some ['\n']) := by
  constructor
  · have key : ∀ pre post : List Int, extractLine flag (pre ++ 0 :: post) buffer =
        extractLine flag
          (pre ++ List.replicate ((pre ++ 0 :: post).length - pre.length) 0) buffer := by
      intro pre post
      have hl : (pre ++ 0 :: post).length - pre.length = post.length + 1 := by
        simp only [List.length_append, List.length_cons]; omega
      rw [hl, List.replicate_succ]
      unfold extractLine
      rw [extractLoop_agree flag (pre ++ 0 :: List.replicate post.length 0) (pre ++ 0 :: post)
        buffer pre.length (fun k hk => load_append_zero pre _ _ k hk)
        (load_append_zero_self pre _) _ 0 0 1 [] (Nat.zero_le _) (Nat.le_refl _)]
    obtain ⟨post, hp⟩ := columnSet_split cols h0
    have := key (columnSet cols) post
    rw [← hp] at this
    exact this
  · intro hh
    have hz : load cols 0 = some 0 := by
      cases cols with
      | nil => simp at hh
      | cons x cols =>
        simp only [List.head?_cons, Option.some.injEq] at hh
        subst hh
        rfl
    constructor
    · unfold extractLine
      rcases extractLoop_zero_head flag cols buffer hz (buffer.length + 1) 0 1 [] (Nat.le_refl _)
        with h | h
      · exact Or.inl (by rw [h]; rfl)
      · exact Or.inr (by rw [h]; rfl)
    · intro line junk hb
      have h1 : load buffer line.length = some '\n' :=
        (load_of_drop buffer line.length '\n' (NUL :: junk) (by rw [hb]; simp)).1
      have h2 : load buffer (line.length + 1) = some NUL :=
        (load_of_drop buffer (line.length + 1) NUL junk (by rw [hb]; simp)).1
      unfold extractLine
      rw [extractLoop_zero_head_ends flag cols buffer hz line.length '\n' NUL h1 h2 (Or.inl rfl)
        (Or.inr rfl) (buffer.length + 1) 0 1 [] (Nat.le_refl _) (Nat.zero_le _)
        (by rw [hb]; simp)]
      rfl

set_option maxRecDepth 100000 in
theorem zero_column_is_sentinel_witness :
    validateSelection "0".toList = 0 ∧ validateSelection "0-3".toList = 0 ∧
    validateSelection "1,0,3".toList = 0 ∧
    getCols zeroCols "0".toList = some zeroCols ∧
    getCols zeroCols "0-3".toList = some ([0, 1, 2, 3] ++ List.replicate 124 0) ∧
    getCols zeroCols "1,0,3".toList = some ([1, 0, 3] ++ List.replicate 125 0) ∧
    extractLine 1 ([1, 0, 3] ++ List.replicate 125 0) ("a b c".toList ++ '\n' :: [NUL]) =
      some "a\n".toList ∧
    extractLine 2 ([0, 1, 2, 3] ++ List.replicate 124 0) ("a,b,c".toList ++ '\n' :: [NUL]) =
      some "\n".toList :=
  ⟨by decide, by decide, by decide, by decide, by decide, by decide,
   (zero_column_is_sentinel 1 ([1, 0, 3] ++ List.replicate 125 0)
      ("a b c".toList ++ '\n' :: [NUL]) (by decide)).1.trans (by decide),
   ((zero_column_is_sentinel 2 ([0, 1, 2, 3] ++ List.replicate 124 0)
      ("a,b,c".toList ++ '\n' :: [NUL]) (by decide)).2 (by decide)).2 "a,b,c".toList [] rfl⟩

/-! ## The annotated loop -/

theorem extractTrace_load_none (flag : Int) (cols : List Int) (buffer : List Char)
    (fuel i j col : Nat) (out : List Event) (hc : load buffer i = none) :
    extractTrace flag cols buffer fuel i j col out = none := by
  cases fuel with
  | zero => rfl
  | succ fuel => simp [extractTrace, hc]

theorem extractTrace_end (flag : Int) (cols : List Int) (buffer : List Char) (fuel i j col : Nat)
    (out : List Event) (c : Char) (hc : load buffer i = some c) (he : isEnd c) :
    extractTrace flag cols buffer (fuel + 1) i j col out = some out := by
  have he' : c = '\n' ∨ c = NUL := he
  simp [extractTrace, hc, he']

theorem extractTrace_fixed (cols : List Int) (buffer : List Char) (fuel i j col : Nat)
    (out : List Event) (c : Char) (hc : load buffer i = some c) (he : ¬ isEnd c) :
    extractTrace 0 cols buffer (fuel + 1) i j col out =
      (load cols j).bind (fun cj =>
        if ((i + 1 : Nat) : Int) = cj then
          (load cols (j + 1)).bind (fun cj1 =>
            extractTrace 0 cols buffer fuel (i + 1) (j + 1) col
              (if cj1 ≠ 0 then
                out ++ [Event.emit { col := cj, pos := i, char := c }] ++ [Event.separator]
               else out ++ [Event.emit { col := cj, pos := i, char := c }]))
        else extractTrace 0 cols buffer fuel (i + 1) j col out) := by
  have he' : ¬ (c = '\n' ∨ c = NUL) := he
  simp only [extractTrace, hc, he', Option.bind_eq_bind, Option.some_bind, if_false, if_true]

theorem extractTrace_field_plain (flag : Int) (d : Char) (hm : FieldMode flag d) (cols : List Int)
    (buffer : List Char) (fuel i j col : Nat) (out : List Event) (c : Char)
    (hc : load buffer i = some c) (he : ¬ isEnd c) (hd : c ≠ d) :
    extractTrace flag cols buffer (fuel + 1) i j col out =
      (printIfSelectedT cols buffer i j col out).bind (fun out2 =>
        extractTrace flag cols buffer fuel (i + 1) j col out2) := by
  have he' : ¬ (c = '\n' ∨ c = NUL) := he
  rcases hm with ⟨rfl, rfl⟩ | ⟨rfl, rfl⟩
  · simp only [extractTrace, hc, he', hd, Option.bind_eq_bind, Option.some_bind, if_false]
    rfl
  · simp only [extractTrace, hc, he', hd, Option.bind_eq_bind, Option.some_bind, if_false]
    rfl

theorem extractTrace_field_delim (flag : Int) (d : Char) (hm : FieldMode flag d) (cols : List Int)
    (buffer : List Char) (fuel i j col : Nat) (out : List Event)
    (hc : load buffer i = some d) :
    extractTrace flag cols buffer (fuel + 1) i j col out =
      (crossDelimT cols i j col out).bind (fun r =>
        (printIfSelectedT cols buffer r.1 r.2.1 r.2.2.1 r.2.2.2).bind (fun out2 =>
          extractTrace flag cols buffer fuel (r.1 + 1) r.2.1 r.2.2.1 out2)) := by
  rcases hm with ⟨rfl, rfl⟩ | ⟨rfl, rfl⟩
  · have he' : ¬ ((' ' : Char) = '\n' ∨ ' ' = NUL) := by decide
    simp only [extractTrace, hc, he', Option.bind_eq_bind, Option.some_bind, if_false]
    rfl
  · have he' : ¬ ((',' : Char) = '\n' ∨ ',' = NUL) := by decide
    simp only [extractTrace, hc, he', Option.bind_eq_bind, Option.some_bind, if_false]
    rfl

theorem extractTrace_other (flag : Int) (h0 : flag ≠ 0) (h1 : flag ≠ 1) (h2 : flag ≠ 2)
    (cols : List Int) (buffer : List Char) (fuel i j col : Nat) (out : List Event) (c : Char)
    (hc : load buffer i = some c) (he : ¬ isEnd c) :
    extractTrace flag cols buffer (fuel + 1) i j col out =
      extractTrace flag cols buffer fuel (i + 1) j col out := by
  have he' : ¬ (c = '\n' ∨ c = NUL) := he
  simp only [extractTrace, hc, he', h0, h1, h2, Option.bind_eq_bind, Option.some_bind, if_false]

/-! ### Erasing the annotations gives `extractLoop` -/

theorem crossDelimT_erase (cols : List Int) (i j col : Nat) (out : List Event) :
    (crossDelimT cols i j col out).map
        (fun r => (r.1, r.2.1, r.2.2.1, r.2.2.2.map Event.char)) =
      crossDelim cols i j col (out.map Event.char) := by
  unfold crossDelimT crossDelim
  cases load cols j with
  | none => rfl
  | some cj =>
    simp only [Option.bind_eq_bind, Option.some_bind]
    by_cases heq : (col : Int) = cj
    · rw [if_pos heq, if_pos heq]
      cases load cols (j + 1) with
      | none => rfl
      | some cj1 =>
        simp only [Option.some_bind]
        by_cases hne : cj1 ≠ 0
        · rw [if_pos hne, if_pos hne]; simp [Event.char]
        · rw [if_neg hne, if_neg hne]; rfl
    · rw [if_neg heq, if_neg heq]; rfl

theorem printIfSelectedT_erase (cols : List Int) (buffer : List Char) (i j col : Nat)
    (out : List Event) :
    (printIfSelectedT cols buffer i j col out).map (List.map Event.char) =
      printIfSelected cols buffer i j col (out.map Event.char) := by
  unfold printIfSelectedT printIfSelected
  cases load cols j with
  | none => rfl
  | some cj =>
    simp only [Option.bind_eq_bind, Option.some_bind]
    by_cases heq : (col : Int) = cj
    · rw [if_pos heq, if_pos heq]
      cases load buffer i with
      | none => rfl
      | some c => simp [Event.char]
    · rw [if_neg heq, if_neg heq]; rfl

theorem extractTrace_erase (flag : Int) (cols : List Int) (buffer : List Char) :
    ∀ (fuel i j col : Nat) (out : List Event),
      (extractTrace flag cols buffer fuel i j col out).map (List.map Event.char) =
        extractLoop flag cols buffer fuel i j col (out.map Event.char) := by
  intro fuel
  induction fuel with
  | zero => intros; rfl
  | succ fuel ih =>
    intro i j col out
    cases hb : load buffer i with
    | none =>
      rw [extractTrace_load_none _ _ _ _ _ _ _ _ hb, extractLoop_load_none _ _ _ _ _ _ _ _ hb]
      rfl
    | some c =>
      by_cases he : isEnd c
      · rw [extractTrace_end flag cols buffer fuel i j col out c hb he,
          extractLoop_end flag cols buffer fuel i j col _ c hb he]
        rfl
      · have hfield : ∀ d, FieldMode flag d →
            (extractTrace flag cols buffer (fuel + 1) i j col out).map (List.map Event.char) =
              extractLoop flag cols buffer (fuel + 1) i j col (out.map Event.char) := by
          intro d hm
          by_cases hd : c = d
          · subst hd
            rw [extractTrace_field_delim flag c hm cols buffer fuel i j col out hb,
              extractLoop_field_delim flag c hm cols buffer fuel i j col _ hb,
              ← crossDelimT_erase]
            cases crossDelimT cols i j col out with
            | none => rfl
            | some r =>
              simp only [Option.some_bind, Option.map_some']
              rw [← printIfSelectedT_erase]
              cases printIfSelectedT cols buffer r.1 r.2.1 r.2.2.1 r.2.2.2 with
              | none => rfl
              | some out2 => exact ih _ _ _ _
          · rw [extractTrace_field_plain flag d hm cols buffer fuel i j col out c hb he hd,
              extractLoop_field_plain flag d hm cols buffer fuel i j col _ c hb he hd,
              ← printIfSelectedT_erase]
            cases printIfSelectedT cols buffer i j col out with
            | none => rfl
            | some out2 => exact ih _ _ _ _
        by_cases h0 : flag = 0
        · subst h0
          rw [extractTrace_fixed cols buffer fuel i j col out c hb he,
            extractLoop_fixed cols buffer fuel i j col _ c hb he]
          cases load cols j with
          | none => rfl
          | some cj =>
            simp only [Option.some_bind]
            by_cases heq : ((i + 1 : Nat) : Int) = cj
            · rw [if_pos heq, if_pos heq]
              cases load cols (j + 1) with
              | none => rfl
              | some cj1 =>
                simp only [Option.some_bind]
                rw [ih]
                by_cases hne : cj1 ≠ 0
                · rw [if_pos hne, if_pos hne]; simp [Event.char]
                · rw [if_neg hne, if_neg hne]; simp [Event.char]
            · rw [if_neg heq, if_neg heq]
              exact ih _ _ _ _
        · by_cases h1 : flag = 1
          · exact hfield ' ' (Or.inl ⟨h1, rfl⟩)
          · by_cases h2 : flag = 2
            · exact hfield ',' (Or.inr ⟨h2, rfl⟩)
            · rw [extractTrace_other flag h0 h1 h2 cols buffer fuel i j col out c hb he,
                extractLoop_other flag h0 h1 h2 cols buffer fuel i j col _ c hb he]
              exact ih _ _ _ _

theorem traceLine_erase (flag : Int) (cols : List Int) (buffer : List Char) :
    extractLine flag cols buffer =
      (traceLine flag cols buffer).map (fun tr => tr.map Event.char ++ ['\n']) := by
  unfold extractLine traceLine
  have := extractTrace_erase flag cols buffer (buffer.length + 1) 0 0 1 []
  simp only [List.map_nil] at this
  rw [← this]
  cases extractTrace flag cols buffer (buffer.length + 1) 0 0 1 [] <;> rfl
/-! ### The selected characters are written in order -/

theorem columns_append (a b : List Event) :
    Event.columns (a ++ b) = Event.columns a ++ Event.columns b := by
  induction a with
  | nil => rfl
  | cons e a ih =>
    cases e with
    | emit e => simp [Event.columns, ih]
    | separator => simpa [Event.columns] using ih

theorem mem_of_load {α : Type} (a : List α) (i : Nat) (v : α) (h : load a i = some v) : v ∈ a := by
  unfold load at h
  exact List.get?_mem h

theorem inOrder_nil (flag : Int) (cols : List Int) (buffer : List Char) (i col : Nat) :
    InOrder flag cols buffer i col [] :=
  ⟨List.Pairwise.nil, fun _ h => by simp [Event.columns] at h⟩

theorem inOrder_mono (flag : Int) (cols : List Int) (buffer : List Char) (i col i' col' : Nat)
    (suf : List Event) (h : InOrder flag cols buffer i' col' suf) (hi : i ≤ i') (hc : col ≤ col') :
    InOrder flag cols buffer i col suf := by
  refine ⟨h.1, fun e he => ?_⟩
  obtain ⟨h1, h2, h3, h4, h5⟩ := h.2 e he
  exact ⟨Nat.le_trans hi h1, h2, h3, h4, fun hf => by have := h5 hf; omega⟩

theorem inOrder_separator (flag : Int) (cols : List Int) (buffer : List Char) (i col : Nat)
    (suf : List Event) (h : InOrder flag cols buffer i col suf) :
    InOrder flag cols buffer i col (Event.separator :: suf) := h

theorem inOrder_emit (flag : Int) (cols : List Int) (buffer : List Char) (i col i' col' : Nat)
    (suf : List Event) (e : Emitted) (h : InOrder flag cols buffer i' col' suf)
    (h1 : i ≤ e.pos) (h2 : e.pos < i') (h3 : load buffer e.pos = some e.char) (h4 : e.col ∈ cols)
    (h5 : flag = 0 → e.col = ((e.pos + 1 : Nat) : Int))
    (h6 : flag ≠ 0 → (col : Int) ≤ e.col ∧ e.col ≤ (col' : Int)) :
    InOrder flag cols buffer i col (Event.emit e :: suf) := by
  constructor
  · show (e :: Event.columns suf).Pairwise (Emitted.before flag)
    refine List.Pairwise.cons (fun x hx => ?_) h.1
    obtain ⟨g1, _, _, g4, g5⟩ := h.2 x hx
    by_cases hf : flag = 0
    · have a1 := h5 hf
      have a2 := g4 hf
      exact ⟨by omega, by omega, fun _ => by omega⟩
    · have a1 := (h6 hf).2
      have a2 := g5 hf
      exact ⟨by omega, by omega, fun h0 => absurd h0 hf⟩
  · intro x hx
    rcases List.mem_cons.mp (show x ∈ e :: Event.columns suf from hx) with rfl | hx
    · exact ⟨h1, h3, h4, h5, fun hf => (h6 hf).1⟩
    · obtain ⟨g1, g2, g3, g4, g5⟩ := h.2 x hx
      exact ⟨by omega, g2, g3, g4, fun hf => by have := g5 hf; have := (h6 hf); omega⟩

theorem crossDelimT_spec (cols : List Int) (i j col : Nat) (out : List Event)
    (r : Nat × Nat × Nat × List Event) (h : crossDelimT cols i j col out = some r) :
    r.1 = i + 1 ∧ r.2.2.1 = col + 1 ∧ (r.2.2.2 = out ∨ r.2.2.2 = out ++ [Event.separator]) := by
  unfold crossDelimT at h
  cases hcj : load cols j with
  | none => simp [hcj] at h
  | some cj =>
    simp only [hcj, Option.bind_eq_bind, Option.some_bind] at h
    by_cases heq : (col : Int) = cj
    · rw [if_pos heq] at h
      cases hcj1 : load cols (j + 1) with
      | none => simp [hcj1] at h
      | some cj1 =>
        simp only [hcj1, Option.some_bind] at h
        by_cases hne : cj1 ≠ 0
        · rw [if_pos hne] at h
          simp only [Option.pure_def, Option.some.injEq] at h
          subst h
          exact ⟨rfl, rfl, Or.inr rfl⟩
        · rw [if_neg hne] at h
          simp only [Option.pure_def, Option.some.injEq] at h
          subst h
          exact ⟨rfl, rfl, Or.inl rfl⟩
    · rw [if_neg heq] at h
      simp only [Option.pure_def, Option.some.injEq] at h
      subst h
      exact ⟨rfl, rfl, Or.inl rfl⟩

theorem printIfSelectedT_spec (cols : List Int) (buffer : List Char) (i j col : Nat)
    (out out2 : List Event) (h : printIfSelectedT cols buffer i j col out = some out2) :
    out2 = out ∨ ∃ c, load buffer i = some c ∧ ((col : Nat) : Int) ∈ cols ∧
      out2 = out ++ [Event.emit { col := (col : Int), pos := i, char := c }] := by
  unfold printIfSelectedT at h
  cases hcj : load cols j with
  | none => simp [hcj] at h
  | some cj =>
    simp only [hcj, Option.bind_eq_bind, Option.some_bind] at h
    by_cases heq : (col : Int) = cj
    · rw [if_pos heq] at h
      cases hc : load buffer i with
      | none => simp [hc] at h
      | some c =>
        simp only [hc, Option.some_bind, Option.pure_def, Option.some.injEq] at h
        subst h
        refine Or.inr ⟨c, rfl, ?_, ?_⟩
        · rw [heq]; exact mem_of_load cols j cj hcj
        · rw [heq]
    · rw [if_neg heq] at h
      simp only [Option.pure_def, Option.some.injEq] at h
      exact Or.inl h.symm

/-- From any state of the loop on, the selected characters are written in the
order of their positions in the buffer, with columns that do not decrease. -/
theorem extractTrace_inOrder (flag : Int) (cols : List Int) (buffer : List Char) :
    ∀ (fuel i j col : Nat) (out tr : List Event),
      extractTrace flag cols buffer fuel i j col out = some tr →
      ∃ suf, tr = out ++ suf ∧ InOrder flag cols buffer i col suf := by
  intro fuel
  induction fuel with
  | zero => intro i j col out tr h; exact Option.noConfusion h
  | succ fuel ih =>
    intro i j col out tr h
    cases hb : load buffer i with
    | none => rw [extractTrace_load_none _ _ _ _ _ _ _ _ hb] at h; exact Option.noConfusion h
    | some c =>
      by_cases he : isEnd c
      · rw [extractTrace_end flag cols buffer fuel i j col out c hb he] at h
        simp only [Option.some.injEq] at h
        exact ⟨[], by simp [h], inOrder_nil _ _ _ _ _⟩
      · have hplain : ∀ out2, printIfSelectedT cols buffer i j col out = some out2 →
            extractTrace flag cols buffer fuel (i + 1) j col out2 = some tr → flag ≠ 0 →
            ∃ suf, tr = out ++ suf ∧ InOrder flag cols buffer i col suf := by
          intro out2 hp hrec hf
          obtain ⟨suf, hs, hin⟩ := ih _ _ _ _ _ hrec
          rcases printIfSelectedT_spec cols buffer i j col out out2 hp with rfl | ⟨c', hc', hmem, rfl⟩
          · exact ⟨suf, hs, inOrder_mono _ _ _ _ _ _ _ _ hin (Nat.le_succ _) (Nat.le_refl _)⟩
          · refine ⟨Event.emit { col := (col : Int), pos := i, char := c' } :: suf,
              by simp [hs], ?_⟩
            exact inOrder_emit flag cols buffer i col (i + 1) col suf _ hin (Nat.le_refl _)
              (Nat.lt_succ_self _) hc' hmem (fun h0 => absurd h0 hf)
              (fun _ => ⟨Int.le_refl _, Int.le_refl _⟩)
        have hfield : ∀ d, FieldMode flag d →
            ∃ suf, tr = out ++ suf ∧ InOrder flag cols buffer i col suf := by
          intro d hm
          have hf : flag ≠ 0 := by
            rcases hm with ⟨h1, _⟩ | ⟨h1, _⟩ <;> rw [h1] <;> decide
          by_cases hd : c = d
          · subst hd
            rw [extractTrace_field_delim flag c hm cols buffer fuel i j col out hb] at h
            cases hcd : crossDelimT cols i j col out with
            | none => rw [hcd] at h; exact Option.noConfusion h
            | some r =>
              rw [hcd] at h
              simp only [Option.some_bind] at h
              obtain ⟨r1, r2, r3, r4⟩ := r
              obtain ⟨e1, e3, e4⟩ := crossDelimT_spec cols i j col out _ hcd
              simp only at e1 e3 e4 h
              subst e1 e3
              cases hp : printIfSelectedT cols buffer (i + 1) r2 (col + 1) r4 with
              | none => rw [hp] at h; exact Option.noConfusion h
              | some out2 =>
                rw [hp] at h
                simp only [Option.some_bind] at h
                obtain ⟨suf, hs, hin⟩ := ih _ _ _ _ _ h
                have hin2 : ∃ suf2, out2 ++ suf = r4 ++ suf2 ∧
                    InOrder flag cols buffer i col suf2 := by
                  rcases printIfSelectedT_spec cols buffer (i + 1) r2 (col + 1) r4 out2 hp with
                    rfl | ⟨c', hc', hmem, rfl⟩
                  · exact ⟨suf, rfl, inOrder_mono _ _ _ _ _ _ _ _ hin (by omega) (by omega)⟩
                  · refine ⟨Event.emit ⟨((col + 1 : Nat) : Int), i + 1, c'⟩ :: suf, by simp, ?_⟩
                    exact inOrder_emit flag cols buffer i col (i + 1 + 1) (col + 1) suf _ hin
                      (Nat.le_succ _) (Nat.lt_succ_self _) hc' hmem (fun h0 => absurd h0 hf)
                      (fun _ => ⟨by push_cast; omega, Int.le_refl _⟩)
                obtain ⟨suf2, hs2, hin2⟩ := hin2
                rcases e4 with rfl | rfl
                · exact ⟨suf2, by rw [hs, hs2], hin2⟩
                · exact ⟨Event.separator :: suf2, by rw [hs, hs2]; simp,
                    inOrder_separator _ _ _ _ _ _ hin2⟩
          · rw [extractTrace_field_plain flag d hm cols buffer fuel i j col out c hb he hd] at h
            cases hp : printIfSelectedT cols buffer i j col out with
            | none => rw [hp] at h; exact Option.noConfusion h
            | some out2 =>
              rw [hp] at h
              exact hplain out2 hp h hf
        by_cases h0 : flag = 0
        · subst h0
          rw [extractTrace_fixed cols buffer fuel i j col out c hb he] at h
          cases hcj : load cols j with
          | none => rw [hcj] at h; exact Option.noConfusion h
          | some cj =>
            rw [hcj] at h
            simp only [Option.some_bind] at h
            by_cases heq : ((i + 1 : Nat) : Int) = cj
            · rw [if_pos heq] at h
              cases hcj1 : load cols (j + 1) with
              | none => rw [hcj1] at h; exact Option.noConfusion h
              | some cj1 =>
                rw [hcj1] at h
                simp only [Option.some_bind] at h
                obtain ⟨suf, hs, hin⟩ := ih _ _ _ _ _ h
                have hem : InOrder 0 cols buffer i col
                    (Event.emit { col := cj, pos := i, char := c } :: suf) :=
                  inOrder_emit 0 cols buffer i col (i + 1) col suf _ hin (Nat.le_refl _)
                    (Nat.lt_succ_self _) hb (mem_of_load cols j cj hcj) (fun _ => heq.symm)
                    (fun hf => absurd rfl hf)
                by_cases hne : cj1 ≠ 0
                · rw [if_pos hne] at hs
                  refine ⟨Event.emit { col := cj, pos := i, char := c } :: Event.separator :: suf,
                    by rw [hs]; simp, ?_⟩
                  exact ⟨hem.1, hem.2⟩
                · rw [if_neg hne] at hs
                  exact ⟨_, by rw [hs]; simp, hem⟩
            · rw [if_neg heq] at h
              obtain ⟨suf, hs, hin⟩ := ih _ _ _ _ _ h
              exact ⟨suf, hs, inOrder_mono _ _ _ _ _ _ _ _ hin (Nat.le_succ _) (Nat.le_refl _)⟩
        · by_cases h1 : flag = 1
          · exact hfield ' ' (Or.inl ⟨h1, rfl⟩)
          · by_cases h2 : flag = 2
            · exact hfield ',' (Or.inr ⟨h2, rfl⟩)
            · rw [extractTrace_other flag h0 h1 h2 cols buffer fuel i j col out c hb he] at h
              obtain ⟨suf, hs, hin⟩ := ih _ _ _ _ _ h
              exact ⟨suf, hs, inOrder_mono _ _ _ _ _ _ _ _ hin (Nat.le_succ _) (Nat.le_refl _)⟩
/-- C11: the extractor never reorders columns.  For every mode, every column
array (the columns of a selection in any order) and every buffer, what the loop
writes is the characters of its events followed by the line terminator, and the
selected characters among them are characters of the buffer, each selected by an
entry of the column array, written in the order of their positions in the
buffer with columns that never decrease (and strictly increase in FixedWidth
mode, where every column is one character). -/
theorem columns_never_reordered (flag : Int) (cols : List Int) (buffer : List Char) :
    extractLine flag cols buffer =
      (traceLine flag cols buffer).map (fun tr => tr.map Event.char ++ ['\n']) ∧
    ∀ tr, traceLine flag cols buffer = some tr →
      (Event.columns tr).Pairwise (Emitted.before flag) ∧
      ∀ e ∈ Event.columns tr, e.col ∈ cols ∧ load buffer e.pos = some e.char := by
  refine ⟨traceLine_erase flag cols buffer, fun tr h => ?_⟩
  obtain ⟨suf, hs, hin⟩ := extractTrace_inOrder flag cols buffer _ _ _ _ _ _ h
  simp only [List.nil_append] at hs
  subst hs
  exact ⟨hin.1, fun e he => ⟨(hin.2 e he).2.2.1, (hin.2 e he).2.1⟩⟩

set_option maxRecDepth 100000 in
theorem columns_never_reordered_witness :
    getCols zeroCols "3,1".toList = some (colsOf [3, 1]) ∧
    traceLine 0 (colsOf [3, 1]) ("abc".toList ++ '\n' :: [NUL]) =
      some [Event.emit ⟨3, 2, 'c'⟩, Event.separator] ∧
    extractLine 0 (colsOf [3, 1]) ("abc".toList ++ '\n' :: [NUL]) = some "c \n".toList ∧
    traceLine 1 (colsOf [2, 1]) ("ab cd".toList ++ '\n' :: [NUL]) =
      some [Event.emit ⟨2, 3, 'c'⟩, Event.emit ⟨2, 4, 'd'⟩] ∧
    [(⟨2, 3, 'c'⟩ : Emitted), ⟨2, 4, 'd'⟩].Pairwise (Emitted.before 1) :=
  ⟨by decide, by decide,
   (columns_never_reordered 0 (colsOf [3, 1]) ("abc".toList ++ '\n' :: [NUL])).1.trans
     (by decide),
   by decide,
   ((columns_never_reordered 1 (colsOf [2, 1]) ("ab cd".toList ++ '\n' :: [NUL])).2
     [Event.emit ⟨2, 3, 'c'⟩, Event.emit ⟨2, 4, 'd'⟩] (by decide)).1⟩

/-! ## What follows the cells that are read does not matter -/

theorem load_append_some {α : Type} (a b : List α) (i : Nat) (v : α) (h : load a i = some v) :
    load (a ++ b) i = some v := by
  unfold load at h ⊢
  rw [List.get?_eq_getElem?] at h ⊢
  have hi : i < a.length := by
    by_contra hcon
    rw [List.getElem?_eq_none (by omega)] at h
    exact Option.noConfusion h
  rw [List.getElem?_append_left hi]
  exact h

theorem printIfSelected_extend (cols : List Int) (buffer junk : List Char) (i j col : Nat)
    (out o : List Char) (h : printIfSelected cols buffer i j col out = some o) :
    printIfSelected cols (buffer ++ junk) i j col out = some o := by
  unfold printIfSelected at h ⊢
  cases hcj : load cols j with
  | none => simp [hcj] at h
  | some cj =>
    simp only [hcj, Option.bind_eq_bind, Option.some_bind] at h ⊢
    by_cases heq : (col : Int) = cj
    · rw [if_pos heq] at h ⊢
      cases hc : load buffer i with
      | none => simp [hc] at h
      | some c =>
        rw [load_append_some buffer junk i c hc]
        simpa [hc] using h
    · rw [if_neg heq] at h ⊢
      exact h

/-- A run of the loop that ends inside the buffer is the same run on a longer
buffer and with more fuel. -/
theorem extractLoop_extend (flag : Int) (cols : List Int) (buffer junk : List Char) :
    ∀ (fuel i j col : Nat) (out r : List Char),
      extractLoop flag cols buffer fuel i j col out = some r →
      ∀ k, extractLoop flag cols (buffer ++ junk) (fuel + k) i j col out = some r := by
  intro fuel
  induction fuel with
  | zero => intro i j col out r h; exact Option.noConfusion h
  | succ fuel ih =>
    intro i j col out r h k
    have hk : fuel + 1 + k = (fuel + k) + 1 := by omega
    rw [hk]
    cases hb : load buffer i with
    | none => rw [extractLoop_load_none _ _ _ _ _ _ _ _ hb] at h; exact Option.noConfusion h
    | some c =>
      have hb' := load_append_some buffer junk i c hb
      by_cases he : isEnd c
      · rw [extractLoop_end flag cols buffer fuel i j col out c hb he] at h
        rw [extractLoop_end flag cols (buffer ++ junk) (fuel + k) i j col out c hb' he]
        exact h
      · have hfield : ∀ d, FieldMode flag d →
            extractLoop flag cols (buffer ++ junk) (fuel + k + 1) i j col out = some r := by
          intro d hm
          by_cases hd : c = d
          · subst hd
            rw [extractLoop_field_delim flag c hm cols buffer fuel i j col out hb] at h
            rw [extractLoop_field_delim flag c hm cols (buffer ++ junk) (fuel + k) i j col out hb']
            cases hcd : crossDelim cols i j col out with
            | none => rw [hcd] at h; exact Option.noConfusion h
            | some x =>
              rw [hcd] at h
              simp only [Option.some_bind] at h ⊢
              cases hp : printIfSelected cols buffer x.1 x.2.1 x.2.2.1 x.2.2.2 with
              | none => rw [hp] at h; exact Option.noConfusion h
              | some o =>
                rw [hp] at h
                rw [printIfSelected_extend cols buffer junk _ _ _ _ o hp]
                exact ih _ _ _ _ _ h k
          · rw [extractLoop_field_plain flag d hm cols buffer fuel i j col out c hb he hd] at h
            rw [extractLoop_field_plain flag d hm cols (buffer ++ junk) (fuel + k) i j col out c
              hb' he hd]
            cases hp : printIfSelected cols buffer i j col out with
            | none => rw [hp] at h; exact Option.noConfusion h
            | some o =>
              rw [hp] at h
              rw [printIfSelected_extend cols buffer junk _ _ _ _ o hp]
              exact ih _ _ _ _ _ h k
        by_cases h0 : flag = 0
        · subst h0
          rw [extractLoop_fixed cols buffer fuel i j col out c hb he] at h
          rw [extractLoop_fixed cols (buffer ++ junk) (fuel + k) i j col out c hb' he]
          cases hcj : load cols j with
          | none => rw [hcj] at h; exact Option.noConfusion h
          | some cj =>
            rw [hcj] at h
            simp only [Option.some_bind] at h ⊢
            by_cases heq : ((i + 1 : Nat) : Int) = cj
            · rw [if_pos heq] at h ⊢
              cases hcj1 : load cols (j + 1) with
              | none => rw [hcj1] at h; exact Option.noConfusion h
              | some cj1 =>
                rw [hcj1] at h
                exact ih _ _ _ _ _ h k
            · rw [if_neg heq] at h ⊢
              exact ih _ _ _ _ _ h k
        · by_cases h1 : flag = 1
          · exact hfield ' ' (Or.inl ⟨h1, rfl⟩)
          · by_cases h2 : flag = 2
            · exact hfield ',' (Or.inr ⟨h2, rfl⟩)
            · rw [extractLoop_other flag h0 h1 h2 cols buffer fuel i j col out c hb he] at h
              rw [extractLoop_other flag h0 h1 h2 cols (buffer ++ junk) (fuel + k) i j col out c
                hb' he]
              exact ih _ _ _ _ _ h k

/-- The output for a buffer on which the loop ends does not depend on the
cells that follow. -/
theorem extractLine_extend (flag : Int) (cols : List Int) (buffer junk : List Char)
    (r : List Char) (h : extractLine flag cols buffer = some r) :
    extractLine flag cols (buffer ++ junk) = some r := by
  unfold extractLine at h ⊢
  cases hl : extractLoop flag cols buffer (buffer.length + 1) 0 0 1 [] with
  | none => simp [hl] at h
  | some o =>
    have := extractLoop_extend flag cols buffer junk _ _ _ _ _ _ hl junk.length
    have hlen : (buffer ++ junk).length + 1 = buffer.length + 1 + junk.length := by
      simp only [List.length_append]; omega
    rw [hlen, this]
    simpa [hl] using h

/-! ## The outer loop of `main`, one line at a time -/

theorem mainLoop_step (flag : Int) (cols : List Int) (fuel : Nat)
    (buffer stdin out buffer1 rest line : List Char)
    (hf : fgets buffer 128 stdin = some (buffer1, rest))
    (hl : extractLine flag cols buffer1 = some line) :
    mainLoop flag cols (fuel + 1) buffer stdin out =
      mainLoop flag cols fuel buffer1 rest (out ++ line) := by
  simp only [mainLoop, hf, hl, Option.some_bind]

theorem mainLoop_done (flag : Int) (cols : List Int) (fuel : Nat) (buffer out : List Char) :
    mainLoop flag cols (fuel + 1) buffer [] out = some out := by
  simp [mainLoop, fgets]
theorem mainLoop_next (flag : Int) (cols : List Int) (fuel : Nat)
    (buffer stdin out buffer1 rest line : List Char) (h0 : 0 < fuel)
    (hf : fgets buffer 128 stdin = some (buffer1, rest))
    (hl : extractLine flag cols buffer1 = some line) :
    mainLoop flag cols fuel buffer stdin out =
      mainLoop flag cols (fuel - 1) buffer1 rest (out ++ line) := by
  obtain ⟨n, rfl⟩ : ∃ n, fuel = n + 1 := ⟨fuel - 1, by omega⟩
  exact mainLoop_step flag cols n buffer stdin out buffer1 rest line hf hl

theorem mainLoop_eof (flag : Int) (cols : List Int) (fuel : Nat) (buffer out : List Char)
    (h0 : 0 < fuel) : mainLoop flag cols fuel buffer [] out = some out := by
  obtain ⟨n, rfl⟩ : ∃ n, fuel = n + 1 := ⟨fuel - 1, by omega⟩
  exact mainLoop_done flag cols n buffer out

theorem main_run (p opt sel buffer stdin : List Char) (flag : Int) (cols : List Int)
    (out : List Char)
    (hflag : (if opt = "-l".toList then some (0 : Int)
              else if opt = "-w".toList then some 1
              else if opt = "-c".toList then some 2 else none) = some flag)
    (hv : validateSelection sel = 0) (hg : getCols zeroCols sel = some cols)
    (hm : mainLoop flag cols (stdin.length + 1) buffer stdin [] = some out) :
    main [p, opt, sel] buffer stdin = some (0, out) := by
  unfold main
  simp only [List.length_cons, List.length_nil, List.getD_cons_succ, List.getD_cons_zero]
  simp only [hflag, hv, hg]
  simp [hm]

set_option maxRecDepth 100000 in
/-- C12 (code defect): the run of Example 2 of the file header.  With `-w`, the
selection `"1,3-5"` and the input `"this is some\nsample text"`, whatever the
array `buffer` holds at the start, `main` writes the two lines `"this some"` and
`"sample "`: in the second line the field `text` is column 2, which is not
selected, and a separator follows `sample` because column 3 is pending when the
space is crossed.  The header documents `"sample text"` as the second line. -/
theorem main_example_two (buffer : List Char) :
    main ["./a.out".toList, "-w".toList, "1,3-5".toList] buffer
        "this is some\nsample text".toList =
      some (0, "this some\nsample \n".toList) := by
  have hg : getCols zeroCols "1,3-5".toList = some (colsOf [1, 3, 4, 5]) := by decide
  have hf1 : fgets buffer 128 "this is some\nsample text".toList =
      some (("this is some\n".toList ++ [NUL]) ++ buffer.drop 14, "sample text".toList) := by
    simp [fgets, fgetsTake]
  have hl1 := extractLine_extend 1 (colsOf [1, 3, 4, 5]) ("this is some\n".toList ++ [NUL])
    (buffer.drop 14) "this some\n".toList (by decide)
  have hf2 : fgets (("this is some\n".toList ++ [NUL]) ++ buffer.drop 14) 128
      "sample text".toList =
      some (("sample text".toList ++ [NUL]) ++ ('\n' :: NUL :: buffer.drop 14), []) := by
    simp [fgets, fgetsTake]
  have hl2 := extractLine_extend 1 (colsOf [1, 3, 4, 5]) ("sample text".toList ++ [NUL])
    ('\n' :: NUL :: buffer.drop 14) "sample \n".toList (by decide)
  refine main_run _ _ _ _ _ 1 _ _ (by decide) (by decide) hg ?_
  rw [mainLoop_next 1 _ _ _ _ _ _ _ _ (by decide) hf1 hl1,
    mainLoop_next 1 _ _ _ _ _ _ _ _ (by decide) hf2 hl2,
    mainLoop_eof 1 _ _ _ _ (by decide)]
  rfl
/-! ## Lines that the field modes do not split as documented -/

set_option maxRecDepth 100000 in
/-- C13 (code defect): in Whitespace mode on the line `"a  b"` (two spaces),
whatever follows the line in the buffer, the selection of column 3 writes
nothing and the selection of column 2 writes `" b"`: the loop steps over the
first space onto the second one without testing it, takes it for the first
character of field 2, and `b` stays in field 2.  The split of the line on single
spaces is `"a"`, `""`, `"b"`. -/
theorem whitespace_adjacent_spaces (junk : List Char) :
    List.splitOn ' ' "a  b".toList = ["a".toList, [], "b".toList] ∧
    AscendingCols [3] ∧ AscendingCols [2] ∧
    extractLine 1 (colsOf [3]) ("a  b".toList ++ '\n' :: NUL :: junk) = some "\n".toList ∧
    extractLine 1 (colsOf [2]) ("a  b".toList ++ '\n' :: NUL :: junk) = some " b\n".toList := by
  refine ⟨by decide, by decide, by decide, ?_, ?_⟩
  · simpa using extractLine_extend 1 (colsOf [3]) ("a  b".toList ++ ['\n', NUL]) junk
      "\n".toList (by decide)
  · simpa using extractLine_extend 1 (colsOf [2]) ("a  b".toList ++ ['\n', NUL]) junk
      " b\n".toList (by decide)

set_option maxRecDepth 100000 in
/-- C14 (code defect): in CommaSeparated mode on the line `"a,,b"`, whatever
follows the line in the buffer, the selection of column 2 writes `",b"`: the
loop steps over the first comma onto the second one without testing it and
prints it as the first character of field 2. -/
theorem commaSeparated_echoes_comma (junk : List Char) :
    AscendingCols [2] ∧
    extractLine 2 (colsOf [2]) ("a,,b".toList ++ '\n' :: NUL :: junk) = some ",b\n".toList := by
  refine ⟨by decide, ?_⟩
  simpa using extractLine_extend 2 (colsOf [2]) ("a,,b".toList ++ ['\n', NUL]) junk
    ",b\n".toList (by decide)

set_option maxRecDepth 100000 in
/-- C15 (code defect): the line `"a "`, last line of the input and so ended by
the NUL of `fgets`, with the cells of the previous line `"p,q r s"` behind it.
The loop steps over the delimiter onto the NUL and goes on in the cells of the
previous line, where a space is a delimiter for Whitespace mode and a field
character for CommaSeparated mode: with the selection `"2,3"` Whitespace mode
writes NUL, `" r"` for the line `"a "` and CommaSeparated mode writes NUL,
`" r s"` for the line `"a,"`.  Both runs of `main` are given, for every initial
contents of the array `buffer`. -/
theorem commaSeparated_differs_from_whitespace (buffer junk : List Char) :
    extractLine 1 (colsOf [2, 3]) ("a ".toList ++ NUL :: " r s\n".toList ++ NUL :: junk) =
      some [NUL, ' ', 'r', '\n'] ∧
    extractLine 2 (colsOf [2, 3]) ("a,".toList ++ NUL :: " r s\n".toList ++ NUL :: junk) =
      some [NUL, ' ', 'r', ' ', 's', '\n'] ∧
    main ["./a.out".toList, "-w".toList, "2,3".toList] buffer "p,q r s\na ".toList =
      some (0, "r s\n".toList ++ [NUL, ' ', 'r', '\n']) ∧
    main ["./a.out".toList, "-c".toList, "2,3".toList] buffer "p,q r s\na,".toList =
      some (0, "q r s\n".toList ++ [NUL, ' ', 'r', ' ', 's', '\n']) := by
  have hg : getCols zeroCols "2,3".toList = some (colsOf [2, 3]) := by decide
  have hw := extractLine_extend 1 (colsOf [2, 3])
    ("a ".toList ++ NUL :: " r s\n".toList ++ [NUL]) junk [NUL, ' ', 'r', '\n'] (by decide)
  have hc := extractLine_extend 2 (colsOf [2, 3])
    ("a,".toList ++ NUL :: " r s\n".toList ++ [NUL]) junk [NUL, ' ', 'r', ' ', 's', '\n']
    (by decide)
  refine ⟨by simpa using hw, by simpa using hc, ?_, ?_⟩
  · have hf1 : fgets buffer 128 "p,q r s\na ".toList =
        some (("p,q r s\n".toList ++ [NUL]) ++ buffer.drop 9, "a ".toList) := by
      simp [fgets, fgetsTake]
    have hl1 := extractLine_extend 1 (colsOf [2, 3]) ("p,q r s\n".toList ++ [NUL])
      (buffer.drop 9) "r s\n".toList (by decide)
    have hf2 : fgets (("p,q r s\n".toList ++ [NUL]) ++ buffer.drop 9) 128 "a ".toList =
        some (("a ".toList ++ NUL :: " r s\n".toList ++ [NUL]) ++ buffer.drop 9, []) := by
      simp [fgets, fgetsTake]
    have hl2 := extractLine_extend 1 (colsOf [2, 3])
      ("a ".toList ++ NUL :: " r s\n".toList ++ [NUL]) (buffer.drop 9) [NUL, ' ', 'r', '\n']
      (by decide)
    refine main_run _ _ _ _ _ 1 _ _ (by decide) (by decide) hg ?_
    rw [mainLoop_next 1 _ _ _ _ _ _ _ _ (by decide) hf1 hl1,
      mainLoop_next 1 _ _ _ _ _ _ _ _ (by decide) hf2 hl2,
      mainLoop_eof 1 _ _ _ _ (by decide)]
    rfl
  · have hf1 : fgets buffer 128 "p,q r s\na,".toList =
        some (("p,q r s\n".toList ++ [NUL]) ++ buffer.drop 9, "a,".toList) := by
      simp [fgets, fgetsTake]
    have hl1 := extractLine_extend 2 (colsOf [2, 3]) ("p,q r s\n".toList ++ [NUL])
      (buffer.drop 9) "q r s\n".toList (by decide)
    have hf2 : fgets (("p,q r s\n".toList ++ [NUL]) ++ buffer.drop 9) 128 "a,".toList =
        some (("a,".toList ++ NUL :: " r s\n".toList ++ [NUL]) ++ buffer.drop 9, []) := by
      simp [fgets, fgetsTake]
    have hl2 := extractLine_extend 2 (colsOf [2, 3])
      ("a,".toList ++ NUL :: " r s\n".toList ++ [NUL]) (buffer.drop 9)
      [NUL, ' ', 'r', ' ', 's', '\n'] (by decide)
    refine main_run _ _ _ _ _ 2 _ _ (by decide) (by decide) hg ?_
    rw [mainLoop_next 2 _ _ _ _ _ _ _ _ (by decide) hf1 hl1,
      mainLoop_next 2 _ _ _ _ _ _ _ _ (by decide) hf2 hl2,
      mainLoop_eof 2 _ _ _ _ (by decide)]
    rfl

set_option maxRecDepth 100000 in
/-- C16 (code defect): the read cursor passes the end of the line.  With `-w`
and the selection `"2"`, the last line `"a "` of the input `"bxxy\na "` is
stored as `a`, space, NUL in front of the cells `y`, newline, NUL left by the
first line: the loop steps over the space onto the NUL at position 2, prints
it, and goes on to position 3, behind the end of the line, where it prints the
`y` of the previous line.  The run of `main` is given for every initial
contents of the array `buffer`. -/
theorem cursor_passes_line_end (buffer : List Char) :
    traceLine 1 (colsOf [2]) ("a ".toList ++ NUL :: "y\n".toList ++ [NUL]) =
      some [Event.emit ⟨2, 2, NUL⟩, Event.emit ⟨2, 3, 'y'⟩] ∧
    main ["./a.out".toList, "-w".toList, "2".toList] buffer "bxxy\na ".toList =
      some (0, "\n".toList ++ [NUL, 'y', '\n']) := by
  have hg : getCols zeroCols "2".toList = some (colsOf [2]) := by decide
  refine ⟨by decide, ?_⟩
  have hf1 : fgets buffer 128 "bxxy\na ".toList =
      some (("bxxy\n".toList ++ [NUL]) ++ buffer.drop 6, "a ".toList) := by
    simp [fgets, fgetsTake]
  have hl1 := extractLine_extend 1 (colsOf [2]) ("bxxy\n".toList ++ [NUL])
    (buffer.drop 6) "\n".toList (by decide)
  have hf2 : fgets (("bxxy\n".toList ++ [NUL]) ++ buffer.drop 6) 128 "a ".toList =
      some (("a ".toList ++ NUL :: "y\n".toList ++ [NUL]) ++ buffer.drop 6, []) := by
    simp [fgets, fgetsTake]
  have hl2 := extractLine_extend 1 (colsOf [2])
    ("a ".toList ++ NUL :: "y\n".toList ++ [NUL]) (buffer.drop 6) [NUL, 'y', '\n']
    (by decide)
  refine main_run _ _ _ _ _ 1 _ _ (by decide) (by decide) hg ?_
  rw [mainLoop_next 1 _ _ _ _ _ _ _ _ (by decide) hf1 hl1,
    mainLoop_next 1 _ _ _ _ _ _ _ _ (by decide) hf2 hl2,
    mainLoop_eof 1 _ _ _ _ (by decide)]
  rfl

end Scut
